import Mathlib

/-!
# GraphGrad binary-operation node (`src/BinaryOp.h`)

A shallow embedding of the binary-operation node of the lazy tensor engine:
the shape verifier, the node constructor, the element-wise kernels (host loop
and device kernel) and the matrix-multiplication kernels (host loop with a
transposed copy, device kernel unrolled by four).

Conventions of the embedding.
* `size_t` values are natural numbers; arithmetic that the source performs in
  `size_t` is reduced modulo `2^64` (`SIZE_T_MOD`), arithmetic on the CUDA
  built-ins `blockIdx`, `blockDim`, `threadIdx` is reduced modulo `2^32`.
* Buffers (`scalar_t*`, `std::vector<scalar_t>`) are lists; a read or a write
  outside the buffer is undefined behaviour in the source and yields `none` here.
* `scalar_t` and its arithmetic are a parameter (`scalar_ops`): nothing below
  depends on properties of floating-point arithmetic. The order of an OpenMP
  `simd reduction` is a parameter as well; loops under `omp parallel for` write
  disjoint cells and are run in index order.
* A C++ exception is the `error` case of `Except PyError`.
-/

namespace GraphGrad

/-! ## Data model -/

/-- The operation kinds, `enum class BinaryOpType`. -/
inductive BinaryOpType where
  | ADD
  | SUB
  | MUL
  | DIV
  | POW
  | MATMUL
  deriving DecidableEq, Repr

/-- The exceptions thrown by the source: `py::value_error` and `std::domain_error`. -/
inductive PyError where
  | value_error (message : String)
  | domain_error (message : String)
  deriving DecidableEq, Repr

/-- The modulus of `size_t` arithmetic. -/
def SIZE_T_MOD : Nat := 2 ^ 64

/-- The modulus of `unsigned int` arithmetic (CUDA thread coordinates). -/
def UINT_MOD : Nat := 2 ^ 32

/-- Modelled from the spec: `utils.h` is absent, `product(dims)` is the total element count of a
shape; it is accumulated in `size_t`, hence reduced modulo `2^64` after every multiplication. -/
def product (dims : List Nat) : Nat :=
  dims.foldl (fun acc d => (acc * d) % SIZE_T_MOD) 1

/-- Modelled from the spec: `utils.h` is absent, `vector_to_string(dims)` renders a shape in
human-readable form (used only inside error messages). -/
def vector_to_string (dims : List Nat) : String :=
  "[" ++ ", ".intercalate (dims.map toString) ++ "]"

/-- Modelled from the spec: `Tensor.h` is absent; a node of the graph has a shape (`dims`), a
structural hash (`hashValue`) and a device-placement flag (`on_gpu`). -/
structure Tensor where
  dims : List Nat
  hashValue : Nat
  on_gpu : Bool
  deriving DecidableEq, Repr

/-- Every dimension of a shape is a `size_t` value (the element type of `std::vector<size_t>`). -/
def size_t_dims (dims : List Nat) : Prop :=
  ∀ d ∈ dims, d < SIZE_T_MOD

instance (dims : List Nat) : Decidable (size_t_dims dims) := by
  unfold size_t_dims
  infer_instance

/-- Whether a result is a raised `py::value_error`. -/
def is_value_error {β : Type} : Except PyError β → Bool
  | .error (.value_error _) => true
  | _ => false

/-! ## Shape verification -/

/-- The static method `BinaryOp::verify_and_get_dims`. -/
def verify_and_get_dims (left right : Tensor) (op_type : BinaryOpType) :
    Except PyError (List Nat) :=
  match op_type with
  | .MATMUL =>
    if left.dims.length == 2 && right.dims.length == 2
        && left.dims.getD 1 0 == right.dims.getD 0 0 then
      .ok [left.dims.getD 0 0, right.dims.getD 1 0]
    else
      .error (.value_error ("invalid dims for BinaryOpType::MATMUL: left.dims="
        ++ vector_to_string left.dims ++ ", right.dims=" ++ vector_to_string right.dims))
  | _ =>
    let is_left_scalar := product left.dims == 1
    let is_right_scalar := product right.dims == 1
    if left.dims != right.dims && !is_left_scalar && !is_right_scalar then
      .error (.value_error ("binary op dims mismatch: left.dims="
        ++ vector_to_string left.dims ++ ", right.dims=" ++ vector_to_string right.dims))
    else if is_left_scalar && is_right_scalar then
      if left.dims.length > right.dims.length then
        .ok left.dims
      else
        .ok right.dims
    else if is_left_scalar then
      .ok right.dims
    else
      .ok left.dims

/-! ## Scalars, buffers and loops -/

/-- An evaluation order for a loop under `#pragma omp simd reduction(+:sum)`, in which
iteration `j` adds one term to `sum`. OpenMP leaves the grouping and the order of the additions
unspecified: every lane adds its terms into a private copy that starts at `0.0`, and the copies
are combined with the original `sum` in some order. A leaf is the value `0.0` or the term of an
iteration, an inner node is one addition. -/
inductive reduction_tree where
  | zero
  | term (j : Nat)
  | add (a b : reduction_tree)
  deriving DecidableEq, Repr

/-- The iterations whose terms a reduction order adds, from left to right. -/
def reduction_tree.terms : reduction_tree → List Nat
  | .zero => []
  | .term j => [j]
  | .add a b => a.terms ++ b.terms

/-- The sequential order: `((0.0 + t 0) + t 1) + ...`, the order of the loop without the
pragma. -/
def reduction_tree.in_order : Nat → reduction_tree
  | 0 => .zero
  | n + 1 => .add (reduction_tree.in_order n) (.term n)

/-- One lane: a private copy starting at `0.0` to which the terms of a list of iterations are
added in turn. -/
def reduction_tree.lane (l : List Nat) : reduction_tree :=
  l.foldl (fun t j => .add t (.term j)) .zero

/-- A two-lane order: the even iterations are added in one lane, the odd ones in another, and
the two lanes are then added to the original `sum`. -/
def reduction_tree.two_lanes (n : Nat) : reduction_tree :=
  .add (.add .zero (reduction_tree.lane ((List.range n).filter fun j => j % 2 == 0)))
    (reduction_tree.lane ((List.range n).filter fun j => !(j % 2 == 0)))

/-- Modelled from the spec: `Tensor.h` is absent; `scalar_t` is the element type of every
buffer. Its arithmetic (the literal `0.0`, `+`, `-`, `*`, `/` and `pow`) is a parameter of the
embedding, so that no property of floating-point arithmetic is assumed. The order in which a
`simd reduction(+)` of `width` terms is evaluated for output index `i` is unspecified by OpenMP
and is a parameter too (`simd_plan i width`); it adds the term of every iteration below `width`
exactly once. -/
structure scalar_ops (α : Type) where
  zero : α
  add : α → α → α
  sub : α → α → α
  mul : α → α → α
  div : α → α → α
  pow : α → α → α
  simd_plan : Nat → Nat → reduction_tree
  simd_plan_perm : ∀ i width, ((simd_plan i width).terms).Perm (List.range width)

/-- Integer arithmetic as an instance of the scalar operations (`pow` with the exponent
truncated at zero), with reductions evaluated in sequential order; used to evaluate the kernels
on concrete inputs. -/
def int_ops : scalar_ops Int where
  zero := 0
  add := fun a b => a + b
  sub := fun a b => a - b
  mul := fun a b => a * b
  div := fun a b => a / b
  pow := fun a b => a ^ b.toNat
  simd_plan := fun _ width => reduction_tree.in_order width
  simd_plan_perm := fun _ width => by
    have h : (reduction_tree.in_order width).terms = List.range width := by
      induction width with
      | zero => rfl
      | succ n ih =>
        simp only [reduction_tree.in_order, reduction_tree.terms, ih, List.range_succ]
    rw [h]

/-- The rounding of an exact integer result to an integer-valued IEEE double, for magnitudes
below `2^54`: exact below `2^53`, and from there on the nearest even integer, a tie going to the
multiple of 4. -/
def round_double (s : Int) : Int :=
  if s.natAbs < 2 ^ 53 then s
  else if s % 2 = 0 then s
  else if (s + 1) % 4 = 0 then s + 1
  else s - 1

/-- Rounded integer arithmetic: every sum, difference, product and power is rounded as a
double would round it, and division is the integer division of `int_ops`; reductions are
evaluated in two lanes. An instance of the scalar operations whose addition is not
associative, used to evaluate the kernels on concrete inputs. -/
def rounding_ops : scalar_ops Int where
  zero := 0
  add := fun a b => round_double (a + b)
  sub := fun a b => round_double (a - b)
  mul := fun a b => round_double (a * b)
  div := fun a b => a / b
  pow := fun a b => round_double (a ^ b.toNat)
  simd_plan := fun _ width => reduction_tree.two_lanes width
  simd_plan_perm := fun _ width => by
    have hlane : ∀ (l : List Nat) (t : reduction_tree),
        (l.foldl (fun t j => reduction_tree.add t (reduction_tree.term j)) t).terms
          = t.terms ++ l := by
      intro l
      induction l with
      | nil =>
        intro t
        simp
      | cons j l ih =>
        intro t
        rw [List.foldl_cons, ih]
        simp [reduction_tree.terms]
    simp only [reduction_tree.two_lanes, reduction_tree.lane, reduction_tree.terms, hlane,
      List.nil_append]
    exact List.filter_append_perm _ _

/-- The evaluation of a reduction in a given order; `term j` is the term of iteration `j`, and
is `none` when that iteration reads outside a buffer. -/
def reduction_tree.eval {α : Type} (S : scalar_ops α) (term : Nat → Option α) :
    reduction_tree → Option α
  | .zero => some S.zero
  | .term j => term j
  | .add a b => (a.eval S term).bind fun x => (b.eval S term).bind fun y => some (S.add x y)

/-- The write `data[i] = v` into a buffer; outside the buffer it is undefined (`none`). -/
def buffer_store {α : Type} (data : List α) (i : Nat) (v : α) : Option (List α) :=
  if i < data.length then some (data.set i v) else none

/-- The loop `for (size_t i = 0; i < n; i++) body`, threading the state through the iterations
in increasing order of `i`. -/
def for_loop {σ : Type} (n : Nat) (body : Nat → σ → Option σ) (init : σ) : Option σ :=
  match n with
  | 0 => some init
  | n + 1 => (for_loop n body init).bind (body n)

/-- The loop `for (; cond; ) body` on an explicit state; `fuel` bounds the number of
iterations, and running out of it yields `none`. -/
def while_loop {σ : Type} (cond : σ → Bool) (body : σ → Option σ) : Nat → σ → Option σ
  | 0, _ => none
  | fuel + 1, s => if cond s then (body s).bind (while_loop cond body fuel) else some s

/-! ## Device model -/

/-- Modelled from the spec: the CUDA built-in type of `blockIdx`, `blockDim`, `threadIdx` and of
launch configurations. -/
structure dim3 where
  x : Nat
  y : Nat
  z : Nat
  deriving DecidableEq, Repr

/-- Modelled from the spec: `cuda_helpers.h` is absent; a device buffer reference, made of the
pointer (the memory it points to) and the element count the node was allocated with. -/
structure CudaArrayRef (α : Type) where
  ptr : List α
  length : Nat

/-- The write `out.ptr[index] = v` into device memory. -/
def CudaArrayRef.store {α : Type} (out : CudaArrayRef α) (index : Nat) (v : α) :
    Option (CudaArrayRef α) :=
  (buffer_store out.ptr index v).map fun p => { out with ptr := p }

/-- The expression `(blockIdx.x * blockDim.x) + threadIdx.x` (and its `.y` analogue): computed on
`unsigned int` operands, hence modulo `2^32`, before it is widened to `size_t`. -/
def thread_index (blockIdx blockDim threadIdx : Nat) : Nat :=
  ((blockIdx * blockDim) % UINT_MOD + threadIdx) % UINT_MOD

/-- The threads of a launch `<<<gridDim, blockDim>>>`, as pairs (blockIdx, threadIdx). -/
def grid_threads (gridDim blockDim : dim3) : List (dim3 × dim3) :=
  (List.range gridDim.z).flatMap fun bz =>
  (List.range gridDim.y).flatMap fun by_ =>
  (List.range gridDim.x).flatMap fun bx =>
  (List.range blockDim.z).flatMap fun tz =>
  (List.range blockDim.y).flatMap fun ty =>
  (List.range blockDim.x).map fun tx => (⟨bx, by_, bz⟩, ⟨tx, ty, tz⟩)

/-- Runs a kernel for each thread of a list, one after the other (a schedule of the launch);
the kernel receives (blockIdx, threadIdx) and transforms the output buffer. -/
def run_threads {σ : Type} (kernel : dim3 → dim3 → σ → Option σ) :
    List (dim3 × dim3) → σ → Option σ
  | [], out => some out
  | th :: rest, out => (kernel th.1 th.2 out).bind (run_threads kernel rest)

/-- The kernel launch `kernel<<<gridDim, blockDim>>>(...)`. -/
def launch {σ : Type} (kernel : dim3 → dim3 → dim3 → σ → Option σ) (gridDim blockDim : dim3)
    (out : σ) : Option σ :=
  run_threads (fun blockIdx threadIdx => kernel blockIdx blockDim threadIdx)
    (grid_threads gridDim blockDim) out

/-- Modelled from the spec: `cuda_helpers.h` is absent; the block sizes, the block-count helper
`num_blocks(n, block_size)` (applied to the value of its first argument) and the contents of a
fresh device allocation of a given element count are parameters. -/
structure cuda_helpers (α : Type) where
  BLOCK_SIZE : Nat
  MM_BLOCK_SIZE : Nat
  num_blocks : Int → Nat → Nat
  fresh : Nat → List α
  fresh_length : ∀ n, (fresh n).length = n

/-- Concrete launch helpers for evaluating the kernels on examples: blocks of four threads
(two by two for MATMUL), `num_blocks` rounding up, fresh device memory filled with 7. -/
def int_cuda_helpers : cuda_helpers Int where
  BLOCK_SIZE := 4
  MM_BLOCK_SIZE := 2
  num_blocks := fun n b => ((n.toNat + b - 1) / b)
  fresh := fun n => List.replicate n 7
  fresh_length := fun n => List.length_replicate n 7

/-- Modelled from the spec: `Tensor::allocate_data_cpu()` is absent; it returns the node's host
buffer, sized to the element count of the node and value-initialised. -/
def allocate_data_cpu {α : Type} (S : scalar_ops α) (self : Tensor) : List α :=
  List.replicate (product self.dims) S.zero

/-- Modelled from the spec: `Tensor::allocate_data_gpu()` is absent; it returns a reference to a
fresh device buffer sized to the element count of the node. -/
def allocate_data_gpu {α : Type} (C : cuda_helpers α) (self : Tensor) : CudaArrayRef α :=
  { ptr := C.fresh (product self.dims), length := product self.dims }

/-! ## Element-wise kernels (`IMPL_POINTWISE_BINARY_OP`) -/

/-- The device kernel `kernel_binary_##__name`, for the expression `__expr`. -/
def kernel_binary {α : Type} (expr : α → α → α) (left right : List α) (out : CudaArrayRef α)
    (left_len right_len : Nat) (blockIdx blockDim threadIdx : dim3) : Option (CudaArrayRef α) :=
  let index := thread_index blockIdx.x blockDim.x threadIdx.x
  if index < out.length then do
    let a ← (if left_len = 1 then left[0]? else left[index]?)
    let b ← (if right_len = 1 then right[0]? else right[index]?)
    out.store index (expr a b)
  else
    some out

/-- The body of the host loop of `binary_compute_data_##__name`, at iteration `i`. -/
def binary_cpu_iteration {α : Type} (expr : α → α → α) (left right : List α)
    (left_len right_len : Nat) (i : Nat) (data : List α) : Option (List α) := do
  let a ← (if left_len = 1 then left[0]? else left[i]?)
  let b ← (if right_len = 1 then right[0]? else right[i]?)
  buffer_store data i (expr a b)

/-- The function `binary_compute_data_##__name`, for the expression `__expr`; the result is the
data buffer of `self`. -/
def binary_compute_data {α : Type} (S : scalar_ops α) (C : cuda_helpers α) (expr : α → α → α)
    (self : Tensor) (left right : List α) (left_len right_len : Nat) : Option (List α) :=
  if self.on_gpu then
    let data := allocate_data_gpu C self
    (launch (fun blockIdx blockDim threadIdx out =>
        kernel_binary expr left right out left_len right_len blockIdx blockDim threadIdx)
      ⟨C.num_blocks data.length C.BLOCK_SIZE, 1, 1⟩ ⟨C.BLOCK_SIZE, 1, 1⟩ data).map
      fun out => out.ptr
  else
    let data := allocate_data_cpu S self
    for_loop data.length (binary_cpu_iteration expr left right left_len right_len) data

/-- The expansion `IMPL_POINTWISE_BINARY_OP(add, a + b)`. -/
def binary_compute_data_add {α : Type} (S : scalar_ops α) (C : cuda_helpers α) :=
  binary_compute_data S C S.add

/-- The expansion `IMPL_POINTWISE_BINARY_OP(sub, a - b)`. -/
def binary_compute_data_sub {α : Type} (S : scalar_ops α) (C : cuda_helpers α) :=
  binary_compute_data S C S.sub

/-- The expansion `IMPL_POINTWISE_BINARY_OP(mul, a * b)`. -/
def binary_compute_data_mul {α : Type} (S : scalar_ops α) (C : cuda_helpers α) :=
  binary_compute_data S C S.mul

/-- The expansion `IMPL_POINTWISE_BINARY_OP(div, a / b)`. -/
def binary_compute_data_div {α : Type} (S : scalar_ops α) (C : cuda_helpers α) :=
  binary_compute_data S C S.div

/-- The expansion `IMPL_POINTWISE_BINARY_OP(pow, pow(a, b))`. -/
def binary_compute_data_pow {α : Type} (S : scalar_ops α) (C : cuda_helpers α) :=
  binary_compute_data S C S.pow

/-! ## Matrix multiplication -/

/-- The body of the first reduction loop of `kernel_matmul_2d`, on the state (k, sum): four
products are added through the pointers `in1 + (i * sk + k)` and `in2 + (j * sk + k)`, then
`k += 4`. -/
def kernel_matmul_2d_unrolled {α : Type} (S : scalar_ops α) (in1 in2 : List α) (i j sk : Nat)
    (s : Nat × α) : Option (Nat × α) :=
  let in1_ptr := (i * sk + s.1) % SIZE_T_MOD
  let in2_ptr := (j * sk + s.1) % SIZE_T_MOD
  (for_loop 4 (fun ku sum => do
    let x ← in1[in1_ptr + ku]?
    let y ← in2[in2_ptr + ku]?
    some (S.add sum (S.mul x y))) s.2).bind fun sum =>
  some ((s.1 + 4) % SIZE_T_MOD, sum)

/-- The body of the second reduction loop of `kernel_matmul_2d`, on the state (k, sum): one
product is added, then `++k`. -/
def kernel_matmul_2d_remainder {α : Type} (S : scalar_ops α) (in1 in2 : List α) (i j sk : Nat)
    (s : Nat × α) : Option (Nat × α) :=
  (in1[(i * sk + s.1) % SIZE_T_MOD]?).bind fun x =>
  (in2[(j * sk + s.1) % SIZE_T_MOD]?).bind fun y =>
  some ((s.1 + 1) % SIZE_T_MOD, S.add s.2 (S.mul x y))

/-- The device kernel `kernel_matmul_2d`. The state of the two reduction loops is the pair
(k, sum), starting from (0, 0.0); the first loop runs while `k + 3 < sk`, the second while
`k < sk`, and the sum is then written to `out.ptr[i * sj + j]`. -/
def kernel_matmul_2d {α : Type} (S : scalar_ops α) (in1 in2 : List α) (out : CudaArrayRef α)
    (si sj sk : Nat) (blockIdx blockDim threadIdx : dim3) : Option (CudaArrayRef α) :=
  let i := thread_index blockIdx.x blockDim.x threadIdx.x
  let j := thread_index blockIdx.y blockDim.y threadIdx.y
  if i < si ∧ j < sj then
    (while_loop (fun s : Nat × α => decide ((s.1 + 3) % SIZE_T_MOD < sk))
      (kernel_matmul_2d_unrolled S in1 in2 i j sk) (sk + 1) (0, S.zero)).bind fun s1 =>
    (while_loop (fun s : Nat × α => decide (s.1 < sk))
      (kernel_matmul_2d_remainder S in1 in2 i j sk) (sk + 1) s1).bind fun s2 =>
    out.store ((i * sj + j) % SIZE_T_MOD) s2.2
  else
    some out

/-- Modelled from the spec: `TransposeOp.cuh` is absent; the evaluated companion node
`transpose(node, 0, 1)` of a node of shape (rows, cols) holds the buffer in transposed layout:
the entry (c, r) of the result is the entry (r, c) of the operand. -/
def transpose_eval {α : Type} (S : scalar_ops α) (rows cols : Nat) (data : List α) : List α :=
  (List.range (rows * cols)).map fun t => data.getD ((t % rows) * cols + t / rows) S.zero

/-- The conversion of a `size_t` value to `int` (two's complement, 32 bits). -/
def int_of_size_t (n : Nat) : Int :=
  if n % UINT_MOD < 2 ^ 31 then (n % UINT_MOD : Nat) else (n % UINT_MOD : Nat) - (UINT_MOD : Int)

/-- The conversion of an `int` value to `size_t`. -/
def size_t_of_int (z : Int) : Nat :=
  (z % (SIZE_T_MOD : Int)).toNat

/-- The first loop nest of the host MATMUL branch: the temporary transposed copy
`right_data_transposed` of the right child's data. -/
def matmul_transposed_copy {α : Type} (S : scalar_ops α) (right_dims : List Nat)
    (right_child_data : List α) (width cols : Nat) : Option (List α) :=
  let right_data_transposed : List α := List.replicate (product right_dims) S.zero
  for_loop width (fun i t =>
    for_loop cols (fun j t => do
      let v ← right_child_data[(i * cols + j) % SIZE_T_MOD]?
      buffer_store t ((j * width + i) % SIZE_T_MOD) v) t) right_data_transposed

/-- The body of the second loop of the host MATMUL branch, at output index `i`: the reduction
over one row of the left data and one row of the transposed copy. The inner loop runs under
`#pragma omp simd reduction(+:sum)`, so its terms are added in the order `S.simd_plan i width`,
not necessarily in increasing `j`. -/
def matmul_cpu_iteration {α : Type} (S : scalar_ops α)
    (left_child_data right_data_transposed : List α) (width cols : Nat) (i : Nat)
    (data : List α) : Option (List α) :=
  if cols = 0 then none
  else
    let r := i / cols
    let c := i % cols
    let left_row := (r * width) % SIZE_T_MOD
    let right_col := (c * width) % SIZE_T_MOD
    ((S.simd_plan i width).eval S (fun j => do
      let x ← left_child_data[left_row + j]?
      let y ← right_data_transposed[right_col + j]?
      some (S.mul x y))).bind fun sum =>
    buffer_store data i sum

/-- The host branch of the MATMUL case of `BinaryOp::compute_data`: the transposed copy of the
right operand, then one reduction per output cell. -/
def matmul_cpu {α : Type} (S : scalar_ops α) (right_dims : List Nat)
    (left_child_data right_child_data : List α) (width cols : Nat) (data : List α) :
    Option (List α) :=
  (matmul_transposed_copy S right_dims right_child_data width cols).bind
    fun right_data_transposed =>
  for_loop data.length
    (matmul_cpu_iteration S left_child_data right_data_transposed width cols) data

/-- The device branch of the MATMUL case of `BinaryOp::compute_data`: the right operand is
transposed by a companion node, the dimensions are passed through `int` locals, and the kernel
is launched on a two-dimensional grid. -/
def matmul_gpu {α : Type} (S : scalar_ops α) (C : cuda_helpers α) (left_dims right_dims : List Nat)
    (left_child_data right_child_data : List α) (data : CudaArrayRef α) : Option (List α) :=
  let right_child_data :=
    transpose_eval S (right_dims.getD 0 0) (right_dims.getD 1 0) right_child_data
  let si := int_of_size_t (left_dims.getD 0 0)
  let sj := int_of_size_t (right_dims.getD 1 0)
  let sk := int_of_size_t (right_dims.getD 0 0)
  let num_b : dim3 := ⟨C.num_blocks si C.MM_BLOCK_SIZE, C.num_blocks sj C.MM_BLOCK_SIZE, 1⟩
  let b_size : dim3 := ⟨C.MM_BLOCK_SIZE, C.MM_BLOCK_SIZE, 1⟩
  (launch (fun blockIdx blockDim threadIdx out =>
      kernel_matmul_2d S left_child_data right_child_data out
        (size_t_of_int si) (size_t_of_int sj) (size_t_of_int sk) blockIdx blockDim threadIdx)
    num_b b_size data).map fun out => out.ptr

/-! ## The binary node -/

/-- Modelled from the spec: the static hashing utilities of `Tensor.h` (`Tensor::hash_combine`,
`Tensor::vector_hash`) and `std::hash<std::string>` are absent and taken as parameters. -/
structure hash_utils where
  hash_combine : Nat → Nat → Nat
  vector_hash : List Nat → Nat
  string_hash : String → Nat

/-- Concrete hashing utilities for evaluating the constructor on examples. -/
def sum_hash_utils : hash_utils where
  hash_combine := fun a b => a + b
  vector_hash := fun l => l.sum
  string_hash := fun _ => 7

/-- The class `BinaryOp`: a tensor node with two children and an operation kind. -/
structure BinaryOp extends Tensor where
  leftChild : Tensor
  rightChild : Tensor
  op_type : BinaryOpType
  deriving DecidableEq, Repr

/-- The conversion `static_cast<size_t>(op_type)`. -/
def BinaryOpType.ordinal : BinaryOpType → Nat
  | .ADD => 0
  | .SUB => 1
  | .MUL => 2
  | .DIV => 3
  | .POW => 4
  | .MATMUL => 5

/-- The method `BinaryOp::tensor_hash`. -/
def BinaryOp.tensor_hash (H : hash_utils) (self : BinaryOp) : Nat :=
  let hashValue := 0
  let hashValue := H.hash_combine hashValue (H.vector_hash self.dims)
  let hashValue := H.hash_combine hashValue (H.string_hash "binary")
  let hashValue := H.hash_combine hashValue self.op_type.ordinal
  let hashValue := H.hash_combine hashValue self.leftChild.hashValue
  let hashValue := H.hash_combine hashValue self.rightChild.hashValue
  hashValue

/-- The constructor `BinaryOp::BinaryOp(arg1, arg2, op_type)`. -/
def BinaryOp.new (H : hash_utils) (arg1 arg2 : Tensor) (op_type : BinaryOpType) :
    Except PyError BinaryOp := do
  let dims ← verify_and_get_dims arg1 arg2 op_type
  let self : BinaryOp :=
    { dims := dims, hashValue := 0, on_gpu := false,
      leftChild := arg1, rightChild := arg2, op_type := op_type }
  let self := { self with hashValue := self.tensor_hash H }
  let self := { self with on_gpu := arg1.on_gpu && arg2.on_gpu }
  pure self

/-- The method `BinaryOp::compute_data`, given the evaluated buffers of the two children; the
result is the data buffer of the node. -/
def BinaryOp.compute_data {α : Type} (S : scalar_ops α) (C : cuda_helpers α) (self : BinaryOp)
    (left_child_data right_child_data : List α) : Option (List α) :=
  let left_size := product self.leftChild.dims
  let right_size := product self.rightChild.dims
  match self.op_type with
  | .ADD =>
    binary_compute_data_add S C self.toTensor left_child_data right_child_data left_size right_size
  | .SUB =>
    binary_compute_data_sub S C self.toTensor left_child_data right_child_data left_size right_size
  | .MUL =>
    binary_compute_data_mul S C self.toTensor left_child_data right_child_data left_size right_size
  | .DIV =>
    binary_compute_data_div S C self.toTensor left_child_data right_child_data left_size right_size
  | .POW =>
    binary_compute_data_pow S C self.toTensor left_child_data right_child_data left_size right_size
  | .MATMUL =>
    if self.leftChild.dims.length = 2 ∧ self.rightChild.dims.length = 2
        ∧ self.leftChild.dims.getD 1 0 = self.rightChild.dims.getD 0 0 then
      let width := self.rightChild.dims.getD 0 0
      let cols := self.rightChild.dims.getD 1 0
      if self.on_gpu then
        let data := allocate_data_gpu C self.toTensor
        matmul_gpu S C self.leftChild.dims self.rightChild.dims
          left_child_data right_child_data data
      else
        let data := allocate_data_cpu S self.toTensor
        matmul_cpu S self.rightChild.dims left_child_data right_child_data width cols data
    else
      none

/-! ## Reference formulas, to which the kernels are compared -/

/-- The scalar formula of each element-wise operation: ADD is `a + b`, SUB is `a - b`, MUL is
`a * b`, DIV is `a / b` and POW is `pow(a, b)`. MATMUL has no scalar formula; the value given
for it is never used. -/
def scalar_func {α : Type} (S : scalar_ops α) : BinaryOpType → α → α → α
  | .ADD => S.add
  | .SUB => S.sub
  | .MUL => S.mul
  | .DIV => S.div
  | .POW => S.pow
  | .MATMUL => fun a _ => a

/-- The broadcast-resolved value at output index `i`: `a <op> b` where `a` is `left[0]` if
`left_len` is 1 and `left[i]` otherwise, and likewise for `b`; `none` when a read falls outside
its buffer. -/
def broadcast_value {α : Type} (expr : α → α → α) (left right : List α)
    (left_len right_len : Nat) (i : Nat) : Option α :=
  (if left_len = 1 then left[0]? else left[i]?).bind fun a =>
    (if right_len = 1 then right[0]? else right[i]?).bind fun b => some (expr a b)

/-- The sum of `f 0`, ..., `f (n - 1)`, accumulated from `0.0` in increasing order of the
index. -/
def sum_range {α : Type} (S : scalar_ops α) (n : Nat) (f : Nat → α) : α :=
  (List.range n).foldl (fun acc j => S.add acc (f j)) S.zero

/-- The value of a reduction in a given order, for terms `f j` that are all defined. -/
def reduction_tree.sum {α : Type} (S : scalar_ops α) (f : Nat → α) : reduction_tree → α
  | .zero => S.zero
  | .term j => f j
  | .add a b => S.add (a.sum S f) (b.sum S f)

/-- The entry of the host matrix product at flat index `t = r * n + c`, for a row-major left
buffer of shape (rows, k) and a row-major right buffer of shape (k, n): the products
`left[r * k + j] * right[j * n + c]`, for j below k, added in the order of the simd reduction
of that cell. -/
def matmul_cell_simd {α : Type} (S : scalar_ops α) (left right : List α) (k n : Nat) (t : Nat) :
    α :=
  (S.simd_plan t k).sum S fun j =>
    S.mul (left.getD ((t / n) * k + j) S.zero) (right.getD (j * n + t % n) S.zero)

/-- Scalar addition is exact: associative and commutative with `0.0` neutral, as in real
arithmetic and unlike floating-point addition. -/
def exact_add {α : Type} (S : scalar_ops α) : Prop :=
  (∀ a b c, S.add (S.add a b) c = S.add a (S.add b c)) ∧
    (∀ a b, S.add a b = S.add b a) ∧ ∀ a, S.add S.zero a = a

/-- Writes `val c` into cell `c` of a buffer, for each `c` of a list in turn; `none` as soon as
a value is undefined or a cell is outside the buffer. -/
def write_cells {α : Type} (val : Nat → Option α) : List Nat → List α → Option (List α)
  | [], data => some data
  | c :: cs, data => ((val c).bind (buffer_store data c)).bind (write_cells val cs)

/-! ## The expression graph and `gg::matmul` -/

/-- Modelled from the spec: `ReshapeOp.h` is absent; the hash and the placement flag that a
reshape node gets from its operand and its new shape are parameters. -/
structure reshape_helpers where
  hash : Tensor → List Nat → Nat
  on_gpu : Tensor → List Nat → Bool

/-- A node of the expression graph (a `std::shared_ptr<Tensor>`): an operand whose evaluated
buffer is given, a reshape node over its operand, or a binary node over its two children. -/
inductive Node (α : Type) where
  | input (t : Tensor) (data : List α)
  | reshape (t : Tensor) (child : Node α)
  | binary (op : BinaryOp) (left right : Node α)

/-- The `Tensor` base of a node. -/
def Node.toTensor {α : Type} : Node α → Tensor
  | .input t _ => t
  | .reshape t _ => t
  | .binary op _ _ => op.toTensor

/-- The shape `node->dims`. -/
def Node.dims {α : Type} (node : Node α) : List Nat :=
  node.toTensor.dims

/-- Modelled from the spec: `Tensor::eval()` is absent; it returns the node's buffer: the given
buffer of an operand, the flat buffer of the operand of a reshape node (a reshape preserves the
flat data), and for a binary node the result of `compute_data` on the buffers of the left and
then the right child. Caching is not modelled. -/
def Node.eval {α : Type} (S : scalar_ops α) (C : cuda_helpers α) : Node α → Option (List α)
  | .input _ data => some data
  | .reshape _ child => child.eval S C
  | .binary op left right =>
    (left.eval S C).bind fun l => (right.eval S C).bind fun r => op.compute_data S C l r

/-- Modelled from the spec: `ReshapeOp.h` is absent; `reshape(node, new_shape)` is a new node
of shape `new_shape` over `node`. -/
def reshape {α : Type} (R : reshape_helpers) (node : Node α) (new_shape : List Nat) : Node α :=
  .reshape ⟨new_shape, R.hash node.toTensor new_shape, R.on_gpu node.toTensor new_shape⟩ node

/-- The function `gg::matmul`: one-dimensional operands are reshaped to a row (left) or a
column (right), the two-dimensional shapes are checked, the MATMUL node is constructed, and the
result is reshaped back according to the operands that were promoted. -/
def gg.matmul {α : Type} (H : hash_utils) (R : reshape_helpers) (left right : Node α) :
    Except PyError (Node α) :=
  let squeeze_left := false
  let squeeze_right := false
  let (left, squeeze_left) :=
    if left.dims.length = 1 then (reshape R left [1, left.dims.getD 0 0], true)
    else (left, squeeze_left)
  let (right, squeeze_right) :=
    if right.dims.length = 1 then (reshape R right [right.dims.getD 0 0, 1], true)
    else (right, squeeze_right)
  if ¬ (left.dims.length = 2 ∧ right.dims.length = 2
      ∧ left.dims.getD 1 0 = right.dims.getD 0 0) then
    .error (.value_error ("invalid matmul dims: left.dims="
      ++ vector_to_string left.dims ++ ", right.dims=" ++ vector_to_string right.dims))
  else
    match BinaryOp.new H left.toTensor right.toTensor .MATMUL with
    | .error e => .error e
    | .ok node =>
      let result : Node α := .binary node left right
      if squeeze_left && squeeze_right then
        .ok (reshape R result [])
      else if squeeze_left then
        .ok (reshape R result [result.dims.getD 1 0])
      else if squeeze_right then
        .ok (reshape R result [result.dims.getD 0 0])
      else
        .ok result

/-- The shape of the left operand of `gg::matmul` after promotion: (d) becomes (1, d). -/
def promote_left (dims : List Nat) : List Nat :=
  if dims.length = 1 then [1, dims.getD 0 0] else dims

/-- The shape of the right operand of `gg::matmul` after promotion: (d) becomes (d, 1). -/
def promote_right (dims : List Nat) : List Nat :=
  if dims.length = 1 then [dims.getD 0 0, 1] else dims

/-- Concrete reshape helpers for evaluating `gg::matmul` on examples. -/
def host_reshape_helpers : reshape_helpers where
  hash := fun t new_shape => t.hashValue + new_shape.sum
  on_gpu := fun t _ => t.on_gpu

/-- The output cell that the thread (blockIdx, threadIdx) of `kernel_matmul_2d` writes, if it
writes one: the index `i * sj + j` of the store, under the guard `i < si && j < sj`. -/
def kernel_matmul_2d_cell (si sj : Nat) (blockDim : dim3) (th : dim3 × dim3) : Option Nat :=
  let i := thread_index th.1.x blockDim.x th.2.x
  let j := thread_index th.1.y blockDim.y th.2.y
  if i < si ∧ j < sj then some ((i * sj + j) % SIZE_T_MOD) else none

/-! ## Shape verification: lemmas shared by the theorems below -/

theorem product_nil : product [] = 1 := by
  simp [product]

theorem product_one : product [1] = 1 := by
  simp [product, SIZE_T_MOD]

/-- The non-MATMUL branch of the verifier, written out. -/
theorem verify_elementwise (left right : Tensor) (op_type : BinaryOpType)
    (hop : op_type ≠ .MATMUL) :
    verify_and_get_dims left right op_type =
      if left.dims ≠ right.dims ∧ product left.dims ≠ 1 ∧ product right.dims ≠ 1 then
        .error (.value_error ("binary op dims mismatch: left.dims="
          ++ vector_to_string left.dims ++ ", right.dims=" ++ vector_to_string right.dims))
      else if product left.dims = 1 ∧ product right.dims = 1 then
        (if left.dims.length > right.dims.length then .ok left.dims else .ok right.dims)
      else if product left.dims = 1 then .ok right.dims
      else .ok left.dims := by
  cases op_type <;> first | exact absurd rfl hop | skip
  all_goals
    simp only [verify_and_get_dims]
    by_cases h1 : left.dims = right.dims <;> by_cases h2 : product left.dims = 1 <;>
      by_cases h3 : product right.dims = 1 <;> simp [h1, h2, h3]

/-- The MATMUL branch of the verifier, written out on the two shapes. -/
theorem verify_matmul (left right : Tensor) :
    verify_and_get_dims left right .MATMUL =
      match left.dims, right.dims with
      | [m, k], [k2, n] =>
        if k = k2 then .ok [m, n]
        else .error (.value_error ("invalid dims for BinaryOpType::MATMUL: left.dims="
          ++ vector_to_string left.dims ++ ", right.dims=" ++ vector_to_string right.dims))
      | _, _ => .error (.value_error ("invalid dims for BinaryOpType::MATMUL: left.dims="
          ++ vector_to_string left.dims ++ ", right.dims=" ++ vector_to_string right.dims)) := by
  rcases left with ⟨ld, lh, lg⟩
  rcases right with ⟨rd, rh, rg⟩
  simp only [verify_and_get_dims]
  match ld, rd with
  | [], _ => simp
  | [_], _ => simp
  | _ :: _ :: _ :: _, _ => simp
  | [_, _], [] => simp
  | [_, _], [_] => simp
  | [_, _], _ :: _ :: _ :: _ => simp
  | [m, k], [k2, n] => by_cases h : k = k2 <;> simp [h]

/-! ## Buffers and loops: lemmas -/

theorem buffer_store_some {α : Type} (data : List α) (i : Nat) (v : α) (h : i < data.length) :
    buffer_store data i v = some (data.set i v) := by
  simp [buffer_store, h]

theorem write_cells_append {α : Type} (val : Nat → Option α) (cs ds : List Nat) (data : List α) :
    write_cells val (cs ++ ds) data = (write_cells val cs data).bind (write_cells val ds) := by
  induction cs generalizing data with
  | nil => simp [write_cells]
  | cons c cs ih =>
    simp only [List.cons_append, write_cells]
    cases h : (val c).bind (buffer_store data c) with
    | none => simp
    | some d => simp [ih]

/-- When every value is defined and every cell is inside the buffer, the writes succeed; a
cell of the list holds its value, every other cell is unchanged. -/
theorem write_cells_some {α : Type} (val : Nat → Option α) (cs : List Nat) (data : List α)
    (h : ∀ c ∈ cs, c < data.length ∧ ∃ v, val c = some v) :
    ∃ out, write_cells val cs data = some out ∧ out.length = data.length ∧
      ∀ t, out[t]? = if t ∈ cs then val t else data[t]? := by
  induction cs generalizing data with
  | nil => exact ⟨data, rfl, rfl, fun t => by simp⟩
  | cons c cs ih =>
    obtain ⟨hc, v, hv⟩ := h c (List.mem_cons_self c cs)
    have ih2 := ih (data.set c v) (fun c2 hc2 => by
      rw [List.length_set]
      exact h c2 (List.mem_cons_of_mem c hc2))
    obtain ⟨out, ho, hlen, hcell⟩ := ih2
    refine ⟨out, ?_, ?_, ?_⟩
    · simp [write_cells, hv, buffer_store_some data c v hc, ho]
    · rw [hlen, List.length_set]
    · intro t
      rw [hcell t]
      by_cases ht : t ∈ cs
      · simp [ht]
      · by_cases htc : t = c
        · subst htc
          simp [ht, hv, List.getElem?_set, hc]
        · have hne : c ≠ t := fun e => htc e.symm
          simp [ht, htc, List.getElem?_set, hne]

/-- When some value of the list is undefined, the writes fail. -/
theorem write_cells_none {α : Type} (val : Nat → Option α) (cs : List Nat) (data : List α)
    (hin : ∀ c ∈ cs, c < data.length) (h : ∃ c ∈ cs, val c = none) :
    write_cells val cs data = none := by
  induction cs generalizing data with
  | nil =>
    obtain ⟨c, hc, _⟩ := h
    simp at hc
  | cons c cs ih =>
    simp only [write_cells]
    cases hv : val c with
    | none => simp
    | some v =>
      have hc := hin c (List.mem_cons_self c cs)
      simp only [Option.some_bind, buffer_store_some data c v hc]
      apply ih
      · intro c2 hc2
        rw [List.length_set]
        exact hin c2 (List.mem_cons_of_mem c hc2)
      · obtain ⟨c2, hc2, hn⟩ := h
        rcases List.mem_cons.mp hc2 with e | e
        · subst e
          rw [hv] at hn
          exact absurd hn (by simp)
        · exact ⟨c2, e, hn⟩

/-- Two lists of cells that both cover a whole buffer produce the same buffer, whatever the
initial contents and the order of the writes. -/
theorem write_cells_cover {α : Type} (val : Nat → Option α) (n : Nat) (cs ds : List Nat)
    (data1 data2 : List α) (h1 : data1.length = n) (h2 : data2.length = n)
    (hcs : ∀ c, c ∈ cs ↔ c < n) (hds : ∀ c, c ∈ ds ↔ c < n) :
    write_cells val cs data1 = write_cells val ds data2 := by
  by_cases hall : ∀ c, c < n → ∃ v, val c = some v
  · obtain ⟨o1, e1, l1, c1⟩ := write_cells_some val cs data1
      (fun c hc => ⟨by rw [h1]; exact (hcs c).mp hc, hall c ((hcs c).mp hc)⟩)
    obtain ⟨o2, e2, l2, c2⟩ := write_cells_some val ds data2
      (fun c hc => ⟨by rw [h2]; exact (hds c).mp hc, hall c ((hds c).mp hc)⟩)
    rw [e1, e2]
    congr 1
    apply List.ext_getElem?
    intro t
    rw [c1 t, c2 t]
    by_cases ht : t < n
    · simp [(hcs t).mpr ht, (hds t).mpr ht]
    · have a1 : t ∉ cs := fun hm => ht ((hcs t).mp hm)
      have a2 : t ∉ ds := fun hm => ht ((hds t).mp hm)
      rw [if_neg a1, if_neg a2, List.getElem?_eq_none (by omega), List.getElem?_eq_none (by omega)]
  · have hex : ∃ c, c < n ∧ val c = none := by
      by_contra hcon
      apply hall
      intro c hc
      cases hv : val c with
      | none => exact absurd ⟨c, hc, hv⟩ hcon
      | some v => exact ⟨v, rfl⟩
    obtain ⟨c, hc, hv⟩ := hex
    rw [write_cells_none val cs data1 (fun c hc => by rw [h1]; exact (hcs c).mp hc)
        ⟨c, (hcs c).mpr hc, hv⟩,
      write_cells_none val ds data2 (fun c hc => by rw [h2]; exact (hds c).mp hc)
        ⟨c, (hds c).mpr hc, hv⟩]

/-- A counting loop whose body writes `val i` into cell `i` is a sequence of cell writes. -/
theorem for_loop_write_cells {α : Type} (val : Nat → Option α) (n : Nat)
    (body : Nat → List α → Option (List α))
    (hbody : ∀ i, i < n → ∀ d, body i d = (val i).bind (buffer_store d i)) (data : List α) :
    for_loop n body data = write_cells val (List.range n) data := by
  induction n with
  | zero => rfl
  | succ n ih =>
    have ih2 := ih (fun i hi d => hbody i (Nat.lt_succ_of_lt hi) d)
    rw [for_loop, ih2, List.range_succ, write_cells_append]
    congr 1
    funext d
    rw [hbody n (Nat.lt_succ_self n) d]
    simp [write_cells]

/-- A counting loop whose body never fails is a left fold over the indices. -/
theorem for_loop_fold {σ : Type} (n : Nat) (body : Nat → σ → Option σ) (g : σ → Nat → σ)
    (hbody : ∀ i, i < n → ∀ s, body i s = some (g s i)) (init : σ) :
    for_loop n body init = some ((List.range n).foldl g init) := by
  induction n with
  | zero => rfl
  | succ n ih =>
    rw [for_loop, ih (fun i hi s => hbody i (Nat.lt_succ_of_lt hi) s), List.range_succ,
      List.foldl_append]
    simp [hbody n (Nat.lt_succ_self n)]

/-- A counting loop with an iteration that fails in every state fails. -/
theorem for_loop_none {σ : Type} (n : Nat) (body : Nat → σ → Option σ) (i : Nat) (hi : i < n)
    (h : ∀ s, body i s = none) (init : σ) : for_loop n body init = none := by
  induction n with
  | zero => exact absurd hi (Nat.not_lt_zero i)
  | succ n ih =>
    rw [for_loop]
    by_cases e : i = n
    · subst e
      cases for_loop i body init with
      | none => rfl
      | some s => exact h s
    · rw [ih (by omega)]
      rfl

/-- Invariant rule for the counting loop. -/
theorem for_loop_inv {σ : Type} (P : Nat → σ → Prop) (n : Nat) (body : Nat → σ → Option σ)
    (init : σ) (h0 : P 0 init)
    (hstep : ∀ i, i < n → ∀ s, P i s → ∃ s2, body i s = some s2 ∧ P (i + 1) s2) :
    ∃ s, for_loop n body init = some s ∧ P n s := by
  induction n with
  | zero => exact ⟨init, rfl, h0⟩
  | succ n ih =>
    obtain ⟨s, hs, hP⟩ := ih (fun i hi s hp => hstep i (Nat.lt_succ_of_lt hi) s hp)
    obtain ⟨s2, hb, hP2⟩ := hstep n (Nat.lt_succ_self n) s hP
    exact ⟨s2, by simp [for_loop, hs, hb], hP2⟩

/-- Invariant rule for the conditional loop: with a measure that decreases at every iteration
and fuel above the measure, the loop ends in a state where the condition is false. -/
theorem while_loop_inv {σ : Type} (P : σ → Prop) (μ : σ → Nat) (cond : σ → Bool)
    (body : σ → Option σ)
    (hstep : ∀ s, P s → cond s = true → ∃ s2, body s = some s2 ∧ P s2 ∧ μ s2 < μ s)
    (fuel : Nat) (s : σ) (hP : P s) (hfuel : μ s < fuel) :
    ∃ s2, while_loop cond body fuel s = some s2 ∧ P s2 ∧ cond s2 = false := by
  induction fuel generalizing s with
  | zero => omega
  | succ fuel ih =>
    by_cases hc : cond s = true
    · obtain ⟨s2, hb, hP2, hμ⟩ := hstep s hP hc
      obtain ⟨s3, hw, hP3, hc3⟩ := ih s2 hP2 (by omega)
      exact ⟨s3, by simp [while_loop, hc, hb, hw], hP3, hc3⟩
    · exact ⟨s, by simp [while_loop, hc], hP, by simpa using hc⟩

/-! ## Element-wise kernels: lemmas -/

/-- The host loop body writes the broadcast-resolved value into cell `i`. -/
theorem binary_cpu_iteration_eq {α : Type} (expr : α → α → α) (left right : List α)
    (left_len right_len i : Nat) (data : List α) :
    binary_cpu_iteration expr left right left_len right_len i data =
      (broadcast_value expr left right left_len right_len i).bind (buffer_store data i) := by
  unfold binary_cpu_iteration broadcast_value
  cases (if left_len = 1 then left[0]? else left[i]?) with
  | none => rfl
  | some a =>
    cases (if right_len = 1 then right[0]? else right[i]?) with
    | none => rfl
    | some b => rfl

/-- After a successful element-wise verification each operand either has element count 1 or
has the result shape. -/
theorem verify_sizes (left right : Tensor) (op_type : BinaryOpType) (D : List Nat)
    (hop : op_type ≠ .MATMUL) (h : verify_and_get_dims left right op_type = .ok D) :
    (product left.dims = 1 ∨ left.dims = D) ∧ (product right.dims = 1 ∨ right.dims = D) := by
  rw [verify_elementwise left right op_type hop] at h
  by_cases hl : product left.dims = 1 <;> by_cases hr : product right.dims = 1
  · exact ⟨Or.inl hl, Or.inl hr⟩
  · simp only [hl, hr, ne_eq, not_true_eq_false, false_and, and_false, if_false, if_true,
      Except.ok.injEq] at h
    exact ⟨Or.inl hl, Or.inr h⟩
  · simp only [hl, hr, ne_eq, not_true_eq_false, false_and, and_false, if_false,
      Except.ok.injEq] at h
    exact ⟨Or.inr h, Or.inl hr⟩
  · by_cases he : left.dims = right.dims
    · simp only [hl, hr, he, ne_eq, not_true_eq_false, false_and, and_false, if_false,
        Except.ok.injEq] at h
      exact ⟨Or.inr (he.trans h), Or.inr h⟩
    · simp [hl, hr, he] at h

/-- What a successful construction establishes. -/
theorem BinaryOp.new_ok (H : hash_utils) (arg1 arg2 : Tensor) (op_type : BinaryOpType)
    (self : BinaryOp) (h : BinaryOp.new H arg1 arg2 op_type = .ok self) :
    verify_and_get_dims arg1 arg2 op_type = .ok self.dims ∧ self.leftChild = arg1 ∧
      self.rightChild = arg2 ∧ self.op_type = op_type ∧
      self.on_gpu = (arg1.on_gpu && arg2.on_gpu) := by
  unfold BinaryOp.new at h
  cases hv : verify_and_get_dims arg1 arg2 op_type with
  | error e => simp [hv, bind, Except.bind] at h
  | ok D =>
    simp only [hv, bind, Except.bind, pure, Except.pure, Except.ok.injEq] at h
    subst h
    exact ⟨rfl, rfl, rfl, rfl, rfl⟩

/-- The host branch of `binary_compute_data`, when every operand has length 1 or the output
length: the output has the element count of the node and holds the broadcast-resolved values. -/
theorem binary_compute_data_cpu {α : Type} (S : scalar_ops α) (C : cuda_helpers α)
    (expr : α → α → α) (self : Tensor) (left right : List α) (left_len right_len : Nat)
    (hcpu : self.on_gpu = false)
    (hl : left.length = left_len) (hr : right.length = right_len)
    (hll : left_len = 1 ∨ left_len = product self.dims)
    (hrl : right_len = 1 ∨ right_len = product self.dims) :
    ∃ out, binary_compute_data S C expr self left right left_len right_len = some out ∧
      out.length = product self.dims ∧
      ∀ i, i < product self.dims → ∃ a b,
        (if left_len = 1 then left[0]? else left[i]?) = some a ∧
        (if right_len = 1 then right[0]? else right[i]?) = some b ∧
        out[i]? = some (expr a b) := by
  have hA : ∀ i, i < product self.dims →
      ∃ a, (if left_len = 1 then left[0]? else left[i]?) = some a := by
    intro i hi
    by_cases h1 : left_len = 1
    · rw [if_pos h1]
      exact ⟨left[0], List.getElem?_eq_getElem (by omega)⟩
    · rw [if_neg h1]
      have : left_len = product self.dims := by tauto
      exact ⟨left[i], List.getElem?_eq_getElem (by omega)⟩
  have hB : ∀ i, i < product self.dims →
      ∃ b, (if right_len = 1 then right[0]? else right[i]?) = some b := by
    intro i hi
    by_cases h1 : right_len = 1
    · rw [if_pos h1]
      exact ⟨right[0], List.getElem?_eq_getElem (by omega)⟩
    · rw [if_neg h1]
      have : right_len = product self.dims := by tauto
      exact ⟨right[i], List.getElem?_eq_getElem (by omega)⟩
  have hlen : (allocate_data_cpu S self).length = product self.dims := by
    simp [allocate_data_cpu]
  have hval : ∀ i, i < product self.dims → ∃ a b,
      (if left_len = 1 then left[0]? else left[i]?) = some a ∧
      (if right_len = 1 then right[0]? else right[i]?) = some b ∧
      broadcast_value expr left right left_len right_len i = some (expr a b) := by
    intro i hi
    obtain ⟨a, ha⟩ := hA i hi
    obtain ⟨b, hb⟩ := hB i hi
    exact ⟨a, b, ha, hb, by simp [broadcast_value, ha, hb]⟩
  obtain ⟨out, ho, holen, hcell⟩ := write_cells_some
    (broadcast_value expr left right left_len right_len)
    (List.range (product self.dims)) (allocate_data_cpu S self)
    (fun c hc => by
      have hc2 := List.mem_range.mp hc
      obtain ⟨a, b, _, _, hv⟩ := hval c hc2
      exact ⟨by rw [hlen]; exact hc2, _, hv⟩)
  refine ⟨out, ?_, by rw [holen, hlen], ?_⟩
  · simp only [binary_compute_data, hcpu, Bool.false_eq_true, if_false, hlen]
    rw [for_loop_write_cells (broadcast_value expr left right left_len right_len)]
    · exact ho
    · intro i _ d
      exact binary_cpu_iteration_eq expr left right left_len right_len i d
  · intro i hi
    obtain ⟨a, b, ha, hb, hv⟩ := hval i hi
    refine ⟨a, b, ha, hb, ?_⟩
    rw [hcell i, if_pos (List.mem_range.mpr hi), hv]

/-- A kernel in which every thread either does nothing or writes `val c` into one cell `c`
of the output: any schedule of its threads is a sequence of cell writes. -/
theorem run_threads_write_cells {α : Type} (n : Nat) (val : Nat → Option α)
    (cell : dim3 × dim3 → Option Nat)
    (kernel : dim3 → dim3 → CudaArrayRef α → Option (CudaArrayRef α))
    (hk : ∀ th p, kernel th.1 th.2 ⟨p, n⟩ =
      match cell th with
      | none => some ⟨p, n⟩
      | some c => ((val c).bind (buffer_store p c)).map fun q => ⟨q, n⟩)
    (ths : List (dim3 × dim3)) (p : List α) :
    run_threads kernel ths ⟨p, n⟩ =
      (write_cells val (ths.filterMap cell) p).map fun q => ⟨q, n⟩ := by
  induction ths generalizing p with
  | nil => rfl
  | cons th rest ih =>
    rw [run_threads, hk th p]
    cases hc : cell th with
    | none =>
      simp only [List.filterMap_cons, hc, Option.some_bind]
      exact ih p
    | some c =>
      simp only [List.filterMap_cons, hc, write_cells]
      cases hw : (val c).bind (buffer_store p c) with
      | none => rfl
      | some q =>
        simp only [Option.map_some', Option.some_bind]
        exact ih q

/-- The device kernel, for a buffer reference of element count `n`: a thread whose index is
below `n` writes the broadcast-resolved value into its cell, any other thread does nothing. -/
theorem kernel_binary_eq {α : Type} (expr : α → α → α) (left right : List α) (p : List α)
    (n left_len right_len : Nat) (blockIdx blockDim threadIdx : dim3) :
    kernel_binary expr left right ⟨p, n⟩ left_len right_len blockIdx blockDim threadIdx =
      match (if thread_index blockIdx.x blockDim.x threadIdx.x < n
          then some (thread_index blockIdx.x blockDim.x threadIdx.x) else none) with
      | none => some ⟨p, n⟩
      | some c => ((broadcast_value expr left right left_len right_len c).bind
          (buffer_store p c)).map fun q => ⟨q, n⟩ := by
  unfold kernel_binary broadcast_value
  by_cases ht : thread_index blockIdx.x blockDim.x threadIdx.x < n
  · simp only [ht, if_true]
    cases (if left_len = 1 then left[0]?
        else left[thread_index blockIdx.x blockDim.x threadIdx.x]?) with
    | none => rfl
    | some a =>
      cases (if right_len = 1 then right[0]?
          else right[thread_index blockIdx.x blockDim.x threadIdx.x]?) with
      | none => rfl
      | some b => rfl
  · simp only [ht, if_false]

/-! ## Matrix multiplication: lemmas -/

theorem flat_index_lt (i k j n : Nat) (hi : i < k) (hj : j < n) : i * n + j < k * n := by
  calc i * n + j < i * n + n := by omega
    _ = (i + 1) * n := by ring
    _ ≤ k * n := Nat.mul_le_mul_right n hi

theorem flat_index_inj (k i i2 j j2 : Nat) (hi : i < k) (hi2 : i2 < k)
    (h : j * k + i = j2 * k + i2) : j = j2 ∧ i = i2 := by
  have hk : 0 < k := by omega
  have h1 : (j * k + i) % k = (j2 * k + i2) % k := by rw [h]
  have h2 : (j * k + i) / k = (j2 * k + i2) / k := by rw [h]
  rw [Nat.mul_comm j k, Nat.mul_comm j2 k, Nat.mul_add_mod, Nat.mul_add_mod,
    Nat.mod_eq_of_lt hi, Nat.mod_eq_of_lt hi2] at h1
  rw [Nat.mul_comm j k, Nat.mul_comm j2 k, Nat.mul_add_div hk, Nat.mul_add_div hk,
    Nat.div_eq_of_lt hi, Nat.div_eq_of_lt hi2] at h2
  exact ⟨by omega, h1⟩

theorem flat_index_div (r c n : Nat) (hc : c < n) : (r * n + c) / n = r := by
  have hn : 0 < n := by omega
  rw [Nat.mul_comm, Nat.mul_add_div hn, Nat.div_eq_of_lt hc, Nat.add_zero]

theorem flat_index_mod (r c n : Nat) (hc : c < n) : (r * n + c) % n = c := by
  rw [Nat.mul_comm, Nat.mul_add_mod, Nat.mod_eq_of_lt hc]

theorem getElem?_getD_of_lt {α : Type} (l : List α) (i : Nat) (d : α) (h : i < l.length) :
    l[i]? = some (l.getD i d) := by
  simp [List.getD_eq_getElem?_getD, List.getElem?_eq_getElem h]

theorem product_pair (a b : Nat) : product [a, b] = (a * b) % SIZE_T_MOD := by
  unfold product
  simp only [List.foldl]
  rw [Nat.one_mul, Nat.mod_mul_mod]

/-- The transposed copy of a (k, n) right operand: the loop nest succeeds and the entry
(j, i) of the copy is the entry (i, j) of the operand. -/
theorem matmul_transposed_copy_spec {α : Type} (S : scalar_ops α) (right : List α) (k n : Nat)
    (hr : right.length = k * n) (hkn : k * n < SIZE_T_MOD) :
    ∃ t, matmul_transposed_copy S [k, n] right k n = some t ∧ t.length = k * n ∧
      ∀ i, i < k → ∀ j, j < n → t[j * k + i]? = right[i * n + j]? := by
  have hp : product [k, n] = k * n := by rw [product_pair, Nat.mod_eq_of_lt hkn]
  unfold matmul_transposed_copy
  rw [hp]
  have hout := for_loop_inv
    (fun i (t : List α) => t.length = k * n ∧
      ∀ i2, i2 < i → ∀ j, j < n → t[j * k + i2]? = right[i2 * n + j]?)
    k (fun i t => for_loop n (fun j t => do
      let v ← right[(i * n + j) % SIZE_T_MOD]?
      buffer_store t ((j * k + i) % SIZE_T_MOD) v) t)
    (List.replicate (k * n) S.zero)
    ⟨by simp, fun i2 h => absurd h (Nat.not_lt_zero i2)⟩
    (by
      intro i hi t0 ⟨hlen0, hprev0⟩
      have hin := for_loop_inv
        (fun j (t : List α) => t.length = k * n ∧
          (∀ i2, i2 < i → ∀ j2, j2 < n → t[j2 * k + i2]? = right[i2 * n + j2]?) ∧
          ∀ j2, j2 < j → t[j2 * k + i]? = right[i * n + j2]?)
        n (fun j t => do
          let v ← right[(i * n + j) % SIZE_T_MOD]?
          buffer_store t ((j * k + i) % SIZE_T_MOD) v) t0
        ⟨hlen0, hprev0, fun j2 h => absurd h (Nat.not_lt_zero j2)⟩
        (by
          intro j hj t ⟨hlen, hprev, hcur⟩
          have hsrc : i * n + j < k * n := flat_index_lt i k j n hi hj
          have hdst : j * k + i < k * n := by
            have := flat_index_lt j n i k hj hi
            rwa [Nat.mul_comm n k] at this
          have hsrc2 : (i * n + j) % SIZE_T_MOD = i * n + j :=
            Nat.mod_eq_of_lt (lt_trans hsrc hkn)
          have hdst2 : (j * k + i) % SIZE_T_MOD = j * k + i :=
            Nat.mod_eq_of_lt (lt_trans hdst hkn)
          have hread : right[i * n + j]? = some (right.getD (i * n + j) S.zero) :=
            getElem?_getD_of_lt right _ S.zero (by rw [hr]; exact hsrc)
          refine ⟨t.set (j * k + i) (right.getD (i * n + j) S.zero), ?_, ?_, ?_, ?_⟩
          · simp only [hsrc2, hdst2, hread, Option.bind_eq_bind, Option.some_bind]
            exact buffer_store_some t _ _ (by rw [hlen]; exact hdst)
          · rw [List.length_set, hlen]
          · intro i2 hi2 j2 hj2
            have hne : j * k + i ≠ j2 * k + i2 := by
              intro e
              have := (flat_index_inj k i i2 j j2 hi (by omega) e).2
              omega
            rw [List.getElem?_set_ne hne]
            exact hprev i2 hi2 j2 hj2
          · intro j2 hj2
            by_cases e : j2 = j
            · subst e
              rw [List.getElem?_set_self (by rw [hlen]; exact hdst), hread]
            · have hne : j * k + i ≠ j2 * k + i := by
                intro e2
                have := (flat_index_inj k i i j j2 hi hi e2).1
                omega
              rw [List.getElem?_set_ne hne]
              exact hcur j2 (by omega))
      obtain ⟨t, ht, hlen, hprev, hcur⟩ := hin
      refine ⟨t, ht, hlen, ?_⟩
      intro i2 hi2 j hj
      by_cases e : i2 = i
      · subst e
        exact hcur j hj
      · exact hprev i2 (by omega) j hj)
  obtain ⟨t, ht, hlen, hall⟩ := hout
  exact ⟨t, ht, hlen, hall⟩

/-- A reduction whose terms are all defined evaluates to its value. -/
theorem reduction_tree.eval_some {α : Type} (S : scalar_ops α) (term : Nat → Option α)
    (f : Nat → α) (t : reduction_tree) (h : ∀ j ∈ t.terms, term j = some (f j)) :
    t.eval S term = some (t.sum S f) := by
  induction t with
  | zero => rfl
  | term j => exact h j (by simp [reduction_tree.terms])
  | add a b iha ihb =>
    simp only [reduction_tree.terms, List.mem_append] at h
    simp only [reduction_tree.eval, reduction_tree.sum,
      iha (fun j hj => h j (Or.inl hj)), ihb (fun j hj => h j (Or.inr hj)), Option.some_bind]

/-- The value of a reduction depends only on the terms it adds. -/
theorem reduction_tree.sum_congr {α : Type} (S : scalar_ops α) (f g : Nat → α)
    (t : reduction_tree) (h : ∀ j ∈ t.terms, f j = g j) : t.sum S f = t.sum S g := by
  induction t with
  | zero => rfl
  | term j => exact h j (by simp [reduction_tree.terms])
  | add a b iha ihb =>
    simp only [reduction_tree.terms, List.mem_append] at h
    simp only [reduction_tree.sum,
      iha (fun j hj => h j (Or.inl hj)), ihb (fun j hj => h j (Or.inr hj))]

/-- With exact addition, accumulating from `x` is adding `x` to the accumulation from zero. -/
theorem foldl_add_zero {α : Type} (S : scalar_ops α) (hex : exact_add S) (f : Nat → α)
    (l : List Nat) (x : α) :
    l.foldl (fun acc j => S.add acc (f j)) x =
      S.add x (l.foldl (fun acc j => S.add acc (f j)) S.zero) := by
  obtain ⟨hassoc, hcomm, hzero⟩ := hex
  induction l generalizing x with
  | nil =>
    simp only [List.foldl_nil]
    rw [hcomm, hzero]
  | cons j l ih =>
    simp only [List.foldl_cons]
    rw [ih (S.add x (f j)), ih (S.add S.zero (f j)), hzero, hassoc]

/-- With exact addition, a reduction in any order is the accumulation of its terms from left
to right. -/
theorem reduction_tree.sum_eq_foldl {α : Type} (S : scalar_ops α) (hex : exact_add S)
    (f : Nat → α) (t : reduction_tree) :
    t.sum S f = t.terms.foldl (fun acc j => S.add acc (f j)) S.zero := by
  induction t with
  | zero => rfl
  | term j =>
    simp only [reduction_tree.sum, reduction_tree.terms, List.foldl_cons, List.foldl_nil]
    rw [hex.2.2]
  | add a b iha ihb =>
    simp only [reduction_tree.sum, reduction_tree.terms, List.foldl_append]
    rw [foldl_add_zero S hex f b.terms, iha, ihb]

/-- With exact addition, a reduction that adds each of the first `n` terms once, in any order,
is their sum in increasing order. -/
theorem reduction_tree.sum_eq_sum_range {α : Type} (S : scalar_ops α) (hex : exact_add S)
    (f : Nat → α) (t : reduction_tree) (n : Nat) (hp : (t.terms).Perm (List.range n)) :
    t.sum S f = sum_range S n f := by
  rw [reduction_tree.sum_eq_foldl S hex f t]
  unfold sum_range
  apply List.Perm.foldl_eq' hp
  intro x _ y _ z
  rw [hex.1, hex.2.1 (f x) (f y), ← hex.1]

/-- Integer addition is exact. -/
theorem exact_add_int_ops : exact_add int_ops :=
  ⟨fun a b c => Int.add_assoc a b c, fun a b => Int.add_comm a b, fun a => Int.zero_add a⟩

/-- One iteration of the host reduction loop writes into cell `i` the products of the
matrix-product entry, added in the order of the simd reduction. -/
theorem matmul_cpu_iteration_eq {α : Type} (S : scalar_ops α) (left right t : List α)
    (m k n i : Nat) (data : List α)
    (hl : left.length = m * k) (hr : right.length = k * n)
    (hmk : m * k < SIZE_T_MOD) (hkn : k * n < SIZE_T_MOD)
    (ht : ∀ i, i < k → ∀ j, j < n → t[j * k + i]? = right[i * n + j]?)
    (hi : i < m * n) :
    matmul_cpu_iteration S left t k n i data =
      buffer_store data i (matmul_cell_simd S left right k n i) := by
  have hn : 0 < n := by
    rcases Nat.eq_zero_or_pos n with h | h
    · rw [h] at hi
      omega
    · exact h
  have hn0 : n ≠ 0 := by omega
  have hr2 : i / n < m := (Nat.div_lt_iff_lt_mul hn).mpr hi
  have hc2 : i % n < n := Nat.mod_lt i hn
  have hrow : (i / n * k) % SIZE_T_MOD = i / n * k :=
    Nat.mod_eq_of_lt (lt_of_le_of_lt (Nat.mul_le_mul_right k (le_of_lt hr2)) hmk)
  have hcol : (i % n * k) % SIZE_T_MOD = i % n * k := by
    apply Nat.mod_eq_of_lt
    have : i % n * k ≤ n * k := Nat.mul_le_mul_right k (le_of_lt hc2)
    rw [Nat.mul_comm n k] at this
    omega
  unfold matmul_cpu_iteration
  rw [if_neg hn0]
  simp only [hrow, hcol]
  rw [reduction_tree.eval_some S _ (fun j =>
    S.mul (left.getD (i / n * k + j) S.zero) (right.getD (j * n + i % n) S.zero))]
  · rfl
  · intro j hj
    replace hj : j < k := List.mem_range.mp ((S.simd_plan_perm i k).mem_iff.mp hj)
    have h1 : i / n * k + j < left.length := by
      rw [hl]
      exact flat_index_lt (i / n) m j k hr2 hj
    have h2 : j * n + i % n < right.length := by
      rw [hr]
      exact flat_index_lt j k (i % n) n hj hc2
    rw [getElem?_getD_of_lt left _ S.zero h1, ht j hj (i % n) hc2,
      getElem?_getD_of_lt right _ S.zero h2]
    rfl

/-- The host MATMUL branch for a row-major (m, k) left buffer and (k, n) right buffer: the
output has m * n cells and cell `t` holds the products of the matrix-product entry, added in
the order of the simd reduction. -/
theorem matmul_cpu_spec {α : Type} (S : scalar_ops α) (left right : List α) (m k n : Nat)
    (data : List α) (hl : left.length = m * k) (hr : right.length = k * n)
    (hmk : m * k < SIZE_T_MOD) (hkn : k * n < SIZE_T_MOD) (hd : data.length = m * n) :
    ∃ out, matmul_cpu S [k, n] left right k n data = some out ∧ out.length = m * n ∧
      matmul_cpu S [k, n] left right k n data =
        write_cells (fun t => some (matmul_cell_simd S left right k n t))
          (List.range (m * n)) data ∧
      ∀ t, t < m * n → out[t]? = some (matmul_cell_simd S left right k n t) := by
  obtain ⟨tr, htr, _, hcells⟩ := matmul_transposed_copy_spec S right k n hr hkn
  have heq : matmul_cpu S [k, n] left right k n data =
      write_cells (fun t => some (matmul_cell_simd S left right k n t))
        (List.range (m * n)) data := by
    unfold matmul_cpu
    rw [htr, Option.some_bind, hd]
    apply for_loop_write_cells
    intro i hi d
    rw [matmul_cpu_iteration_eq S left right tr m k n i d hl hr hmk hkn hcells hi]
    rfl
  obtain ⟨out, ho, holen, hcell⟩ := write_cells_some
    (fun t => some (matmul_cell_simd S left right k n t)) (List.range (m * n)) data
    (fun c hc => ⟨by rw [hd]; exact List.mem_range.mp hc, _, rfl⟩)
  refine ⟨out, heq.trans ho, by rw [holen, hd], heq, ?_⟩
  intro t ht
  rw [hcell t, if_pos (List.mem_range.mpr ht)]

/-- The host MATMUL branch of `compute_data` is `matmul_cpu` on a fresh buffer of m * n
cells, for a constructed node with operand shapes (m, k) and (k, n). -/
theorem compute_data_matmul_unfold {α : Type} (S : scalar_ops α) (C : cuda_helpers α)
    (H : hash_utils) (arg1 arg2 : Tensor) (self : BinaryOp) (left right : List α) (m k n : Nat)
    (hnew : BinaryOp.new H arg1 arg2 .MATMUL = .ok self) (hcpu : self.on_gpu = false)
    (h1 : arg1.dims = [m, k]) (h2 : arg2.dims = [k, n]) (hmn : m * n < SIZE_T_MOD) :
    (allocate_data_cpu S self.toTensor).length = m * n ∧
      self.compute_data S C left right =
        matmul_cpu S [k, n] left right k n (allocate_data_cpu S self.toTensor) := by
  obtain ⟨hv, hlc, hrc, hot, _⟩ := BinaryOp.new_ok H arg1 arg2 .MATMUL self hnew
  have hdims : self.dims = [m, n] := by
    rw [verify_matmul arg1 arg2, h1, h2] at hv
    simp only [if_true, Except.ok.injEq] at hv
    exact hv.symm
  constructor
  · simp [allocate_data_cpu, hdims, product_pair, Nat.mod_eq_of_lt hmn]
  · unfold BinaryOp.compute_data
    rw [hot]
    simp only [hlc, hrc, h1, h2, hcpu]
    simp

theorem sum_range_succ {α : Type} (S : scalar_ops α) (n : Nat) (f : Nat → α) :
    sum_range S (n + 1) f = S.add (sum_range S n f) (f n) := by
  simp [sum_range, List.range_succ, List.foldl_append]

/-- One iteration of the unrolled loop of the device kernel: from (k, partial sum up to k) to
(k + 4, partial sum up to k + 4). -/
theorem kernel_matmul_2d_unrolled_eq {α : Type} (S : scalar_ops α) (in1 in2 : List α)
    (i j sk : Nat) (s : Nat × α)
    (h1 : i * sk + sk ≤ in1.length) (h2 : j * sk + sk ≤ in2.length)
    (hb1 : in1.length < SIZE_T_MOD) (hb2 : in2.length < SIZE_T_MOD)
    (hk : s.1 + 3 < sk)
    (hs : s.2 = sum_range S s.1 fun k =>
      S.mul (in1.getD (i * sk + k) S.zero) (in2.getD (j * sk + k) S.zero)) :
    kernel_matmul_2d_unrolled S in1 in2 i j sk s =
      some (s.1 + 4, sum_range S (s.1 + 4) fun k =>
        S.mul (in1.getD (i * sk + k) S.zero) (in2.getD (j * sk + k) S.zero)) := by
  have e1 : (i * sk + s.1) % SIZE_T_MOD = i * sk + s.1 := Nat.mod_eq_of_lt (by omega)
  have e2 : (j * sk + s.1) % SIZE_T_MOD = j * sk + s.1 := Nat.mod_eq_of_lt (by omega)
  have e3 : (s.1 + 4) % SIZE_T_MOD = s.1 + 4 := Nat.mod_eq_of_lt (by omega)
  unfold kernel_matmul_2d_unrolled
  simp only [e1, e2, e3]
  rw [for_loop_fold 4 _ (fun acc ku =>
    S.add acc (S.mul (in1.getD (i * sk + (s.1 + ku)) S.zero)
      (in2.getD (j * sk + (s.1 + ku)) S.zero)))]
  · have hr : List.range 4 = [0, 1, 2, 3] := rfl
    rw [hr, hs]
    simp only [List.foldl, Option.some_bind, Nat.add_zero]
    rw [show s.1 + 4 = s.1 + 3 + 1 from rfl, sum_range_succ,
      show s.1 + 3 = s.1 + 2 + 1 from rfl, sum_range_succ,
      show s.1 + 2 = s.1 + 1 + 1 from rfl, sum_range_succ, sum_range_succ]
  · intro ku hku sum
    rw [Nat.add_assoc, Nat.add_assoc,
      getElem?_getD_of_lt in1 _ S.zero (by omega), getElem?_getD_of_lt in2 _ S.zero (by omega)]
    rfl

/-- One iteration of the remainder loop of the device kernel: from (k, partial sum up to k)
to (k + 1, partial sum up to k + 1). -/
theorem kernel_matmul_2d_remainder_eq {α : Type} (S : scalar_ops α) (in1 in2 : List α)
    (i j sk : Nat) (s : Nat × α)
    (h1 : i * sk + sk ≤ in1.length) (h2 : j * sk + sk ≤ in2.length)
    (hb1 : in1.length < SIZE_T_MOD) (hb2 : in2.length < SIZE_T_MOD)
    (hk : s.1 < sk)
    (hs : s.2 = sum_range S s.1 fun k =>
      S.mul (in1.getD (i * sk + k) S.zero) (in2.getD (j * sk + k) S.zero)) :
    kernel_matmul_2d_remainder S in1 in2 i j sk s =
      some (s.1 + 1, sum_range S (s.1 + 1) fun k =>
        S.mul (in1.getD (i * sk + k) S.zero) (in2.getD (j * sk + k) S.zero)) := by
  have e1 : (i * sk + s.1) % SIZE_T_MOD = i * sk + s.1 := Nat.mod_eq_of_lt (by omega)
  have e2 : (j * sk + s.1) % SIZE_T_MOD = j * sk + s.1 := Nat.mod_eq_of_lt (by omega)
  have e3 : (s.1 + 1) % SIZE_T_MOD = s.1 + 1 := Nat.mod_eq_of_lt (by omega)
  unfold kernel_matmul_2d_remainder
  rw [e1, e2, e3, getElem?_getD_of_lt in1 _ S.zero (by omega),
    getElem?_getD_of_lt in2 _ S.zero (by omega), sum_range_succ, hs]
  rfl

/-- The two reduction loops of the device kernel, for a thread (i, j) inside the output: they
end, and the final sum is the sum over all k in [0, sk), in increasing order of k. -/
theorem kernel_matmul_2d_loops {α : Type} (S : scalar_ops α) (in1 in2 : List α)
    (i j sk : Nat)
    (h1 : i * sk + sk ≤ in1.length) (h2 : j * sk + sk ≤ in2.length)
    (hb1 : in1.length < SIZE_T_MOD) (hb2 : in2.length < SIZE_T_MOD) :
    ∃ s1 s2,
      while_loop (fun s : Nat × α => decide ((s.1 + 3) % SIZE_T_MOD < sk))
        (kernel_matmul_2d_unrolled S in1 in2 i j sk) (sk + 1) (0, S.zero) = some s1 ∧
      while_loop (fun s : Nat × α => decide (s.1 < sk))
        (kernel_matmul_2d_remainder S in1 in2 i j sk) (sk + 1) s1 = some s2 ∧
      s1.1 = 4 * (sk / 4) ∧
      (s1.2 = sum_range S s1.1 fun k =>
        S.mul (in1.getD (i * sk + k) S.zero) (in2.getD (j * sk + k) S.zero)) ∧
      s2.1 = sk ∧
      s2.2 = sum_range S sk fun k =>
        S.mul (in1.getD (i * sk + k) S.zero) (in2.getD (j * sk + k) S.zero) := by
  have hsk : sk < SIZE_T_MOD := by omega
  have hM : SIZE_T_MOD = 18446744073709551616 := by norm_num [SIZE_T_MOD]
  obtain ⟨s1, hw1, ⟨hle1, hmod1, hsum1⟩, hc1⟩ := while_loop_inv
    (fun s : Nat × α => s.1 ≤ sk ∧ s.1 % 4 = 0 ∧ s.2 = sum_range S s.1 fun k =>
      S.mul (in1.getD (i * sk + k) S.zero) (in2.getD (j * sk + k) S.zero))
    (fun s => sk - s.1)
    (fun s : Nat × α => decide ((s.1 + 3) % SIZE_T_MOD < sk))
    (kernel_matmul_2d_unrolled S in1 in2 i j sk)
    (by
      intro s ⟨hle, hmod, hsum⟩ hc
      have hlt : s.1 + 3 < SIZE_T_MOD := by omega
      replace hc : decide ((s.1 + 3) % SIZE_T_MOD < sk) = true := hc
      rw [Nat.mod_eq_of_lt hlt] at hc
      have hk : s.1 + 3 < sk := of_decide_eq_true hc
      refine ⟨_, kernel_matmul_2d_unrolled_eq S in1 in2 i j sk s h1 h2 hb1 hb2 hk hsum,
        ⟨?_, ?_, rfl⟩, ?_⟩
      · show s.1 + 4 ≤ sk
        omega
      · show (s.1 + 4) % 4 = 0
        omega
      · show sk - (s.1 + 4) < sk - s.1
        omega)
    (sk + 1) (0, S.zero) ⟨Nat.zero_le sk, rfl, rfl⟩ (by show sk - 0 < sk + 1; omega)
  have hstop : sk < s1.1 + 4 := by
    have hlt : s1.1 + 3 < SIZE_T_MOD := by omega
    replace hc1 : decide ((s1.1 + 3) % SIZE_T_MOD < sk) = false := hc1
    rw [Nat.mod_eq_of_lt hlt] at hc1
    have := of_decide_eq_false hc1
    omega
  obtain ⟨s2, hw2, ⟨hle2, hsum2⟩, hc2⟩ := while_loop_inv
    (fun s : Nat × α => s.1 ≤ sk ∧ s.2 = sum_range S s.1 fun k =>
      S.mul (in1.getD (i * sk + k) S.zero) (in2.getD (j * sk + k) S.zero))
    (fun s => sk - s.1)
    (fun s : Nat × α => decide (s.1 < sk))
    (kernel_matmul_2d_remainder S in1 in2 i j sk)
    (by
      intro s ⟨hle, hsum⟩ hc
      replace hc : decide (s.1 < sk) = true := hc
      have hk : s.1 < sk := of_decide_eq_true hc
      refine ⟨_, kernel_matmul_2d_remainder_eq S in1 in2 i j sk s h1 h2 hb1 hb2 hk hsum,
        ⟨?_, rfl⟩, ?_⟩
      · show s.1 + 1 ≤ sk
        omega
      · show sk - (s.1 + 1) < sk - s.1
        omega)
    (sk + 1) s1 ⟨hle1, hsum1⟩ (by show sk - s1.1 < sk + 1; omega)
  have hend : s2.1 = sk := by
    replace hc2 : decide (s2.1 < sk) = false := hc2
    have := of_decide_eq_false hc2
    omega
  refine ⟨s1, s2, hw1, hw2, by omega, hsum1, hend, ?_⟩
  rw [hsum2, hend]

theorem sum_range_congr {α : Type} (S : scalar_ops α) (n : Nat) (f g : Nat → α)
    (h : ∀ k, k < n → f k = g k) : sum_range S n f = sum_range S n g := by
  induction n with
  | zero => rfl
  | succ n ih =>
    rw [sum_range_succ, sum_range_succ, ih (fun k hk => h k (Nat.lt_succ_of_lt hk)),
      h n (Nat.lt_succ_self n)]

theorem write_cells_congr {α : Type} (val1 val2 : Nat → Option α) (cs : List Nat)
    (data : List α) (h : ∀ c ∈ cs, val1 c = val2 c) :
    write_cells val1 cs data = write_cells val2 cs data := by
  induction cs generalizing data with
  | nil => rfl
  | cons c cs ih =>
    simp only [write_cells]
    rw [h c (List.mem_cons_self c cs)]
    cases (val2 c).bind (buffer_store data c) with
    | none => rfl
    | some d =>
      simp only [Option.some_bind]
      exact ih d (fun c2 hc2 => h c2 (List.mem_cons_of_mem c hc2))

/-- The device kernel for a buffer reference into memory `p`: a thread (i, j) with i < si and
j < sj writes the reduction of row i of `in1` against row j of `in2` into cell i * sj + j, any
other thread does nothing. -/
theorem kernel_matmul_2d_eq {α : Type} (S : scalar_ops α) (in1 in2 p : List α)
    (n si sj sk : Nat) (blockIdx blockDim threadIdx : dim3)
    (h1 : in1.length = si * sk) (h2 : in2.length = sj * sk)
    (hb1 : si * sk < SIZE_T_MOD) (hb2 : sj * sk < SIZE_T_MOD) (hb3 : si * sj < SIZE_T_MOD) :
    kernel_matmul_2d S in1 in2 ⟨p, n⟩ si sj sk blockIdx blockDim threadIdx =
      match (if thread_index blockIdx.x blockDim.x threadIdx.x < si
            ∧ thread_index blockIdx.y blockDim.y threadIdx.y < sj
          then some (thread_index blockIdx.x blockDim.x threadIdx.x * sj
            + thread_index blockIdx.y blockDim.y threadIdx.y) else none) with
      | none => some ⟨p, n⟩
      | some c => ((some (sum_range S sk fun k =>
            S.mul (in1.getD (c / sj * sk + k) S.zero) (in2.getD (c % sj * sk + k) S.zero))).bind
          (buffer_store p c)).map fun q => ⟨q, n⟩ := by
  unfold kernel_matmul_2d
  by_cases ht : thread_index blockIdx.x blockDim.x threadIdx.x < si
      ∧ thread_index blockIdx.y blockDim.y threadIdx.y < sj
  · obtain ⟨hi, hj⟩ := ht
    have g1 : thread_index blockIdx.x blockDim.x threadIdx.x * sk + sk ≤ in1.length := by
      rw [h1]
      calc thread_index blockIdx.x blockDim.x threadIdx.x * sk + sk
          = (thread_index blockIdx.x blockDim.x threadIdx.x + 1) * sk := by ring
        _ ≤ si * sk := Nat.mul_le_mul_right sk hi
    have g2 : thread_index blockIdx.y blockDim.y threadIdx.y * sk + sk ≤ in2.length := by
      rw [h2]
      calc thread_index blockIdx.y blockDim.y threadIdx.y * sk + sk
          = (thread_index blockIdx.y blockDim.y threadIdx.y + 1) * sk := by ring
        _ ≤ sj * sk := Nat.mul_le_mul_right sk hj
    obtain ⟨s1, s2, hw1, hw2, _, _, _, hsum⟩ := kernel_matmul_2d_loops S in1 in2
      (thread_index blockIdx.x blockDim.x threadIdx.x)
      (thread_index blockIdx.y blockDim.y threadIdx.y) sk g1 g2
      (by rw [h1]; exact hb1) (by rw [h2]; exact hb2)
    have hc := flat_index_lt _ si _ sj hi hj
    simp only [hi, hj, and_self, if_true, hw1, hw2, Option.some_bind, hsum,
      Nat.mod_eq_of_lt (lt_trans hc hb3), flat_index_div _ _ sj hj, flat_index_mod _ _ sj hj]
    rfl
  · simp only [ht, if_false]


/-- Any schedule of the element-wise kernel whose thread indices cover [0, n) yields the buffer
of the host loop, whatever the initial contents of the two buffers. -/
theorem kernel_binary_grid {α : Type} (expr : α → α → α) (left right p data : List α)
    (n left_len right_len : Nat) (blockDim : dim3) (ths : List (dim3 × dim3))
    (hp : p.length = n) (hd : data.length = n)
    (hcover : ∀ i, i < n → ∃ th ∈ ths, thread_index th.1.x blockDim.x th.2.x = i) :
    (run_threads (fun blockIdx threadIdx o =>
        kernel_binary expr left right o left_len right_len blockIdx blockDim threadIdx)
      ths ⟨p, n⟩).map (fun o => o.ptr) =
      for_loop data.length (binary_cpu_iteration expr left right left_len right_len) data := by
  rw [run_threads_write_cells n (broadcast_value expr left right left_len right_len)
    (fun th => if thread_index th.1.x blockDim.x th.2.x < n
      then some (thread_index th.1.x blockDim.x th.2.x) else none)
    _ (fun th q => kernel_binary_eq expr left right q n left_len right_len th.1 blockDim th.2),
    for_loop_write_cells (broadcast_value expr left right left_len right_len) data.length _
      (fun i _ d => binary_cpu_iteration_eq expr left right left_len right_len i d),
    Option.map_map]
  have hid : ((fun o : CudaArrayRef α => o.ptr) ∘ fun q => (⟨q, n⟩ : CudaArrayRef α)) = id := rfl
  rw [hid, Option.map_id, id, hd]
  apply write_cells_cover _ n _ _ p data hp hd
  · intro c
    rw [List.mem_filterMap]
    constructor
    · rintro ⟨th, _, hth⟩
      split_ifs at hth with hlt
      · simp only [Option.some.injEq] at hth
        omega
    · intro hc
      obtain ⟨th, hmem, hth⟩ := hcover c hc
      exact ⟨th, hmem, by simp [hth, hc]⟩
  · intro c
    exact List.mem_range

/-- The device branch of `binary_compute_data` agrees with its host branch as soon as the
launch grid covers the output. -/
theorem binary_compute_data_gpu_eq_cpu {α : Type} (S : scalar_ops α) (C : cuda_helpers α)
    (expr : α → α → α) (self_gpu self_cpu : Tensor) (left right : List α)
    (left_len right_len : Nat)
    (hdims : self_gpu.dims = self_cpu.dims) (hgpu : self_gpu.on_gpu = true)
    (hcpu : self_cpu.on_gpu = false)
    (hcover : ∀ i, i < product self_cpu.dims → ∃ th ∈ grid_threads
        ⟨C.num_blocks (product self_cpu.dims) C.BLOCK_SIZE, 1, 1⟩ ⟨C.BLOCK_SIZE, 1, 1⟩,
      thread_index th.1.x C.BLOCK_SIZE th.2.x = i) :
    binary_compute_data S C expr self_gpu left right left_len right_len =
      binary_compute_data S C expr self_cpu left right left_len right_len := by
  have hlen : (allocate_data_cpu S self_cpu).length = product self_cpu.dims := by
    simp [allocate_data_cpu]
  simp only [binary_compute_data, hgpu, hcpu, if_true, Bool.false_eq_true, if_false, launch,
    allocate_data_gpu, hdims]
  exact kernel_binary_grid expr left right _ (allocate_data_cpu S self_cpu)
    (product self_cpu.dims) left_len right_len ⟨C.BLOCK_SIZE, 1, 1⟩ _
    (C.fresh_length _) hlen hcover

/-- The guard and the store index of the device kernel, for an output whose element count fits
`size_t`. -/
theorem kernel_matmul_2d_cell_eq (si sj : Nat) (blockDim : dim3) (th : dim3 × dim3)
    (hb3 : si * sj < SIZE_T_MOD) :
    kernel_matmul_2d_cell si sj blockDim th =
      if thread_index th.1.x blockDim.x th.2.x < si
          ∧ thread_index th.1.y blockDim.y th.2.y < sj
        then some (thread_index th.1.x blockDim.x th.2.x * sj
          + thread_index th.1.y blockDim.y th.2.y) else none := by
  unfold kernel_matmul_2d_cell
  by_cases ht : thread_index th.1.x blockDim.x th.2.x < si
      ∧ thread_index th.1.y blockDim.y th.2.y < sj
  · have hlt := flat_index_lt _ si _ sj ht.1 ht.2
    simp only [ht, and_self, if_true, Nat.mod_eq_of_lt (lt_trans hlt hb3)]
  · simp only [ht, if_false]

/-- Any schedule of the matrix-multiplication kernel is the sequence of the stores of its
threads inside the range, each store writing the in-order reduction of its cell. -/
theorem kernel_matmul_2d_run {α : Type} (S : scalar_ops α) (in1 in2 p : List α)
    (n si sj sk : Nat) (blockDim : dim3) (ths : List (dim3 × dim3))
    (h1 : in1.length = si * sk) (h2 : in2.length = sj * sk)
    (hb1 : si * sk < SIZE_T_MOD) (hb2 : sj * sk < SIZE_T_MOD) (hb3 : si * sj < SIZE_T_MOD) :
    run_threads (fun blockIdx threadIdx o =>
        kernel_matmul_2d S in1 in2 o si sj sk blockIdx blockDim threadIdx) ths ⟨p, n⟩ =
      (write_cells (fun c => some (sum_range S sk fun k =>
          S.mul (in1.getD (c / sj * sk + k) S.zero) (in2.getD (c % sj * sk + k) S.zero)))
        (ths.filterMap (kernel_matmul_2d_cell si sj blockDim)) p).map fun q => ⟨q, n⟩ := by
  apply run_threads_write_cells n
  intro th q
  rw [kernel_matmul_2d_cell_eq si sj blockDim th hb3]
  exact kernel_matmul_2d_eq S in1 in2 q n si sj sk th.1 blockDim th.2 h1 h2 hb1 hb2 hb3

/-- The cells written by a list of threads that covers every (i, j) inside the range are the
cells below si * sj. -/
theorem kernel_matmul_2d_cell_mem (si sj : Nat) (blockDim : dim3) (ths : List (dim3 × dim3))
    (hb3 : si * sj < SIZE_T_MOD)
    (hcover : ∀ i, i < si → ∀ j, j < sj → ∃ th ∈ ths,
      thread_index th.1.x blockDim.x th.2.x = i ∧ thread_index th.1.y blockDim.y th.2.y = j)
    (c : Nat) :
    c ∈ ths.filterMap (kernel_matmul_2d_cell si sj blockDim) ↔ c < si * sj := by
  rw [List.mem_filterMap]
  constructor
  · rintro ⟨th, _, hth⟩
    rw [kernel_matmul_2d_cell_eq si sj blockDim th hb3] at hth
    split_ifs at hth with hlt
    simp only [Option.some.injEq] at hth
    rw [← hth]
    exact flat_index_lt _ si _ sj hlt.1 hlt.2
  · intro hc
    have hsj : 0 < sj := by
      rcases Nat.eq_zero_or_pos sj with h | h
      · rw [h] at hc
        omega
      · exact h
    have hq : c / sj < si := (Nat.div_lt_iff_lt_mul hsj).mpr hc
    have hm : c % sj < sj := Nat.mod_lt c hsj
    obtain ⟨th, hin, hx, hy⟩ := hcover (c / sj) hq (c % sj) hm
    refine ⟨th, hin, ?_⟩
    rw [kernel_matmul_2d_cell_eq si sj blockDim th hb3, hx, hy, if_pos ⟨hq, hm⟩]
    congr 1
    rw [Nat.mul_comm]
    exact Nat.div_add_mod c sj

/-- Any schedule of the matrix-multiplication kernel whose threads cover all cells (i, j)
returns; every cell below si * sj then holds the in-order reduction of its row of `in1`
against its row of `in2`, and every other cell of the buffer is unchanged. -/
theorem kernel_matmul_2d_grid_cells {α : Type} (S : scalar_ops α) (in1 in2 p : List α)
    (n si sj sk : Nat) (blockDim : dim3) (ths : List (dim3 × dim3))
    (h1 : in1.length = si * sk) (h2 : in2.length = sj * sk)
    (hb1 : si * sk < SIZE_T_MOD) (hb2 : sj * sk < SIZE_T_MOD) (hb3 : si * sj < SIZE_T_MOD)
    (hout : si * sj ≤ p.length)
    (hcover : ∀ i, i < si → ∀ j, j < sj → ∃ th ∈ ths,
      thread_index th.1.x blockDim.x th.2.x = i ∧ thread_index th.1.y blockDim.y th.2.y = j) :
    ∃ dev, run_threads (fun blockIdx threadIdx o =>
        kernel_matmul_2d S in1 in2 o si sj sk blockIdx blockDim threadIdx) ths ⟨p, n⟩ =
        some ⟨dev, n⟩ ∧ dev.length = p.length ∧
      (∀ c, c < si * sj → dev[c]? = some (sum_range S sk fun k =>
        S.mul (in1.getD (c / sj * sk + k) S.zero) (in2.getD (c % sj * sk + k) S.zero))) ∧
      ∀ c, si * sj ≤ c → dev[c]? = p[c]? := by
  have hmem := kernel_matmul_2d_cell_mem si sj blockDim ths hb3 hcover
  obtain ⟨dev, hd, hlen, hcell⟩ := write_cells_some
    (fun c => some (sum_range S sk fun k =>
      S.mul (in1.getD (c / sj * sk + k) S.zero) (in2.getD (c % sj * sk + k) S.zero)))
    (ths.filterMap (kernel_matmul_2d_cell si sj blockDim)) p
    (fun c hc => ⟨lt_of_lt_of_le ((hmem c).mp hc) hout, _, rfl⟩)
  refine ⟨dev, ?_, hlen, ?_, ?_⟩
  · rw [kernel_matmul_2d_run S in1 in2 p n si sj sk blockDim ths h1 h2 hb1 hb2 hb3, hd]
    rfl
  · intro c hc
    rw [hcell c, if_pos ((hmem c).mpr hc)]
  · intro c hc
    rw [hcell c, if_neg (fun h => absurd ((hmem c).mp h) (by omega))]

/-- The entry of the host product is a reduction, in the order of the simd reduction, of the
terms that the device kernel adds in increasing order, when `in2` is the transpose of
`right`. -/
theorem matmul_cell_simd_transposed {α : Type} (S : scalar_ops α) (in1 in2 right : List α)
    (sj sk c : Nat) (h2 : in2.length = sj * sk) (hr : right.length = sk * sj)
    (htr : ∀ j, j < sj → ∀ k, k < sk → in2[j * sk + k]? = right[k * sj + j]?)
    (hsj : 0 < sj) :
    matmul_cell_simd S in1 right sk sj c = (S.simd_plan c sk).sum S fun k =>
      S.mul (in1.getD (c / sj * sk + k) S.zero) (in2.getD (c % sj * sk + k) S.zero) := by
  have hm : c % sj < sj := Nat.mod_lt c hsj
  unfold matmul_cell_simd
  apply reduction_tree.sum_congr
  intro k hk
  replace hk : k < sk := List.mem_range.mp ((S.simd_plan_perm c sk).mem_iff.mp hk)
  have e1 : c % sj * sk + k < in2.length := by
    rw [h2]
    exact flat_index_lt _ sj _ sk hm hk
  have e2 : k * sj + c % sj < right.length := by
    rw [hr]
    exact flat_index_lt _ sk _ sj hk hm
  have e3 := htr (c % sj) hm k hk
  rw [getElem?_getD_of_lt in2 _ S.zero e1, getElem?_getD_of_lt right _ S.zero e2] at e3
  rw [Option.some.inj e3]

/-- With exact addition, any schedule of the matrix-multiplication kernel whose threads cover
all cells (i, j) yields the buffer of the host MATMUL branch, when `in2` is the transpose of
`right`. -/
theorem kernel_matmul_2d_grid {α : Type} (S : scalar_ops α) (hex : exact_add S)
    (in1 in2 right p data : List α)
    (n si sj sk : Nat) (blockDim : dim3) (ths : List (dim3 × dim3))
    (h1 : in1.length = si * sk) (h2 : in2.length = sj * sk)
    (hb1 : si * sk < SIZE_T_MOD) (hb2 : sj * sk < SIZE_T_MOD) (hb3 : si * sj < SIZE_T_MOD)
    (hout : p.length = si * sj) (hr : right.length = sk * sj)
    (htr : ∀ j, j < sj → ∀ k, k < sk → in2[j * sk + k]? = right[k * sj + j]?)
    (hd : data.length = si * sj)
    (hcover : ∀ i, i < si → ∀ j, j < sj → ∃ th ∈ ths,
      thread_index th.1.x blockDim.x th.2.x = i ∧ thread_index th.1.y blockDim.y th.2.y = j) :
    (run_threads (fun blockIdx threadIdx o =>
        kernel_matmul_2d S in1 in2 o si sj sk blockIdx blockDim threadIdx) ths ⟨p, n⟩).map
      (fun o => o.ptr) = matmul_cpu S [sk, sj] in1 right sk sj data := by
  have hkn : sk * sj < SIZE_T_MOD := by rw [Nat.mul_comm]; exact hb2
  obtain ⟨host, hhost, hhlen, _, hhcell⟩ :=
    matmul_cpu_spec S in1 right si sk sj data h1 hr hb1 hkn hd
  obtain ⟨dev, hdev, hdlen, hdcell, _⟩ := kernel_matmul_2d_grid_cells S in1 in2 p n si sj sk
    blockDim ths h1 h2 hb1 hb2 hb3 (le_of_eq hout.symm) hcover
  rw [hdev, hhost, Option.map_some']
  congr 1
  apply List.ext_getElem?
  intro c
  by_cases hc : c < si * sj
  · have hsj : 0 < sj := by
      rcases Nat.eq_zero_or_pos sj with h | h
      · rw [h] at hc
        omega
      · exact h
    rw [hdcell c hc, hhcell c hc, matmul_cell_simd_transposed S in1 in2 right sj sk c h2 hr htr hsj,
      reduction_tree.sum_eq_sum_range S hex _ _ sk (S.simd_plan_perm c sk)]
  · rw [List.getElem?_eq_none (by rw [hdlen, hout]; omega),
      List.getElem?_eq_none (by rw [hhlen]; omega)]

/-- Dimensions below `2^31` pass unchanged through the `int` locals of the device branch. -/
theorem size_t_of_int_of_size_t (n : Nat) (h : n < 2 ^ 31) :
    int_of_size_t n = (n : Int) ∧ size_t_of_int (int_of_size_t n) = n := by
  have h1 : n % UINT_MOD = n := Nat.mod_eq_of_lt (by unfold UINT_MOD; omega)
  have h2 : int_of_size_t n = (n : Int) := by
    unfold int_of_size_t
    rw [h1, if_pos h]
  refine ⟨h2, ?_⟩
  rw [h2]
  unfold size_t_of_int
  have h3 : ((n : Int) % (SIZE_T_MOD : Int)) = (n : Int) := by
    apply Int.emod_eq_of_lt (by omega)
    have : n < SIZE_T_MOD := by unfold SIZE_T_MOD; omega
    exact_mod_cast this
  rw [h3]
  simp

/-- The transposed buffer of a (rows, cols) operand: its entry (c, r) is the entry (r, c) of
the operand. -/
theorem transpose_eval_spec {α : Type} (S : scalar_ops α) (rows cols : Nat) (data : List α)
    (hd : data.length = rows * cols) :
    (transpose_eval S rows cols data).length = cols * rows ∧
      ∀ c, c < cols → ∀ r, r < rows →
        (transpose_eval S rows cols data)[c * rows + r]? = data[r * cols + c]? := by
  constructor
  · simp [transpose_eval, Nat.mul_comm]
  · intro c hc r hr
    have h1 : c * rows + r < rows * cols := by
      have := flat_index_lt c cols r rows hc hr
      rwa [Nat.mul_comm cols rows] at this
    have h2 : r * cols + c < data.length := by
      rw [hd]
      exact flat_index_lt r rows c cols hr hc
    unfold transpose_eval
    rw [List.getElem?_map, List.getElem?_range h1, Option.map_some',
      flat_index_mod c r rows hr, flat_index_div c r rows hr,
      getElem?_getD_of_lt data _ S.zero h2]

/-- With exact addition, the device branch of the MATMUL case agrees with the host branch for
dimensions below `2^31`, as soon as the launch grid covers all output cells. -/
theorem matmul_gpu_refines_cpu {α : Type} (S : scalar_ops α) (hex : exact_add S)
    (C : cuda_helpers α) (left right : List α) (m k n : Nat) (out : CudaArrayRef α) (data : List α)
    (hl : left.length = m * k) (hr : right.length = k * n)
    (hm : m < 2 ^ 31) (hk : k < 2 ^ 31) (hn : n < 2 ^ 31)
    (hout : out.ptr.length = m * n) (hd : data.length = m * n)
    (hcover : ∀ i, i < m → ∀ j, j < n → ∃ th ∈ grid_threads
        ⟨C.num_blocks m C.MM_BLOCK_SIZE, C.num_blocks n C.MM_BLOCK_SIZE, 1⟩
        ⟨C.MM_BLOCK_SIZE, C.MM_BLOCK_SIZE, 1⟩,
      thread_index th.1.x C.MM_BLOCK_SIZE th.2.x = i ∧
        thread_index th.1.y C.MM_BLOCK_SIZE th.2.y = j) :
    matmul_gpu S C [m, k] [k, n] left right out = matmul_cpu S [k, n] left right k n data := by
  have hM : SIZE_T_MOD = 18446744073709551616 := by norm_num [SIZE_T_MOD]
  have bound : ∀ a b : Nat, a < 2 ^ 31 → b < 2 ^ 31 → a * b < SIZE_T_MOD := by
    intro a b ha hb
    have : a * b ≤ 2 ^ 31 * 2 ^ 31 := Nat.mul_le_mul (le_of_lt ha) (le_of_lt hb)
    rw [hM]
    omega
  obtain ⟨tlen, tcell⟩ := transpose_eval_spec S k n right hr
  obtain ⟨im, sm⟩ := size_t_of_int_of_size_t m hm
  obtain ⟨ik, sk2⟩ := size_t_of_int_of_size_t k hk
  obtain ⟨in_, sn⟩ := size_t_of_int_of_size_t n hn
  rw [im] at sm
  rw [ik] at sk2
  rw [in_] at sn
  rcases out with ⟨p, len⟩
  unfold matmul_gpu launch
  simp only [List.getD_cons_zero, List.getD_cons_succ, im, ik, in_, sm, sk2, sn]
  exact kernel_matmul_2d_grid S hex left (transpose_eval S k n right) right p data len m n k
    ⟨C.MM_BLOCK_SIZE, C.MM_BLOCK_SIZE, 1⟩ _ hl tlen (bound m k hm hk) (bound n k hn hk)
    (bound m n hm hn) hout hr tcell hd hcover

/-! ## Second group: lemmas on products, hashes and reads -/

/-- The `size_t` product of a shape is the exact product reduced modulo `2^64`. -/
theorem product_eq_prod_mod (dims : List Nat) : product dims = dims.prod % SIZE_T_MOD := by
  have key : ∀ (l : List Nat) (a : Nat),
      l.foldl (fun acc d => (acc * d) % SIZE_T_MOD) a % SIZE_T_MOD = (a * l.prod) % SIZE_T_MOD := by
    intro l
    induction l with
    | nil =>
      intro a
      simp
    | cons d l ih =>
      intro a
      rw [List.foldl_cons, ih, List.prod_cons, Nat.mod_mul_mod, Nat.mul_assoc]
  have hlt : ∀ (l : List Nat) (a : Nat), a < SIZE_T_MOD →
      l.foldl (fun acc d => (acc * d) % SIZE_T_MOD) a < SIZE_T_MOD := by
    intro l
    induction l with
    | nil =>
      intro a ha
      exact ha
    | cons d l ih =>
      intro a _
      rw [List.foldl_cons]
      exact ih _ (Nat.mod_lt _ (by unfold SIZE_T_MOD; positivity))
  have h1 := key dims 1
  rw [Nat.one_mul] at h1
  unfold product
  rw [← h1, Nat.mod_eq_of_lt (hlt dims 1 (by unfold SIZE_T_MOD; norm_num))]

theorem mul_eq_one_both (a b : Nat) (h : a * b = 1) : a = 1 ∧ b = 1 := by
  have ha : a ∣ 1 := ⟨b, h.symm⟩
  have hb : b ∣ 1 := ⟨a, by rw [Nat.mul_comm]; exact h.symm⟩
  exact ⟨Nat.dvd_one.mp ha, Nat.dvd_one.mp hb⟩

theorem prod_one_all_one (l : List Nat) (h : l.prod = 1) : ∀ x ∈ l, x = 1 := by
  induction l with
  | nil =>
    intro x hx
    simp at hx
  | cons d l ih =>
    rw [List.prod_cons] at h
    have h2 := mul_eq_one_both _ _ h
    intro x hx
    rcases List.mem_cons.mp hx with e | e
    · rw [e]
      exact h2.1
    · exact ih h2.2 x e

/-- A shape whose exact element count fits `size_t` and equals 1 consists of ones only. -/
theorem dims_all_one (dims : List Nat) (hfit : dims.prod < SIZE_T_MOD)
    (h : product dims = 1) : dims = List.replicate dims.length 1 := by
  rw [product_eq_prod_mod, Nat.mod_eq_of_lt hfit] at h
  exact List.eq_replicate_iff.mpr ⟨rfl, prod_one_all_one dims h⟩

/-- The element-wise verifier raises exactly on differing shapes with no scalar side. -/
theorem is_value_error_verify (left right : Tensor) (op_type : BinaryOpType)
    (hop : op_type ≠ .MATMUL) :
    is_value_error (verify_and_get_dims left right op_type) =
      decide (left.dims ≠ right.dims ∧ product left.dims ≠ 1 ∧ product right.dims ≠ 1) := by
  rw [verify_elementwise left right op_type hop]
  by_cases hc : left.dims ≠ right.dims ∧ product left.dims ≠ 1 ∧ product right.dims ≠ 1
  · rw [if_pos hc, decide_eq_true hc]
    rfl
  · rw [if_neg hc, decide_eq_false hc]
    split_ifs <;> rfl

/-- The hash stored by a successful construction. -/
theorem BinaryOp.new_hashValue (H : hash_utils) (arg1 arg2 : Tensor) (op_type : BinaryOpType)
    (self : BinaryOp) (h : BinaryOp.new H arg1 arg2 op_type = .ok self) :
    self.hashValue =
      [H.vector_hash self.dims, H.string_hash "binary", op_type.ordinal, arg1.hashValue,
        arg2.hashValue].foldl H.hash_combine 0 := by
  unfold BinaryOp.new at h
  cases hv : verify_and_get_dims arg1 arg2 op_type with
  | error e => simp [hv, bind, Except.bind] at h
  | ok D =>
    simp only [hv, bind, Except.bind, pure, Except.pure, Except.ok.injEq] at h
    subst h
    rfl

/-- After a successful element-wise verification, the reads of output index `i` are inside
operand buffers of the operands' element counts. -/
theorem broadcast_reads_some {α : Type} (left right : Tensor) (op_type : BinaryOpType)
    (D : List Nat) (hop : op_type ≠ .MATMUL)
    (hv : verify_and_get_dims left right op_type = .ok D)
    (left_data right_data : List α)
    (hl : left_data.length = product left.dims) (hr : right_data.length = product right.dims)
    (i : Nat) (hi : i < product D) :
    (∃ a, (if product left.dims = 1 then left_data[0]? else left_data[i]?) = some a) ∧
      ∃ b, (if product right.dims = 1 then right_data[0]? else right_data[i]?) = some b := by
  obtain ⟨hs1, hs2⟩ := verify_sizes left right op_type D hop hv
  constructor
  · by_cases h1 : product left.dims = 1
    · rw [if_pos h1]
      exact ⟨left_data[0], List.getElem?_eq_getElem (by omega)⟩
    · rw [if_neg h1]
      have hd : left.dims = D := by tauto
      rw [← hd] at hi
      exact ⟨left_data[i], List.getElem?_eq_getElem (by omega)⟩
  · by_cases h1 : product right.dims = 1
    · rw [if_pos h1]
      exact ⟨right_data[0], List.getElem?_eq_getElem (by omega)⟩
    · rw [if_neg h1]
      have hd : right.dims = D := by tauto
      rw [← hd] at hi
      exact ⟨right_data[i], List.getElem?_eq_getElem (by omega)⟩

/-! ## `gg::matmul`: lemmas -/

/-- The constructor on two-dimensional shapes with matching inner dimension. -/
theorem BinaryOp.new_matmul (H : hash_utils) (arg1 arg2 : Tensor) (m k n : Nat)
    (h1 : arg1.dims = [m, k]) (h2 : arg2.dims = [k, n]) :
    ∃ node, BinaryOp.new H arg1 arg2 .MATMUL = .ok node ∧ node.dims = [m, n] ∧
      node.leftChild = arg1 ∧ node.rightChild = arg2 ∧ node.op_type = .MATMUL ∧
      node.on_gpu = (arg1.on_gpu && arg2.on_gpu) := by
  have hv : verify_and_get_dims arg1 arg2 .MATMUL = .ok [m, n] := by
    rw [verify_matmul, h1, h2]
    simp
  unfold BinaryOp.new
  simp only [hv, bind, Except.bind, pure, Except.pure]
  exact ⟨_, rfl, rfl, rfl, rfl, rfl, rfl⟩

theorem reshape_dims {α : Type} (R : reshape_helpers) (node : Node α) (new_shape : List Nat) :
    (reshape R node new_shape).dims = new_shape := rfl

theorem reshape_eval {α : Type} (S : scalar_ops α) (C : cuda_helpers α) (R : reshape_helpers)
    (node : Node α) (new_shape : List Nat) :
    (reshape R node new_shape).eval S C = node.eval S C := rfl

/-- The operands of the MATMUL node built by `gg::matmul`. -/
theorem gg.matmul_promoted {α : Type} (R : reshape_helpers) (left right : Node α) :
    (if left.dims.length = 1 then reshape R left [1, left.dims.getD 0 0] else left).dims
        = promote_left left.dims ∧
      (if right.dims.length = 1 then reshape R right [right.dims.getD 0 0, 1] else right).dims
        = promote_right right.dims := by
  unfold promote_left promote_right
  constructor
  · split_ifs <;> rfl
  · split_ifs <;> rfl

/-- When the promoted shapes are not two-dimensional with matching inner dimension,
`gg::matmul` raises a value error. -/
theorem gg.matmul_error {α : Type} (H : hash_utils) (R : reshape_helpers)
    (left right : Node α)
    (h : ¬ ((promote_left left.dims).length = 2 ∧ (promote_right right.dims).length = 2
      ∧ (promote_left left.dims).getD 1 0 = (promote_right right.dims).getD 0 0)) :
    is_value_error (gg.matmul H R left right) = true := by
  obtain ⟨e1, e2⟩ := gg.matmul_promoted R left right
  unfold gg.matmul
  by_cases hl : left.dims.length = 1 <;> by_cases hr : right.dims.length = 1 <;>
    simp only [hl, hr, if_true, if_false] at e1 e2 ⊢ <;>
    rw [e1, e2, if_pos h] <;> rfl

/-- When the promoted shapes are (m, k) and (k, n), `gg::matmul` constructs the MATMUL node on
the promoted operands and returns it, reshaped when an operand was promoted. -/
theorem gg.matmul_ok {α : Type} (H : hash_utils) (R : reshape_helpers)
    (left right : Node α) (m k n : Nat)
    (h1 : promote_left left.dims = [m, k]) (h2 : promote_right right.dims = [k, n]) :
    ∃ node l r, BinaryOp.new H l.toTensor r.toTensor .MATMUL = .ok node ∧
      node.dims = [m, n] ∧ node.op_type = .MATMUL ∧
      node.on_gpu = (l.toTensor.on_gpu && r.toTensor.on_gpu) ∧
      l = (if left.dims.length = 1 then reshape R left [1, left.dims.getD 0 0] else left) ∧
      r = (if right.dims.length = 1 then reshape R right [right.dims.getD 0 0, 1] else right) ∧
      gg.matmul H R left right = .ok
        (if left.dims.length = 1 ∧ right.dims.length = 1 then reshape R (.binary node l r) []
         else if left.dims.length = 1 then reshape R (.binary node l r) [n]
         else if right.dims.length = 1 then reshape R (.binary node l r) [m]
         else .binary node l r) := by
  obtain ⟨e1, e2⟩ := gg.matmul_promoted R left right
  rw [h1] at e1
  rw [h2] at e2
  obtain ⟨node, hnew, hd, _, _, hop, hg⟩ := BinaryOp.new_matmul H
    (if left.dims.length = 1 then reshape R left [1, left.dims.getD 0 0] else left).toTensor
    (if right.dims.length = 1 then reshape R right [right.dims.getD 0 0, 1] else right).toTensor
    m k n e1 e2
  refine ⟨node, _, _, hnew, hd, hop, hg, rfl, rfl, ?_⟩
  have hcheck : ¬ ¬ (([m, k] : List Nat).length = 2 ∧ ([k, n] : List Nat).length = 2
      ∧ ([m, k] : List Nat).getD 1 0 = ([k, n] : List Nat).getD 0 0) := by simp
  have hres : (Node.binary node
      (if left.dims.length = 1 then reshape R left [1, left.dims.getD 0 0] else left)
      (if right.dims.length = 1 then reshape R right [right.dims.getD 0 0, 1] else right)).dims
      = [m, n] := hd
  unfold gg.matmul
  by_cases hl : left.dims.length = 1 <;> by_cases hr : right.dims.length = 1 <;>
    simp only [hl, hr, if_true, if_false] at e1 e2 hnew hres ⊢ <;>
    rw [e1, e2, if_neg hcheck] <;> simp only [hnew, hres] <;> simp

theorem is_value_error_ok {β : Type} (x : β) :
    is_value_error (Except.ok x : Except PyError β) = false := rfl

/-- When `gg::matmul` succeeds, the promoted shapes are (m, k) and (k, n). -/
theorem gg.matmul_ok_shapes {α : Type} (H : hash_utils) (R : reshape_helpers)
    (left right res : Node α) (h : gg.matmul H R left right = .ok res) :
    ∃ m k n, promote_left left.dims = [m, k] ∧ promote_right right.dims = [k, n] := by
  by_cases hc : (promote_left left.dims).length = 2 ∧ (promote_right right.dims).length = 2
      ∧ (promote_left left.dims).getD 1 0 = (promote_right right.dims).getD 0 0
  · obtain ⟨c1, c2, c3⟩ := hc
    obtain ⟨m, k, e1⟩ := List.length_eq_two.mp c1
    obtain ⟨k2, n, e2⟩ := List.length_eq_two.mp c2
    rw [e1, e2] at c3
    simp only [List.getD_cons_succ, List.getD_cons_zero] at c3
    subst c3
    exact ⟨m, k, n, e1, e2⟩
  · have := gg.matmul_error H R left right hc
    rw [h, is_value_error_ok] at this
    exact absurd this (by simp)

theorem promote_left_cases (dims : List Nat) (m k : Nat) (h : promote_left dims = [m, k]) :
    (dims.length = 1 ∧ dims = [k] ∧ m = 1) ∨ (dims.length ≠ 1 ∧ dims = [m, k]) := by
  unfold promote_left at h
  by_cases hl : dims.length = 1
  · obtain ⟨d, hd⟩ := List.length_eq_one.mp hl
    rw [if_pos hl, hd] at h
    simp only [List.getD_cons_zero, List.cons.injEq, and_true] at h
    exact Or.inl ⟨hl, by rw [hd, h.2], h.1.symm⟩
  · rw [if_neg hl] at h
    exact Or.inr ⟨hl, h⟩

theorem promote_right_cases (dims : List Nat) (k n : Nat) (h : promote_right dims = [k, n]) :
    (dims.length = 1 ∧ dims = [k] ∧ n = 1) ∨ (dims.length ≠ 1 ∧ dims = [k, n]) := by
  unfold promote_right at h
  by_cases hl : dims.length = 1
  · obtain ⟨d, hd⟩ := List.length_eq_one.mp hl
    rw [if_pos hl, hd] at h
    simp only [List.getD_cons_zero, List.cons.injEq, and_true] at h
    exact Or.inl ⟨hl, by rw [hd, h.1], h.2.symm⟩
  · rw [if_neg hl] at h
    exact Or.inr ⟨hl, h⟩

theorem product_single (a : Nat) : product [a] = a % SIZE_T_MOD := by
  unfold product
  simp only [List.foldl]
  rw [Nat.one_mul]

/-- A buffer of one cell is determined by that cell. -/
theorem list_eq_singleton {α : Type} (l : List α) (x : α) (hlen : l.length = 1)
    (h0 : l[0]? = some x) : l = [x] := by
  obtain ⟨y, hy⟩ := List.length_eq_one.mp hlen
  rw [hy] at h0 ⊢
  simp only [List.getElem?_cons_zero, Option.some.injEq] at h0
  rw [h0]

/-! ## Host matrix multiplication: safety lemmas -/

/-- What the construction of a MATMUL node on shapes (m, k) and (k, n) establishes. -/
theorem BinaryOp.new_matmul_dims (H : hash_utils) (arg1 arg2 : Tensor) (self : BinaryOp)
    (m k n : Nat) (hnew : BinaryOp.new H arg1 arg2 .MATMUL = .ok self)
    (h1 : arg1.dims = [m, k]) (h2 : arg2.dims = [k, n]) :
    self.dims = [m, n] ∧ self.leftChild = arg1 ∧ self.rightChild = arg2 ∧
      self.op_type = .MATMUL := by
  obtain ⟨hv, hlc, hrc, hot, _⟩ := BinaryOp.new_ok H arg1 arg2 .MATMUL self hnew
  rw [verify_matmul arg1 arg2, h1, h2] at hv
  simp only [if_true, Except.ok.injEq] at hv
  exact ⟨hv.symm, hlc, hrc, hot⟩

/-- The host MATMUL branch on a buffer of at most m * n cells: every access is inside its
buffer, so the branch returns a buffer of the same length. -/
theorem matmul_cpu_total {α : Type} (S : scalar_ops α) (left right : List α) (m k n : Nat)
    (data : List α) (hl : left.length = m * k) (hr : right.length = k * n)
    (hmk : m * k < SIZE_T_MOD) (hkn : k * n < SIZE_T_MOD) (hd : data.length ≤ m * n) :
    ∃ out, matmul_cpu S [k, n] left right k n data = some out ∧
      out.length = data.length := by
  obtain ⟨tr, htr, _, hcells⟩ := matmul_transposed_copy_spec S right k n hr hkn
  have heq : matmul_cpu S [k, n] left right k n data =
      write_cells (fun t => some (matmul_cell_simd S left right k n t))
        (List.range data.length) data := by
    unfold matmul_cpu
    rw [htr, Option.some_bind]
    apply for_loop_write_cells
    intro i hi d
    rw [matmul_cpu_iteration_eq S left right tr m k n i d hl hr hmk hkn hcells (by omega)]
    rfl
  obtain ⟨out, ho, holen, _⟩ := write_cells_some
    (fun t => some (matmul_cell_simd S left right k n t)) (List.range data.length) data
    (fun c hc => ⟨List.mem_range.mp hc, _, rfl⟩)
  exact ⟨out, heq.trans ho, holen⟩

/-! ## Device matrix multiplication: frame lemmas -/

/-- The effect of one thread of the device kernel on the output: nothing outside the range,
and inside the range a single store at `i * sj + j` of the sum left by the two reduction loops,
whenever the thread returns. -/
theorem kernel_matmul_2d_writes {α : Type} (S : scalar_ops α) (in1 in2 : List α)
    (out out2 : CudaArrayRef α) (si sj sk : Nat) (blockIdx blockDim threadIdx : dim3)
    (h : kernel_matmul_2d S in1 in2 out si sj sk blockIdx blockDim threadIdx = some out2) :
    match kernel_matmul_2d_cell si sj blockDim (blockIdx, threadIdx) with
    | none => out2 = out
    | some c => c < out.ptr.length ∧ ∃ s1 s2,
        while_loop (fun s : Nat × α => decide ((s.1 + 3) % SIZE_T_MOD < sk))
          (kernel_matmul_2d_unrolled S in1 in2 (thread_index blockIdx.x blockDim.x threadIdx.x)
            (thread_index blockIdx.y blockDim.y threadIdx.y) sk) (sk + 1) (0, S.zero) = some s1 ∧
        while_loop (fun s : Nat × α => decide (s.1 < sk))
          (kernel_matmul_2d_remainder S in1 in2 (thread_index blockIdx.x blockDim.x threadIdx.x)
            (thread_index blockIdx.y blockDim.y threadIdx.y) sk) (sk + 1) s1 = some s2 ∧
        out2 = ⟨out.ptr.set c s2.2, out.length⟩ := by
  unfold kernel_matmul_2d at h
  unfold kernel_matmul_2d_cell
  by_cases ht : thread_index blockIdx.x blockDim.x threadIdx.x < si
      ∧ thread_index blockIdx.y blockDim.y threadIdx.y < sj
  · simp only [ht, and_self, if_true] at h ⊢
    obtain ⟨s1, hs1, h2⟩ := Option.bind_eq_some.mp h
    obtain ⟨s2, hs2, h3⟩ := Option.bind_eq_some.mp h2
    unfold CudaArrayRef.store buffer_store at h3
    split_ifs at h3 with hlt
    · simp only [Option.map_some', Option.some.injEq] at h3
      exact ⟨hlt, s1, s2, hs1, hs2, h3.symm⟩
    · simp at h3
  · simp only [ht, if_false, Option.some.injEq] at h ⊢
    exact h.symm

/-- A list of threads in which every cell is the position of exactly one thread covers every
cell. -/
theorem cover_of_once (si sj : Nat) (blockDim : dim3) (ths : List (dim3 × dim3))
    (honce : ∀ i, i < si → ∀ j, j < sj → ths.countP (fun th =>
      decide (thread_index th.1.x blockDim.x th.2.x = i
        ∧ thread_index th.1.y blockDim.y th.2.y = j)) = 1) :
    ∀ i, i < si → ∀ j, j < sj → ∃ th ∈ ths,
      thread_index th.1.x blockDim.x th.2.x = i ∧ thread_index th.1.y blockDim.y th.2.y = j := by
  intro i hi j hj
  have hpos : 0 < ths.countP (fun th =>
      decide (thread_index th.1.x blockDim.x th.2.x = i
        ∧ thread_index th.1.y blockDim.y th.2.y = j)) := by
    rw [honce i hi j hj]
    exact Nat.one_pos
  obtain ⟨th, hin, hp⟩ := List.countP_pos_iff.mp hpos
  exact ⟨th, hin, of_decide_eq_true hp⟩

/-- The flat index of a cell determines the cell, and every flat index below si * sj is the
index of a cell. -/
theorem flat_index_bijection (si sj : Nat) :
    (∀ i j i2 j2, i < si → j < sj → i2 < si → j2 < sj →
      i * sj + j = i2 * sj + j2 → i = i2 ∧ j = j2) ∧
    (∀ i j, i < si → j < sj → i * sj + j < si * sj) ∧
    (∀ c, c < si * sj → ∃ i j, i < si ∧ j < sj ∧ i * sj + j = c) := by
  refine ⟨?_, ?_, ?_⟩
  · intro i j i2 j2 _ hj _ hj2 he
    exact flat_index_inj sj j j2 i i2 hj hj2 he
  · intro i j hi hj
    exact flat_index_lt i si j sj hi hj
  · intro c hc
    have hsj : 0 < sj := by
      rcases Nat.eq_zero_or_pos sj with h | h
      · rw [h] at hc
        omega
      · exact h
    refine ⟨c / sj, c % sj, (Nat.div_lt_iff_lt_mul hsj).mpr hc, Nat.mod_lt c hsj, ?_⟩
    rw [Nat.mul_comm]
    exact Nat.div_add_mod c sj

/-- When every cell (i, j) is the position of exactly one thread of a list, every output cell
is the written cell of exactly one thread of the list. -/
theorem kernel_matmul_2d_cell_count (si sj : Nat) (blockDim : dim3)
    (ths : List (dim3 × dim3)) (hb3 : si * sj < SIZE_T_MOD)
    (honce : ∀ i, i < si → ∀ j, j < sj → ths.countP (fun th =>
      decide (thread_index th.1.x blockDim.x th.2.x = i
        ∧ thread_index th.1.y blockDim.y th.2.y = j)) = 1)
    (c : Nat) (hc : c < si * sj) :
    (ths.filterMap (kernel_matmul_2d_cell si sj blockDim)).count c = 1 := by
  have hsj : 0 < sj := by
    rcases Nat.eq_zero_or_pos sj with h | h
    · rw [h] at hc
      omega
    · exact h
  have hq : c / sj < si := (Nat.div_lt_iff_lt_mul hsj).mpr hc
  have hm : c % sj < sj := Nat.mod_lt c hsj
  rw [List.count_filterMap, ← honce (c / sj) hq (c % sj) hm]
  apply List.countP_congr
  intro th _
  simp only [beq_iff_eq, decide_eq_true_eq]
  unfold kernel_matmul_2d_cell
  constructor
  · intro h
    simp only at h
    split_ifs at h with hlt
    simp only [Option.some.injEq] at h
    have hlt2 := flat_index_lt _ si _ sj hlt.1 hlt.2
    rw [Nat.mod_eq_of_lt (lt_trans hlt2 hb3)] at h
    rw [← h]
    exact ⟨(flat_index_div _ _ sj hlt.2).symm, (flat_index_mod _ _ sj hlt.2).symm⟩
  · rintro ⟨hx, hy⟩
    simp only [hx, hy, hq, hm, and_self, if_true, Option.some.injEq]
    rw [Nat.mul_comm, Nat.div_add_mod]
    exact Nat.mod_eq_of_lt (lt_trans hc hb3)

/-! ## Shape verification: the claims -/

/-- C1: for every element-wise op (ADD, SUB, MUL, DIV, POW) and every pair of operand shapes,
`verify_and_get_dims` raises a value error if and only if the shapes differ and neither has
element count 1; in every other case it returns a shape. -/
theorem verify_raises_iff (left right : Tensor) (op_type : BinaryOpType)
    (hop : op_type ≠ .MATMUL) :
    (is_value_error (verify_and_get_dims left right op_type) = true ↔
        (left.dims ≠ right.dims ∧ product left.dims ≠ 1 ∧ product right.dims ≠ 1)) ∧
      (¬ (left.dims ≠ right.dims ∧ product left.dims ≠ 1 ∧ product right.dims ≠ 1) →
        ∃ D, verify_and_get_dims left right op_type = .ok D) := by
  rw [verify_elementwise left right op_type hop]
  by_cases hc : left.dims ≠ right.dims ∧ product left.dims ≠ 1 ∧ product right.dims ≠ 1
  · simp only [if_pos hc, is_value_error, true_iff]
    exact ⟨hc, fun h => absurd hc h⟩
  · rw [if_neg hc]
    refine ⟨?_, fun _ => ?_⟩
    · constructor
      · intro h
        split_ifs at h <;> simp [is_value_error] at h
      · intro h
        exact absurd h hc
    · split_ifs <;> exact ⟨_, rfl⟩

/-- Witness for C1: adding shapes (2,2) and (3,3) raises a value error. -/
theorem verify_raises_iff_witness :
    is_value_error (verify_and_get_dims ⟨[2, 2], 0, false⟩ ⟨[3, 3], 0, false⟩ .ADD) = true :=
  (verify_raises_iff ⟨[2, 2], 0, false⟩ ⟨[3, 3], 0, false⟩ .ADD (by decide)).1.2
    ⟨by decide, by decide, by decide⟩

/-- C2: for every shape S (any rank, any sizes) and every element-wise op, verifying S against S
succeeds and returns exactly S. -/
theorem verify_same_shape (left right : Tensor) (op_type : BinaryOpType)
    (hop : op_type ≠ .MATMUL) (hdims : left.dims = right.dims) :
    verify_and_get_dims left right op_type = .ok left.dims := by
  rw [verify_elementwise left right op_type hop]
  simp only [hdims, ne_eq, not_true_eq_false, false_and, if_false, gt_iff_lt, lt_self_iff_false]
  split_ifs <;> rfl

/-- Witness for C2: the empty shape (0, 3) against itself under POW. -/
theorem verify_same_shape_witness :
    verify_and_get_dims ⟨[0, 3], 1, false⟩ ⟨[0, 3], 2, true⟩ .POW = .ok [0, 3] :=
  verify_same_shape ⟨[0, 3], 1, false⟩ ⟨[0, 3], 2, true⟩ .POW (by decide) rfl

/-- C3 as stated fails: with S = () and scalar shape (1,), the verifier returns (1,), not S. -/
theorem verify_scalar_counterexample :
    ¬ (∀ (S s : Tensor) (op_type : BinaryOpType), op_type ≠ .MATMUL →
        (s.dims = [] ∨ s.dims = [1]) →
        verify_and_get_dims S s op_type = .ok S.dims ∧
          verify_and_get_dims s S op_type = .ok S.dims) := by
  intro h
  have h1 := (h ⟨[], 0, false⟩ ⟨[1], 0, false⟩ .ADD (by decide) (Or.inr rfl)).1
  have h2 : verify_and_get_dims ⟨[], 0, false⟩ ⟨[1], 0, false⟩ .ADD = .ok [1] := rfl
  rw [h2] at h1
  exact absurd h1 (by simp)

/-- C3 (amended): for every shape S, every scalar shape s that is either () or (1,), and every
element-wise op, verifying S against s and s against S both return S, except when S = () and
s = (1,), where both return (1,), the operand of larger rank. -/
theorem verify_scalar (S s : Tensor) (op_type : BinaryOpType) (hop : op_type ≠ .MATMUL)
    (hS : size_t_dims S.dims) (hs : s.dims = [] ∨ s.dims = [1]) :
    verify_and_get_dims S s op_type = .ok (if S.dims = [] ∧ s.dims = [1] then [1] else S.dims) ∧
      verify_and_get_dims s S op_type
        = .ok (if S.dims = [] ∧ s.dims = [1] then [1] else S.dims) := by
  have hps : product s.dims = 1 := by
    rcases hs with h | h <;> rw [h]
    · exact product_nil
    · exact product_one
  have hwf := hS
  rw [verify_elementwise S s op_type hop, verify_elementwise s S op_type hop]
  by_cases hS : product S.dims = 1
  · simp only [hps, hS, ne_eq, not_true_eq_false, and_false, and_self, if_false, if_true]
    rcases hs with h | h
    · simp only [h, List.length_nil, gt_iff_lt, Nat.not_lt_zero, if_false]
      by_cases hl : 0 < S.dims.length
      · simp [hl]
      · have : S.dims = [] := List.length_eq_zero.mp (by omega)
        simp [this]
    · simp only [h, List.length_singleton, gt_iff_lt]
      match hd : S.dims with
      | [] => simp
      | [d] =>
        have h1 : d % SIZE_T_MOD = 1 := by simpa [hd, product] using hS
        have h2 : d < SIZE_T_MOD := hwf d (by simp [hd])
        rw [Nat.mod_eq_of_lt h2] at h1
        simp [h1]
      | _ :: _ :: _ => simp
  · have hne : S.dims ≠ [] := by
      intro h
      exact hS (by rw [h]; exact product_nil)
    simp [hps, hS, hne]

/-- Witness for C3 (amended): a (2,3) operand against the scalar shape (1,) under MUL. -/
theorem verify_scalar_witness :
    verify_and_get_dims ⟨[2, 3], 0, false⟩ ⟨[1], 0, false⟩ .MUL = .ok [2, 3] ∧
      verify_and_get_dims ⟨[1], 0, false⟩ ⟨[2, 3], 0, false⟩ .MUL = .ok [2, 3] :=
  verify_scalar ⟨[2, 3], 0, false⟩ ⟨[1], 0, false⟩ .MUL (by decide) (by decide) (Or.inr rfl)

/-- C4: for every element-wise op, when exactly one operand has element count 1 the verifier
returns the shape of the other operand (right when left is the scalar, left when right is). -/
theorem verify_one_scalar (left right : Tensor) (op_type : BinaryOpType)
    (hop : op_type ≠ .MATMUL) :
    (product left.dims = 1 → product right.dims ≠ 1 →
        verify_and_get_dims left right op_type = .ok right.dims) ∧
      (product left.dims ≠ 1 → product right.dims = 1 →
        verify_and_get_dims left right op_type = .ok left.dims) := by
  rw [verify_elementwise left right op_type hop]
  constructor
  · intro hl hr
    simp [hl, hr]
  · intro hl hr
    simp [hl, hr]

/-- Witness for C4: a scalar of shape (1,1) on the left of a (4,) operand, and the converse. -/
theorem verify_one_scalar_witness :
    verify_and_get_dims ⟨[1, 1], 0, false⟩ ⟨[4], 0, false⟩ .SUB = .ok [4] ∧
      verify_and_get_dims ⟨[4], 0, false⟩ ⟨[1, 1], 0, false⟩ .SUB = .ok [4] :=
  ⟨(verify_one_scalar ⟨[1, 1], 0, false⟩ ⟨[4], 0, false⟩ .SUB (by decide)).1
      (by decide) (by decide),
    (verify_one_scalar ⟨[4], 0, false⟩ ⟨[1, 1], 0, false⟩ .SUB (by decide)).2
      (by decide) (by decide)⟩

/-- C5: for every element-wise op, when both operands have element count 1 the verifier returns
the left shape if its rank is strictly larger, and the right shape otherwise. -/
theorem verify_both_scalar (left right : Tensor) (op_type : BinaryOpType)
    (hop : op_type ≠ .MATMUL) (hl : product left.dims = 1) (hr : product right.dims = 1) :
    (left.dims.length > right.dims.length →
        verify_and_get_dims left right op_type = .ok left.dims) ∧
      (right.dims.length ≥ left.dims.length →
        verify_and_get_dims left right op_type = .ok right.dims) := by
  rw [verify_elementwise left right op_type hop]
  constructor
  · intro h
    simp [hl, hr, h]
  · intro h
    have : ¬ left.dims.length > right.dims.length := by omega
    simp [hl, hr, this]

/-- Witness for C5: shapes (1,1) and (1,) under DIV, in both orders. -/
theorem verify_both_scalar_witness :
    verify_and_get_dims ⟨[1, 1], 0, false⟩ ⟨[1], 0, false⟩ .DIV = .ok [1, 1] ∧
      verify_and_get_dims ⟨[1], 0, false⟩ ⟨[1, 1], 0, false⟩ .DIV = .ok [1, 1] :=
  ⟨(verify_both_scalar ⟨[1, 1], 0, false⟩ ⟨[1], 0, false⟩ .DIV (by decide)
      (by decide) (by decide)).1 (by decide),
    (verify_both_scalar ⟨[1], 0, false⟩ ⟨[1, 1], 0, false⟩ .DIV (by decide)
      (by decide) (by decide)).2 (by decide)⟩

/-- C6: for MATMUL and every pair of shapes, the verifier succeeds if and only if both shapes
have rank 2 and the left trailing dimension equals the right leading dimension; on success the
result is (left rows, right columns), and otherwise a value error is raised (no scalar
broadcast). -/
theorem verify_matmul_iff (left right : Tensor) :
    ((∃ D, verify_and_get_dims left right .MATMUL = .ok D) ↔
        (left.dims.length = 2 ∧ right.dims.length = 2 ∧ left.dims[1]? = right.dims[0]?)) ∧
      (∀ m k n, left.dims = [m, k] → right.dims = [k, n] →
        verify_and_get_dims left right .MATMUL = .ok [m, n]) ∧
      (¬ (left.dims.length = 2 ∧ right.dims.length = 2 ∧ left.dims[1]? = right.dims[0]?) →
        is_value_error (verify_and_get_dims left right .MATMUL) = true) := by
  rw [verify_matmul left right]
  rcases left with ⟨ld, lh, lg⟩
  rcases right with ⟨rd, rh, rg⟩
  simp only
  match ld, rd with
  | [], _ => simp [is_value_error]
  | [_], _ => simp [is_value_error]
  | _ :: _ :: _ :: _, _ => simp [is_value_error]
  | [_, _], [] => simp [is_value_error]
  | [_, _], [_] => simp [is_value_error]
  | [_, _], _ :: _ :: _ :: _ => simp [is_value_error]
  | [m, k], [k2, n] =>
    by_cases h : k = k2
    · subst h
      simp
    · simp [h, is_value_error]
      intro _ k1 _ _ hk hk2
      exact absurd (hk.trans hk2.symm) h

/-! ## Element-wise kernels: the claims -/

/-- C7: for every element-wise op and operands whose shapes passed verification (the node was
constructed), the host path of `compute_data` produces an output of length
n = product(result shape) in which, for every i < n, out[i] = a op b, where a is left[0] if the
left length is 1 and left[i] otherwise, b likewise on the right, and ADD is a+b, SUB is a-b, MUL
is a*b, DIV is a/b, POW is pow(a,b). -/
theorem compute_data_elementwise_cpu {α : Type} (S : scalar_ops α) (C : cuda_helpers α)
    (H : hash_utils) (arg1 arg2 : Tensor) (op_type : BinaryOpType) (self : BinaryOp)
    (left_child_data right_child_data : List α)
    (hop : op_type ≠ .MATMUL)
    (hnew : BinaryOp.new H arg1 arg2 op_type = .ok self)
    (hcpu : self.on_gpu = false)
    (hl : left_child_data.length = product arg1.dims)
    (hr : right_child_data.length = product arg2.dims) :
    ∃ out, self.compute_data S C left_child_data right_child_data = some out ∧
      out.length = product self.dims ∧
      ∀ i, i < product self.dims → ∃ a b,
        (if product arg1.dims = 1 then left_child_data[0]? else left_child_data[i]?) = some a ∧
        (if product arg2.dims = 1 then right_child_data[0]? else right_child_data[i]?) = some b ∧
        out[i]? = some (scalar_func S op_type a b) := by
  obtain ⟨hv, hlc, hrc, hot, _⟩ := BinaryOp.new_ok H arg1 arg2 op_type self hnew
  obtain ⟨hs1, hs2⟩ := verify_sizes arg1 arg2 op_type self.dims hop hv
  have hll : product arg1.dims = 1 ∨ product arg1.dims = product self.dims := by
    rcases hs1 with h | h
    · exact Or.inl h
    · exact Or.inr (by rw [h])
  have hrl : product arg2.dims = 1 ∨ product arg2.dims = product self.dims := by
    rcases hs2 with h | h
    · exact Or.inl h
    · exact Or.inr (by rw [h])
  have key := fun expr => binary_compute_data_cpu S C expr self.toTensor left_child_data
    right_child_data (product arg1.dims) (product arg2.dims) hcpu hl hr hll hrl
  unfold BinaryOp.compute_data
  rw [hlc, hrc, hot]
  cases op_type with
  | ADD => exact key S.add
  | SUB => exact key S.sub
  | MUL => exact key S.mul
  | DIV => exact key S.div
  | POW => exact key S.pow
  | MATMUL => exact absurd rfl hop

/-- Witness for C7: adding [1,2,3] of shape (3,) and [10] of shape (1,) on the host gives
[11,12,13]. -/
theorem compute_data_elementwise_cpu_witness :
    (∃ out, BinaryOp.compute_data int_ops int_cuda_helpers
        ⟨⟨[3], 10, false⟩, ⟨[3], 0, false⟩, ⟨[1], 0, false⟩, .ADD⟩ [1, 2, 3] [10] = some out ∧
      out.length = 3 ∧
      ∀ i, i < 3 → ∃ a b,
        (if product [3] = 1 then ([1, 2, 3] : List Int)[0]? else ([1, 2, 3] : List Int)[i]?)
          = some a ∧
        (if product [1] = 1 then ([10] : List Int)[0]? else ([10] : List Int)[i]?) = some b ∧
        out[i]? = some (a + b)) ∧
      BinaryOp.compute_data int_ops int_cuda_helpers
        ⟨⟨[3], 10, false⟩, ⟨[3], 0, false⟩, ⟨[1], 0, false⟩, .ADD⟩ [1, 2, 3] [10]
        = some [11, 12, 13] :=
  ⟨compute_data_elementwise_cpu int_ops int_cuda_helpers sum_hash_utils
      ⟨[3], 0, false⟩ ⟨[1], 0, false⟩ .ADD
      ⟨⟨[3], 10, false⟩, ⟨[3], 0, false⟩, ⟨[1], 0, false⟩, .ADD⟩ [1, 2, 3] [10]
      (by decide) rfl rfl rfl rfl,
    by decide⟩

/-- C8: for every element-wise expression, every pair of input buffers and lengths, and every
output length n: the device kernel run for thread index t makes exactly the write of host
iteration i = t when t < n, and leaves the output unchanged when t >= n; hence running all the
threads of a list that covers [0, n), in any order, yields the output buffer of the host loop. -/
theorem kernel_binary_refines_host {α : Type} (expr : α → α → α) (left right : List α)
    (out : CudaArrayRef α) (left_len right_len : Nat) (blockDim : dim3) :
    (∀ blockIdx threadIdx, thread_index blockIdx.x blockDim.x threadIdx.x < out.length →
        kernel_binary expr left right out left_len right_len blockIdx blockDim threadIdx =
          (binary_cpu_iteration expr left right left_len right_len
            (thread_index blockIdx.x blockDim.x threadIdx.x) out.ptr).map
            fun q => { out with ptr := q }) ∧
      (∀ blockIdx threadIdx, out.length ≤ thread_index blockIdx.x blockDim.x threadIdx.x →
        kernel_binary expr left right out left_len right_len blockIdx blockDim threadIdx
          = some out) ∧
      (∀ (ths : List (dim3 × dim3)) (data : List α),
        out.ptr.length = out.length → data.length = out.length →
        (∀ i, i < out.length → ∃ th ∈ ths, thread_index th.1.x blockDim.x th.2.x = i) →
        (run_threads (fun blockIdx threadIdx o =>
            kernel_binary expr left right o left_len right_len blockIdx blockDim threadIdx)
          ths out).map (fun o => o.ptr) =
          for_loop data.length (binary_cpu_iteration expr left right left_len right_len) data) := by
  rcases out with ⟨p, n⟩
  refine ⟨?_, ?_, ?_⟩
  · intro blockIdx threadIdx ht
    rw [kernel_binary_eq, binary_cpu_iteration_eq]
    simp only at ht
    simp only [ht, if_true]
  · intro blockIdx threadIdx ht
    rw [kernel_binary_eq]
    simp only at ht
    have : ¬ thread_index blockIdx.x blockDim.x threadIdx.x < n := by omega
    simp only [this, if_false]
  · intro ths data hp hd hcover
    simp only at hp hd hcover
    exact kernel_binary_grid expr left right p data n left_len right_len blockDim ths
      hp hd hcover

/-- Witness for C8: [1,2,3] plus the scalar [10] with output length 3, on one block of four
threads; thread 1 writes cell 1, thread 3 does nothing, and the launch yields the host output
[11,12,13]. -/
theorem kernel_binary_refines_host_witness :
    kernel_binary int_ops.add [1, 2, 3] [10] ⟨[0, 0, 0], 3⟩ 3 1 ⟨0, 0, 0⟩ ⟨4, 1, 1⟩ ⟨1, 0, 0⟩ =
        (binary_cpu_iteration int_ops.add [1, 2, 3] [10] 3 1
          (thread_index 0 4 1) [0, 0, 0]).map (fun q => ⟨q, 3⟩) ∧
      kernel_binary int_ops.add [1, 2, 3] [10] ⟨[0, 0, 0], 3⟩ 3 1 ⟨0, 0, 0⟩ ⟨4, 1, 1⟩ ⟨3, 0, 0⟩ =
        some ⟨[0, 0, 0], 3⟩ ∧
      (run_threads (fun blockIdx threadIdx o =>
          kernel_binary int_ops.add [1, 2, 3] [10] o 3 1 blockIdx ⟨4, 1, 1⟩ threadIdx)
        (grid_threads ⟨1, 1, 1⟩ ⟨4, 1, 1⟩) ⟨[0, 0, 0], 3⟩).map (fun o => o.ptr) =
        for_loop 3 (binary_cpu_iteration int_ops.add [1, 2, 3] [10] 3 1) [7, 7, 7] ∧
      for_loop 3 (binary_cpu_iteration int_ops.add [1, 2, 3] [10] 3 1) [7, 7, 7]
        = some [11, 12, 13] :=
  ⟨(kernel_binary_refines_host int_ops.add [1, 2, 3] [10] ⟨[0, 0, 0], 3⟩ 3 1 ⟨4, 1, 1⟩).1
      ⟨0, 0, 0⟩ ⟨1, 0, 0⟩ (by decide),
    (kernel_binary_refines_host int_ops.add [1, 2, 3] [10] ⟨[0, 0, 0], 3⟩ 3 1 ⟨4, 1, 1⟩).2.1
      ⟨0, 0, 0⟩ ⟨3, 0, 0⟩ (by decide),
    (kernel_binary_refines_host int_ops.add [1, 2, 3] [10] ⟨[0, 0, 0], 3⟩ 3 1 ⟨4, 1, 1⟩).2.2
      (grid_threads ⟨1, 1, 1⟩ ⟨4, 1, 1⟩) [7, 7, 7] rfl rfl (by decide),
    by decide⟩

/-! ## Matrix multiplication: the claims -/

/-- C9 as stated fails, on two inputs. For shapes (2^32, 0) and (0, 2^32) the
node is constructed and the host branch returns the empty buffer, so the output does not have
m * n = 2^64 cells. For the row [2^53, 1, -2^53, 1] times a column of ones in rounded
arithmetic, with the reduction evaluated in two lanes, the host branch returns 2, while the sum
of the four products accumulated in increasing order of j is 1. -/
theorem compute_data_matmul_cpu_counterexample :
    (BinaryOp.new sum_hash_utils ⟨[4294967296, 0], 0, false⟩ ⟨[0, 4294967296], 0, false⟩ .MATMUL
        = .ok ⟨⟨[4294967296, 4294967296], 8589934604, false⟩, ⟨[4294967296, 0], 0, false⟩,
          ⟨[0, 4294967296], 0, false⟩, .MATMUL⟩ ∧
      BinaryOp.compute_data int_ops int_cuda_helpers
        ⟨⟨[4294967296, 4294967296], 8589934604, false⟩, ⟨[4294967296, 0], 0, false⟩,
          ⟨[0, 4294967296], 0, false⟩, .MATMUL⟩ [] [] = some [] ∧
      ([] : List Int).length ≠ 4294967296 * 4294967296) ∧
    (BinaryOp.new sum_hash_utils ⟨[1, 4], 0, false⟩ ⟨[4, 1], 0, false⟩ .MATMUL
        = .ok ⟨⟨[1, 1], 14, false⟩, ⟨[1, 4], 0, false⟩, ⟨[4, 1], 0, false⟩, .MATMUL⟩ ∧
      BinaryOp.compute_data rounding_ops int_cuda_helpers
        ⟨⟨[1, 1], 14, false⟩, ⟨[1, 4], 0, false⟩, ⟨[4, 1], 0, false⟩, .MATMUL⟩
        [9007199254740992, 1, -9007199254740992, 1] [1, 1, 1, 1] = some [2] ∧
      sum_range rounding_ops 4 (fun j =>
        rounding_ops.mul
          (([9007199254740992, 1, -9007199254740992, 1] : List Int).getD (0 * 4 + j)
            rounding_ops.zero)
          (([1, 1, 1, 1] : List Int).getD (j * 1 + 0) rounding_ops.zero)) = 1 ∧
      ¬ ∃ out, BinaryOp.compute_data rounding_ops int_cuda_helpers
          ⟨⟨[1, 1], 14, false⟩, ⟨[1, 4], 0, false⟩, ⟨[4, 1], 0, false⟩, .MATMUL⟩
          [9007199254740992, 1, -9007199254740992, 1] [1, 1, 1, 1] = some out ∧
        out.length = 1 * 1 ∧
        ∀ r c, r < 1 → c < 1 →
          out[r * 1 + c]? = some (sum_range rounding_ops 4 fun j =>
            rounding_ops.mul
              (([9007199254740992, 1, -9007199254740992, 1] : List Int).getD (r * 4 + j)
                rounding_ops.zero)
              (([1, 1, 1, 1] : List Int).getD (j * 1 + c) rounding_ops.zero))) := by
  refine ⟨⟨rfl, by decide, by decide⟩, rfl, by decide, by decide, ?_⟩
  rintro ⟨out, ho, _, hcell⟩
  have hv : BinaryOp.compute_data rounding_ops int_cuda_helpers
      ⟨⟨[1, 1], 14, false⟩, ⟨[1, 4], 0, false⟩, ⟨[4, 1], 0, false⟩, .MATMUL⟩
      [9007199254740992, 1, -9007199254740992, 1] [1, 1, 1, 1] = some [2] := by decide
  rw [hv] at ho
  have h0 := hcell 0 0 (by decide) (by decide)
  rw [← Option.some.inj ho] at h0
  revert h0
  decide

/-- C9 (amended): for every left buffer of shape (m, k) and right buffer of shape (k, n) in
row-major layout whose element counts m * k, k * n and m * n are below 2^64, the host MATMUL
branch of `compute_data` produces an output of length m * n such that for every r < m and
c < n, out[r * n + c] is the result of adding the k products
left[r * k + j] * right[j * n + c], each exactly once and starting from 0.0, in the order in
which the simd reduction of that cell is evaluated; when scalar addition is exact (associative
and commutative with 0.0 neutral) this is the sum accumulated in increasing order of j. -/
theorem compute_data_matmul_cpu {α : Type} (S : scalar_ops α) (C : cuda_helpers α)
    (H : hash_utils) (arg1 arg2 : Tensor) (self : BinaryOp) (left right : List α) (m k n : Nat)
    (hnew : BinaryOp.new H arg1 arg2 .MATMUL = .ok self) (hcpu : self.on_gpu = false)
    (h1 : arg1.dims = [m, k]) (h2 : arg2.dims = [k, n])
    (hl : left.length = m * k) (hr : right.length = k * n)
    (hmk : m * k < SIZE_T_MOD) (hkn : k * n < SIZE_T_MOD) (hmn : m * n < SIZE_T_MOD) :
    ∃ out, self.compute_data S C left right = some out ∧ out.length = m * n ∧
      ∀ r c, r < m → c < n →
        ((S.simd_plan (r * n + c) k).terms).Perm (List.range k) ∧
        out[r * n + c]? = some ((S.simd_plan (r * n + c) k).sum S fun j =>
          S.mul (left.getD (r * k + j) S.zero) (right.getD (j * n + c) S.zero)) ∧
        (exact_add S → out[r * n + c]? = some (sum_range S k fun j =>
          S.mul (left.getD (r * k + j) S.zero) (right.getD (j * n + c) S.zero))) := by
  obtain ⟨hlen, heq⟩ :=
    compute_data_matmul_unfold S C H arg1 arg2 self left right m k n hnew hcpu h1 h2 hmn
  obtain ⟨out, ho, holen, _, hcell⟩ :=
    matmul_cpu_spec S left right m k n (allocate_data_cpu S self.toTensor) hl hr hmk hkn hlen
  refine ⟨out, heq.trans ho, holen, ?_⟩
  intro r c hr2 hc2
  have hval : out[r * n + c]? = some ((S.simd_plan (r * n + c) k).sum S fun j =>
      S.mul (left.getD (r * k + j) S.zero) (right.getD (j * n + c) S.zero)) := by
    rw [hcell (r * n + c) (flat_index_lt r m c n hr2 hc2)]
    unfold matmul_cell_simd
    rw [flat_index_div r c n hc2, flat_index_mod r c n hc2]
  refine ⟨S.simd_plan_perm _ k, hval, ?_⟩
  intro hex
  rw [hval, reduction_tree.sum_eq_sum_range S hex _ _ k (S.simd_plan_perm _ k)]

/-- Witness for C9 (amended): [[1,2],[3,4]] times [[5,6],[7,8]] on the host, in integer
arithmetic, whose addition is exact, gives [[19,22],[43,50]]. -/
theorem compute_data_matmul_cpu_witness :
    (∃ out, BinaryOp.compute_data int_ops int_cuda_helpers
        ⟨⟨[2, 2], 16, false⟩, ⟨[2, 2], 0, false⟩, ⟨[2, 2], 0, false⟩, .MATMUL⟩
        [1, 2, 3, 4] [5, 6, 7, 8] = some out ∧
      out.length = 2 * 2 ∧
      ∀ r c, r < 2 → c < 2 →
        ((int_ops.simd_plan (r * 2 + c) 2).terms).Perm (List.range 2) ∧
        out[r * 2 + c]? = some ((int_ops.simd_plan (r * 2 + c) 2).sum int_ops fun j =>
          int_ops.mul (([1, 2, 3, 4] : List Int).getD (r * 2 + j) int_ops.zero)
            (([5, 6, 7, 8] : List Int).getD (j * 2 + c) int_ops.zero)) ∧
        (exact_add int_ops → out[r * 2 + c]? = some (sum_range int_ops 2 fun j =>
          int_ops.mul (([1, 2, 3, 4] : List Int).getD (r * 2 + j) int_ops.zero)
            (([5, 6, 7, 8] : List Int).getD (j * 2 + c) int_ops.zero)))) ∧
      exact_add int_ops ∧
      BinaryOp.compute_data int_ops int_cuda_helpers
        ⟨⟨[2, 2], 16, false⟩, ⟨[2, 2], 0, false⟩, ⟨[2, 2], 0, false⟩, .MATMUL⟩
        [1, 2, 3, 4] [5, 6, 7, 8] = some [19, 22, 43, 50] :=
  ⟨compute_data_matmul_cpu int_ops int_cuda_helpers sum_hash_utils
      ⟨[2, 2], 0, false⟩ ⟨[2, 2], 0, false⟩
      ⟨⟨[2, 2], 16, false⟩, ⟨[2, 2], 0, false⟩, ⟨[2, 2], 0, false⟩, .MATMUL⟩
      [1, 2, 3, 4] [5, 6, 7, 8] 2 2 2 rfl rfl rfl rfl rfl rfl
      (by decide) (by decide) (by decide),
    exact_add_int_ops, by decide⟩

/-- C10 as stated fails: for the row [2^53, 1, -2^53, 1] and a column of ones in
rounded arithmetic, the device kernel adds the four products in increasing order of k and
writes 1, while the host MATMUL branch, whose reduction is evaluated in two lanes, returns 2
for the same operands; the device result is not the host result. -/
theorem kernel_matmul_2d_refines_host_counterexample :
    (run_threads (fun blockIdx threadIdx o =>
        kernel_matmul_2d rounding_ops [9007199254740992, 1, -9007199254740992, 1] [1, 1, 1, 1]
          o 1 1 4 blockIdx ⟨1, 1, 1⟩ threadIdx)
        (grid_threads ⟨1, 1, 1⟩ ⟨1, 1, 1⟩) ⟨[0], 1⟩).map (fun o => o.ptr) = some [1] ∧
    matmul_cpu rounding_ops [4, 1] [9007199254740992, 1, -9007199254740992, 1] [1, 1, 1, 1]
      4 1 [0] = some [2] ∧
    (run_threads (fun blockIdx threadIdx o =>
        kernel_matmul_2d rounding_ops [9007199254740992, 1, -9007199254740992, 1] [1, 1, 1, 1]
          o 1 1 4 blockIdx ⟨1, 1, 1⟩ threadIdx)
        (grid_threads ⟨1, 1, 1⟩ ⟨1, 1, 1⟩) ⟨[0], 1⟩).map (fun o => o.ptr) ≠
      matmul_cpu rounding_ops [4, 1] [9007199254740992, 1, -9007199254740992, 1] [1, 1, 1, 1]
        4 1 [0] :=
  ⟨by decide, by decide, by decide⟩

/-- C10 (amended): for every si, sj, sk (also sk not a multiple of 4 and sk < 4) with element
counts below 2^64, every `in1` of shape (si, sk) and every `in2` of shape (sj, sk): for a
thread (i, j) with i < si and j < sj, the unrolled loop of `kernel_matmul_2d` ends at
k = 4 * (sk / 4) with the partial sum up to there, the remainder loop ends at k = sk, and the
kernel writes to out[i * sj + j] the sum over k in [0, sk) of in1[i * sk + k] * in2[j * sk + k],
accumulated in increasing order of k. When `in2` holds the transpose of the right operand,
running the threads of a list covering all cells and the host MATMUL branch both return; cell c
of the device result is the in-order sum and cell c of the host result adds the same sk
products, each exactly once, in the order of the host simd reduction; the two results are
equal when scalar addition is exact (associative and commutative with 0.0 neutral). -/
theorem kernel_matmul_2d_refines_host {α : Type} (S : scalar_ops α) (in1 in2 : List α)
    (out : CudaArrayRef α) (si sj sk : Nat) (blockDim : dim3)
    (h1 : in1.length = si * sk) (h2 : in2.length = sj * sk)
    (hb1 : si * sk < SIZE_T_MOD) (hb2 : sj * sk < SIZE_T_MOD) (hb3 : si * sj < SIZE_T_MOD)
    (hout : out.ptr.length = si * sj) :
    (∀ blockIdx threadIdx,
      thread_index blockIdx.x blockDim.x threadIdx.x < si →
      thread_index blockIdx.y blockDim.y threadIdx.y < sj →
      (∃ s1,
        while_loop (fun s : Nat × α => decide ((s.1 + 3) % SIZE_T_MOD < sk))
          (kernel_matmul_2d_unrolled S in1 in2 (thread_index blockIdx.x blockDim.x threadIdx.x)
            (thread_index blockIdx.y blockDim.y threadIdx.y) sk) (sk + 1) (0, S.zero) = some s1 ∧
        s1 = (4 * (sk / 4), sum_range S (4 * (sk / 4)) fun k =>
          S.mul (in1.getD (thread_index blockIdx.x blockDim.x threadIdx.x * sk + k) S.zero)
            (in2.getD (thread_index blockIdx.y blockDim.y threadIdx.y * sk + k) S.zero)) ∧
        while_loop (fun s : Nat × α => decide (s.1 < sk))
          (kernel_matmul_2d_remainder S in1 in2 (thread_index blockIdx.x blockDim.x threadIdx.x)
            (thread_index blockIdx.y blockDim.y threadIdx.y) sk) (sk + 1) s1 =
          some (sk, sum_range S sk fun k =>
            S.mul (in1.getD (thread_index blockIdx.x blockDim.x threadIdx.x * sk + k) S.zero)
              (in2.getD (thread_index blockIdx.y blockDim.y threadIdx.y * sk + k) S.zero))) ∧
      kernel_matmul_2d S in1 in2 out si sj sk blockIdx blockDim threadIdx =
        some ⟨out.ptr.set
          (thread_index blockIdx.x blockDim.x threadIdx.x * sj
            + thread_index blockIdx.y blockDim.y threadIdx.y)
          (sum_range S sk fun k =>
            S.mul (in1.getD (thread_index blockIdx.x blockDim.x threadIdx.x * sk + k) S.zero)
              (in2.getD (thread_index blockIdx.y blockDim.y threadIdx.y * sk + k) S.zero)),
          out.length⟩) ∧
    (∀ (right data : List α) (ths : List (dim3 × dim3)),
      right.length = sk * sj →
      (∀ j, j < sj → ∀ k, k < sk → in2[j * sk + k]? = right[k * sj + j]?) →
      data.length = si * sj →
      (∀ i, i < si → ∀ j, j < sj → ∃ th ∈ ths,
        thread_index th.1.x blockDim.x th.2.x = i ∧ thread_index th.1.y blockDim.y th.2.y = j) →
      ∃ dev host,
        (run_threads (fun blockIdx threadIdx o =>
            kernel_matmul_2d S in1 in2 o si sj sk blockIdx blockDim threadIdx) ths out).map
          (fun o => o.ptr) = some dev ∧
        matmul_cpu S [sk, sj] in1 right sk sj data = some host ∧
        dev.length = si * sj ∧ host.length = si * sj ∧
        (∀ c, c < si * sj →
          dev[c]? = some (sum_range S sk fun k =>
            S.mul (in1.getD (c / sj * sk + k) S.zero) (in2.getD (c % sj * sk + k) S.zero)) ∧
          host[c]? = some ((S.simd_plan c sk).sum S fun k =>
            S.mul (in1.getD (c / sj * sk + k) S.zero) (in2.getD (c % sj * sk + k) S.zero)) ∧
          ((S.simd_plan c sk).terms).Perm (List.range sk)) ∧
        (exact_add S → dev = host)) := by
  rcases out with ⟨p, n⟩
  simp only at hout
  constructor
  · intro blockIdx threadIdx hi hj
    have g1 : thread_index blockIdx.x blockDim.x threadIdx.x * sk + sk ≤ in1.length := by
      rw [h1]
      calc thread_index blockIdx.x blockDim.x threadIdx.x * sk + sk
          = (thread_index blockIdx.x blockDim.x threadIdx.x + 1) * sk := by ring
        _ ≤ si * sk := Nat.mul_le_mul_right sk hi
    have g2 : thread_index blockIdx.y blockDim.y threadIdx.y * sk + sk ≤ in2.length := by
      rw [h2]
      calc thread_index blockIdx.y blockDim.y threadIdx.y * sk + sk
          = (thread_index blockIdx.y blockDim.y threadIdx.y + 1) * sk := by ring
        _ ≤ sj * sk := Nat.mul_le_mul_right sk hj
    obtain ⟨s1, s2, hw1, hw2, hk1, hsum1, hk2, hsum2⟩ := kernel_matmul_2d_loops S in1 in2
      (thread_index blockIdx.x blockDim.x threadIdx.x)
      (thread_index blockIdx.y blockDim.y threadIdx.y) sk g1 g2
      (by rw [h1]; exact hb1) (by rw [h2]; exact hb2)
    constructor
    · refine ⟨s1, hw1, ?_, ?_⟩
      · rw [← hk1, ← hsum1]
      · rw [hw2]
        congr 1
        exact Prod.ext hk2 hsum2
    · rw [kernel_matmul_2d_eq S in1 in2 p n si sj sk blockIdx blockDim threadIdx h1 h2 hb1 hb2 hb3]
      have hc := flat_index_lt _ si _ sj hi hj
      simp only [hi, hj, and_self, if_true, Option.some_bind, flat_index_div _ _ sj hj,
        flat_index_mod _ _ sj hj]
      rw [buffer_store_some p _ _ (by rw [hout]; exact hc)]
      rfl
  · intro right data ths hr htr hd hcover
    have hkn : sk * sj < SIZE_T_MOD := by rw [Nat.mul_comm]; exact hb2
    obtain ⟨host, hhost, hhlen, _, hhcell⟩ :=
      matmul_cpu_spec S in1 right si sk sj data h1 hr hb1 hkn hd
    obtain ⟨dev, hdev, hdlen, hdcell, _⟩ := kernel_matmul_2d_grid_cells S in1 in2 p n si sj sk
      blockDim ths h1 h2 hb1 hb2 hb3 (le_of_eq hout.symm) hcover
    have hcells : ∀ c, c < si * sj →
        host[c]? = some ((S.simd_plan c sk).sum S fun k =>
          S.mul (in1.getD (c / sj * sk + k) S.zero) (in2.getD (c % sj * sk + k) S.zero)) := by
      intro c hc
      have hsj : 0 < sj := by
        rcases Nat.eq_zero_or_pos sj with h | h
        · rw [h] at hc
          omega
        · exact h
      rw [hhcell c hc, matmul_cell_simd_transposed S in1 in2 right sj sk c h2 hr htr hsj]
    refine ⟨dev, host, ?_, hhost, by rw [hdlen, hout], hhlen, ?_, ?_⟩
    · rw [hdev]
      rfl
    · intro c hc
      exact ⟨hdcell c hc, hcells c hc, S.simd_plan_perm c sk⟩
    · intro hex
      apply List.ext_getElem?
      intro c
      by_cases hc : c < si * sj
      · rw [hdcell c hc, hcells c hc,
          reduction_tree.sum_eq_sum_range S hex _ _ sk (S.simd_plan_perm c sk)]
      · rw [List.getElem?_eq_none (by rw [hdlen, hout]; omega),
          List.getElem?_eq_none (by rw [hhlen]; omega)]

/-- Witness for C10 (amended): a (1, 6) row times a (6, 1) column in integer arithmetic, whose
addition is exact, so that the unrolled loop runs once and the remainder loop twice; the kernel
and the host both give [21]. -/
theorem kernel_matmul_2d_refines_host_witness :
    kernel_matmul_2d int_ops [1, 2, 3, 4, 5, 6] [1, 1, 1, 1, 1, 1] ⟨[0], 1⟩ 1 1 6
        ⟨0, 0, 0⟩ ⟨1, 1, 1⟩ ⟨0, 0, 0⟩ =
      some ⟨[0].set (thread_index 0 1 0 * 1 + thread_index 0 1 0)
        (sum_range int_ops 6 fun k =>
          int_ops.mul (([1, 2, 3, 4, 5, 6] : List Int).getD (thread_index 0 1 0 * 6 + k) 0)
            (([1, 1, 1, 1, 1, 1] : List Int).getD (thread_index 0 1 0 * 6 + k) 0)), 1⟩ ∧
    (∃ dev host,
      (run_threads (fun blockIdx threadIdx o =>
          kernel_matmul_2d int_ops [1, 2, 3, 4, 5, 6] [1, 1, 1, 1, 1, 1] o 1 1 6
            blockIdx ⟨1, 1, 1⟩ threadIdx) (grid_threads ⟨1, 1, 1⟩ ⟨1, 1, 1⟩) ⟨[0], 1⟩).map
        (fun o => o.ptr) = some dev ∧
      matmul_cpu int_ops [6, 1] [1, 2, 3, 4, 5, 6] [1, 1, 1, 1, 1, 1] 6 1 [0] = some host ∧
      dev.length = 1 * 1 ∧ host.length = 1 * 1 ∧
      (∀ c, c < 1 * 1 →
        dev[c]? = some (sum_range int_ops 6 fun k =>
          int_ops.mul (([1, 2, 3, 4, 5, 6] : List Int).getD (c / 1 * 6 + k) int_ops.zero)
            (([1, 1, 1, 1, 1, 1] : List Int).getD (c % 1 * 6 + k) int_ops.zero)) ∧
        host[c]? = some ((int_ops.simd_plan c 6).sum int_ops fun k =>
          int_ops.mul (([1, 2, 3, 4, 5, 6] : List Int).getD (c / 1 * 6 + k) int_ops.zero)
            (([1, 1, 1, 1, 1, 1] : List Int).getD (c % 1 * 6 + k) int_ops.zero)) ∧
        ((int_ops.simd_plan c 6).terms).Perm (List.range 6)) ∧
      (exact_add int_ops → dev = host)) ∧
    exact_add int_ops ∧
    matmul_cpu int_ops [6, 1] [1, 2, 3, 4, 5, 6] [1, 1, 1, 1, 1, 1] 6 1 [0] = some [21] :=
  ⟨((kernel_matmul_2d_refines_host int_ops [1, 2, 3, 4, 5, 6] [1, 1, 1, 1, 1, 1] ⟨[0], 1⟩ 1 1 6
      ⟨1, 1, 1⟩ rfl rfl (by decide) (by decide) (by decide) rfl).1
      ⟨0, 0, 0⟩ ⟨0, 0, 0⟩ (by decide) (by decide)).2,
    (kernel_matmul_2d_refines_host int_ops [1, 2, 3, 4, 5, 6] [1, 1, 1, 1, 1, 1] ⟨[0], 1⟩ 1 1 6
      ⟨1, 1, 1⟩ rfl rfl (by decide) (by decide) (by decide) rfl).2
      [1, 1, 1, 1, 1, 1] [0] (grid_threads ⟨1, 1, 1⟩ ⟨1, 1, 1⟩) rfl (by decide) rfl (by decide),
    exact_add_int_ops, by decide⟩

/-! ## The node: hash, placement and symmetry of the verifier -/

/-- C14: the hash of a constructed BinaryOp node is the fold of `Tensor::hash_combine` from 0
over, in this order, `vector_hash` of the result shape, the hash of the string "binary", the
ordinal of the operation, the left child's hash and the right child's hash; hence two
constructions with the same operation, children of the same hashes and the same result shape
have equal hashes. -/
theorem tensor_hash_deterministic (H : hash_utils) (arg1 arg2 : Tensor)
    (op_type : BinaryOpType) (self : BinaryOp)
    (hnew : BinaryOp.new H arg1 arg2 op_type = .ok self) :
    self.hashValue =
        [H.vector_hash self.dims, H.string_hash "binary", op_type.ordinal, arg1.hashValue,
          arg2.hashValue].foldl H.hash_combine 0 ∧
      ∀ (b1 b2 : Tensor) (other : BinaryOp),
        BinaryOp.new H b1 b2 op_type = .ok other →
        b1.hashValue = arg1.hashValue → b2.hashValue = arg2.hashValue →
        other.dims = self.dims → other.hashValue = self.hashValue := by
  have h1 := BinaryOp.new_hashValue H arg1 arg2 op_type self hnew
  refine ⟨h1, ?_⟩
  intro b1 b2 other hother e1 e2 ed
  rw [BinaryOp.new_hashValue H b1 b2 op_type other hother, h1, e1, e2, ed]

/-- Witness for C14: the hash of the sum of a (3,) node and a (1,) node, with concrete hashing
utilities, and a second construction from children of the same hashes. -/
theorem tensor_hash_deterministic_witness :
    (10 : Nat) = [sum_hash_utils.vector_hash [3], sum_hash_utils.string_hash "binary",
        BinaryOpType.ADD.ordinal, 0, 0].foldl sum_hash_utils.hash_combine 0 ∧
      ∀ (b1 b2 : Tensor) (other : BinaryOp),
        BinaryOp.new sum_hash_utils b1 b2 .ADD = .ok other →
        b1.hashValue = 0 → b2.hashValue = 0 →
        other.dims = [3] → other.hashValue = 10 :=
  tensor_hash_deterministic sum_hash_utils ⟨[3], 0, false⟩ ⟨[1], 0, false⟩ .ADD
    ⟨⟨[3], 10, false⟩, ⟨[3], 0, false⟩, ⟨[1], 0, false⟩, .ADD⟩ rfl

/-- C15: for every successfully constructed BinaryOp node, of any operation, the node's
`on_gpu` flag is true if and only if both operands have `on_gpu` true. -/
theorem on_gpu_iff_both (H : hash_utils) (arg1 arg2 : Tensor) (op_type : BinaryOpType)
    (self : BinaryOp) (hnew : BinaryOp.new H arg1 arg2 op_type = .ok self) :
    self.on_gpu = true ↔ (arg1.on_gpu = true ∧ arg2.on_gpu = true) := by
  obtain ⟨_, _, _, _, hg⟩ := BinaryOp.new_ok H arg1 arg2 op_type self hnew
  rw [hg, Bool.and_eq_true]

/-- Witness for C15: a MATMUL node whose left operand is on the device and whose right one is
on the host is on the host. -/
theorem on_gpu_iff_both_witness :
    (BinaryOp.mk ⟨[2, 4], 18, false⟩ ⟨[2, 3], 0, true⟩ ⟨[3, 4], 0, false⟩ .MATMUL).on_gpu = true ↔
      ((Tensor.mk [2, 3] 0 true).on_gpu = true ∧ (Tensor.mk [3, 4] 0 false).on_gpu = true) :=
  on_gpu_iff_both sum_hash_utils ⟨[2, 3], 0, true⟩ ⟨[3, 4], 0, false⟩ .MATMUL
    ⟨⟨[2, 4], 18, false⟩, ⟨[2, 3], 0, true⟩, ⟨[3, 4], 0, false⟩, .MATMUL⟩ rfl

/-- C16: for every element-wise op and operand shapes on which the verifier succeeds with
result shape D, each operand's element count is 1 or product(D); therefore, with operand
buffers of the operands' element counts, the reads left[0] or left[i] and right[0] or right[i]
made for an index i < product(D) are inside their buffers, and neither the host iteration nor
the device thread of index i fails. -/
theorem elementwise_reads_in_bounds (left right : Tensor) (op_type : BinaryOpType)
    (D : List Nat) (hop : op_type ≠ .MATMUL)
    (hv : verify_and_get_dims left right op_type = .ok D) :
    (product left.dims = 1 ∨ product left.dims = product D) ∧
      (product right.dims = 1 ∨ product right.dims = product D) ∧
      ∀ (α : Type) (expr : α → α → α) (left_data right_data : List α),
        left_data.length = product left.dims → right_data.length = product right.dims →
        ∀ i, i < product D →
          (∃ a, (if product left.dims = 1 then left_data[0]? else left_data[i]?) = some a) ∧
          (∃ b, (if product right.dims = 1 then right_data[0]? else right_data[i]?) = some b) ∧
          (∀ data : List α, data.length = product D →
            ∃ data2, binary_cpu_iteration expr left_data right_data
              (product left.dims) (product right.dims) i data = some data2) ∧
          (∀ (out : CudaArrayRef α) (blockIdx blockDim threadIdx : dim3),
            out.ptr.length = product D → out.length = product D →
            thread_index blockIdx.x blockDim.x threadIdx.x = i →
            ∃ out2, kernel_binary expr left_data right_data out
              (product left.dims) (product right.dims) blockIdx blockDim threadIdx
                = some out2) := by
  obtain ⟨hs1, hs2⟩ := verify_sizes left right op_type D hop hv
  refine ⟨?_, ?_, ?_⟩
  · rcases hs1 with h | h
    · exact Or.inl h
    · exact Or.inr (by rw [h])
  · rcases hs2 with h | h
    · exact Or.inl h
    · exact Or.inr (by rw [h])
  · intro α expr left_data right_data hl hr i hi
    obtain ⟨⟨a, ha⟩, ⟨b, hb⟩⟩ :=
      broadcast_reads_some left right op_type D hop hv left_data right_data hl hr i hi
    have hval : broadcast_value expr left_data right_data (product left.dims)
        (product right.dims) i = some (expr a b) := by
      simp [broadcast_value, ha, hb]
    refine ⟨⟨a, ha⟩, ⟨b, hb⟩, ?_, ?_⟩
    · intro data hd
      rw [binary_cpu_iteration_eq, hval, Option.some_bind]
      exact ⟨_, buffer_store_some data i _ (by omega)⟩
    · intro out blockIdx blockDim threadIdx hp hlen hidx
      rcases out with ⟨p, n⟩
      simp only at hp hlen
      rw [kernel_binary_eq, hidx, hlen, if_pos hi]
      simp only [hval, Option.some_bind]
      rw [buffer_store_some p i _ (by omega)]
      exact ⟨_, rfl⟩

/-- Witness for C16: shapes (3,) and (1,) under ADD, buffers [1,2,3] and [10], index 2. -/
theorem elementwise_reads_in_bounds_witness :
    (∃ a, (if product [3] = 1 then ([1, 2, 3] : List Int)[0]? else ([1, 2, 3] : List Int)[2]?)
        = some a) ∧
      (∃ b, (if product [1] = 1 then ([10] : List Int)[0]? else ([10] : List Int)[2]?)
        = some b) :=
  ⟨((elementwise_reads_in_bounds ⟨[3], 0, false⟩ ⟨[1], 0, false⟩ .ADD [3] (by decide) rfl).2.2
      Int int_ops.add [1, 2, 3] [10] rfl rfl 2 (by decide)).1,
    ((elementwise_reads_in_bounds ⟨[3], 0, false⟩ ⟨[1], 0, false⟩ .ADD [3] (by decide) rfl).2.2
      Int int_ops.add [1, 2, 3] [10] rfl rfl 2 (by decide)).2.1⟩

/-- C19: for every element-wise op and every pair of shapes whose exact element counts fit
`size_t` (the products are computed without overflow), the verifier is symmetric in its
operands: it raises for (L, R) exactly when it raises for (R, L), and when it succeeds both
orders return the same shape; two shapes of element count 1 and equal rank are equal, so the
tie-break between them cannot be observed. -/
theorem verify_symmetric (left right : Tensor) (op_type : BinaryOpType)
    (hop : op_type ≠ .MATMUL)
    (hl : left.dims.prod < SIZE_T_MOD) (hr : right.dims.prod < SIZE_T_MOD) :
    is_value_error (verify_and_get_dims left right op_type)
        = is_value_error (verify_and_get_dims right left op_type) ∧
      (∀ D, verify_and_get_dims left right op_type = .ok D ↔
        verify_and_get_dims right left op_type = .ok D) ∧
      (product left.dims = 1 → product right.dims = 1 →
        left.dims.length = right.dims.length → left.dims = right.dims) := by
  have htie : product left.dims = 1 → product right.dims = 1 →
      left.dims.length = right.dims.length → left.dims = right.dims := by
    intro h1 h2 hlen
    rw [dims_all_one left.dims hl h1, dims_all_one right.dims hr h2, hlen]
  rw [verify_elementwise left right op_type hop, verify_elementwise right left op_type hop]
  refine ⟨?_, ?_, htie⟩
  · rw [← verify_elementwise left right op_type hop,
      ← verify_elementwise right left op_type hop,
      is_value_error_verify left right op_type hop,
      is_value_error_verify right left op_type hop]
    apply decide_eq_decide.mpr
    constructor
    · rintro ⟨a, b, c⟩
      exact ⟨fun e => a e.symm, c, b⟩
    · rintro ⟨a, b, c⟩
      exact ⟨fun e => a e.symm, c, b⟩
  · intro D
    by_cases h1 : product left.dims = 1 <;> by_cases h2 : product right.dims = 1
    · rcases Nat.lt_trichotomy left.dims.length right.dims.length with hlt | heq | hgt
      · have a1 : ¬ left.dims.length > right.dims.length := by omega
        have a2 : right.dims.length > left.dims.length := hlt
        simp [h1, h2, a1, a2]
      · have e := htie h1 h2 heq
        simp [h1, h2, e]
      · have a1 : left.dims.length > right.dims.length := hgt
        have a2 : ¬ right.dims.length > left.dims.length := by omega
        simp [h1, h2, a1, a2]
    · simp [h1, h2]
    · simp [h1, h2]
    · by_cases he : left.dims = right.dims
      · simp [h1, h2, he]
      · have he2 : ¬ right.dims = left.dims := fun e => he e.symm
        simp [h1, h2, he, he2]

/-- Witness for C19: shapes (1,1) and (1,) under MUL, in both orders. -/
theorem verify_symmetric_witness :
    is_value_error (verify_and_get_dims ⟨[1, 1], 0, false⟩ ⟨[1], 0, false⟩ .MUL)
        = is_value_error (verify_and_get_dims ⟨[1], 0, false⟩ ⟨[1, 1], 0, false⟩ .MUL) ∧
      (∀ D, verify_and_get_dims ⟨[1, 1], 0, false⟩ ⟨[1], 0, false⟩ .MUL = .ok D ↔
        verify_and_get_dims ⟨[1], 0, false⟩ ⟨[1, 1], 0, false⟩ .MUL = .ok D) ∧
      (product [1, 1] = 1 → product [1] = 1 →
        [1, 1].length = [1].length → [1, 1] = [1]) :=
  verify_symmetric ⟨[1, 1], 0, false⟩ ⟨[1], 0, false⟩ .MUL (by decide)
    (by decide) (by decide)

/-! ## `gg::matmul`: the claims -/

/-- C11: for every pair of operand shapes on which `gg::matmul` succeeds, the shapes are one of
(m, k) with (k, n), (k) with (k, n), (m, k) with (k), (k) with (k), and the returned node has
shape (m, n), (n), (m), () respectively; the returned node is the 2-D MATMUL node or a reshape
of it, and its element count equals the element count of that MATMUL node. -/
theorem gg_matmul_shape {α : Type} (H : hash_utils) (R : reshape_helpers)
    (left right res : Node α) (h : gg.matmul H R left right = .ok res) :
    ((∃ m k n, left.dims = [m, k] ∧ right.dims = [k, n] ∧ res.dims = [m, n]) ∨
      (∃ k n, left.dims = [k] ∧ right.dims = [k, n] ∧ res.dims = [n]) ∨
      (∃ m k, left.dims = [m, k] ∧ right.dims = [k] ∧ res.dims = [m]) ∨
      (∃ k, left.dims = [k] ∧ right.dims = [k] ∧ res.dims = [])) ∧
    ∃ node l r, (res = .binary node l r ∨ ∃ t, res = .reshape t (.binary node l r)) ∧
      node.op_type = .MATMUL ∧ node.dims.length = 2 ∧
      product res.dims = product node.dims := by
  obtain ⟨m, k, n, e1, e2⟩ := gg.matmul_ok_shapes H R left right res h
  obtain ⟨node, l, r, _, hd, hop, _, _, _, hres⟩ := gg.matmul_ok H R left right m k n e1 e2
  rw [h, Except.ok.injEq] at hres
  rcases promote_left_cases left.dims m k e1 with ⟨hl, hle, hm⟩ | ⟨hl, hle⟩ <;>
    rcases promote_right_cases right.dims k n e2 with ⟨hr, hre, hn⟩ | ⟨hr, hre⟩
  · subst hm hn
    simp only [hl, hr, and_self, if_true] at hres
    refine ⟨Or.inr (Or.inr (Or.inr ⟨k, hle, hre, by rw [hres]; rfl⟩)),
      node, l, r, Or.inr ⟨_, by rw [hres]; rfl⟩, hop, by rw [hd]; rfl, ?_⟩
    rw [hres, reshape_dims, hd]
    rfl
  · subst hm
    simp only [hl, hr, and_false, if_true, if_false] at hres
    refine ⟨Or.inr (Or.inl ⟨k, n, hle, hre, by rw [hres]; rfl⟩),
      node, l, r, Or.inr ⟨_, by rw [hres]; rfl⟩, hop, by rw [hd]; rfl, ?_⟩
    rw [hres, reshape_dims, hd, product_pair, product_single, Nat.one_mul]
  · subst hn
    simp only [hl, hr, false_and, if_true, if_false] at hres
    refine ⟨Or.inr (Or.inr (Or.inl ⟨m, k, hle, hre, by rw [hres]; rfl⟩)),
      node, l, r, Or.inr ⟨_, by rw [hres]; rfl⟩, hop, by rw [hd]; rfl, ?_⟩
    rw [hres, reshape_dims, hd, product_pair, product_single, Nat.mul_one]
  · simp only [hl, hr, false_and, if_false] at hres
    refine ⟨Or.inl ⟨m, k, n, hle, hre, by rw [hres]; exact hd⟩,
      node, l, r, Or.inl hres, hop, by rw [hd]; rfl, ?_⟩
    rw [hres]
    rfl

/-- Witness for C11: a vector of length 3 times a (3, 2) matrix gives a node of shape (2). -/
theorem gg_matmul_shape_witness :
    ((∃ m k n, [3] = [m, k] ∧ [3, 2] = [k, n] ∧ [2] = [m, n]) ∨
      (∃ k n, [3] = [k] ∧ [3, 2] = [k, n] ∧ [2] = [n]) ∨
      (∃ m k, [3] = [m, k] ∧ [3, 2] = [k] ∧ [2] = [m]) ∨
      (∃ k, [3] = [k] ∧ [3, 2] = [k] ∧ [2] = ([] : List Nat))) ∧
    ∃ node l r,
      ((reshape host_reshape_helpers (Node.binary
            ⟨⟨[1, 2], 19, false⟩, ⟨[1, 3], 4, false⟩, ⟨[3, 2], 0, false⟩, .MATMUL⟩
            (reshape host_reshape_helpers (Node.input ⟨[3], 0, false⟩ [1, 2, 3]) [1, 3])
            (Node.input ⟨[3, 2], 0, false⟩ [1, 0, 0, 1, 1, 1])) [2] : Node Int)
          = .binary node l r ∨
        ∃ t, (reshape host_reshape_helpers (Node.binary
            ⟨⟨[1, 2], 19, false⟩, ⟨[1, 3], 4, false⟩, ⟨[3, 2], 0, false⟩, .MATMUL⟩
            (reshape host_reshape_helpers (Node.input ⟨[3], 0, false⟩ [1, 2, 3]) [1, 3])
            (Node.input ⟨[3, 2], 0, false⟩ [1, 0, 0, 1, 1, 1])) [2] : Node Int)
          = .reshape t (.binary node l r)) ∧
      node.op_type = .MATMUL ∧ node.dims.length = 2 ∧ product [2] = product node.dims :=
  gg_matmul_shape sum_hash_utils host_reshape_helpers
    (Node.input ⟨[3], 0, false⟩ [1, 2, 3])
    (Node.input ⟨[3, 2], 0, false⟩ [1, 0, 0, 1, 1, 1])
    (reshape host_reshape_helpers (Node.binary
      ⟨⟨[1, 2], 19, false⟩, ⟨[1, 3], 4, false⟩, ⟨[3, 2], 0, false⟩, .MATMUL⟩
      (reshape host_reshape_helpers (Node.input ⟨[3], 0, false⟩ [1, 2, 3]) [1, 3])
      (Node.input ⟨[3, 2], 0, false⟩ [1, 0, 0, 1, 1, 1])) [2])
    rfl

/-- C12 as stated fails: for u = [2^53, 1, -2^53, 1] and v = [1, 1, 1, 1] in
rounded arithmetic, with the host reduction evaluated in two lanes, `gg::matmul(u, v)`
evaluates to the single element 2, while the sum of the four products u[k] * v[k] accumulated
in increasing order of k is 1. -/
theorem gg_matmul_dot_counterexample :
    ∃ res, gg.matmul sum_hash_utils host_reshape_helpers
        (Node.input ⟨[4], 0, false⟩ ([9007199254740992, 1, -9007199254740992, 1] : List Int))
        (Node.input ⟨[4], 0, false⟩ [1, 1, 1, 1]) = .ok res ∧
      res.dims = [] ∧
      res.eval rounding_ops int_cuda_helpers = some [2] ∧
      sum_range rounding_ops 4 (fun k =>
        rounding_ops.mul
          (([9007199254740992, 1, -9007199254740992, 1] : List Int).getD k rounding_ops.zero)
          (([1, 1, 1, 1] : List Int).getD k rounding_ops.zero)) = 1 ∧
      res.eval rounding_ops int_cuda_helpers ≠ some [sum_range rounding_ops 4 fun k =>
        rounding_ops.mul
          (([9007199254740992, 1, -9007199254740992, 1] : List Int).getD k rounding_ops.zero)
          (([1, 1, 1, 1] : List Int).getD k rounding_ops.zero)] :=
  ⟨_, rfl, rfl, by decide, by decide, by decide⟩

/-- C12 (amended): for every d and every pair of 1-D vectors u, v of length d, `gg::matmul(u, v)`
evaluated on the host yields a rank-0 tensor whose single element is the result of adding the
d products u[k] * v[k], each exactly once and starting from 0.0, in the order in which the
host simd reduction is evaluated, a reshape preserving the flat data buffer; when scalar
addition is exact (associative and commutative with 0.0 neutral) this element is the sum
accumulated in increasing order of k. -/
theorem gg_matmul_dot {α : Type} (S : scalar_ops α) (C : cuda_helpers α) (H : hash_utils)
    (R : reshape_helpers) (u v : Node α) (ud vd : List α) (d : Nat)
    (hu : u.dims = [d]) (hv : v.dims = [d])
    (hue : u.eval S C = some ud) (hve : v.eval S C = some vd)
    (hul : ud.length = d) (hvl : vd.length = d) (hd : d < SIZE_T_MOD)
    (hhost : (R.on_gpu u.toTensor [1, d] && R.on_gpu v.toTensor [d, 1]) = false) :
    ∃ res, gg.matmul H R u v = .ok res ∧ res.dims = [] ∧
      ((S.simd_plan 0 d).terms).Perm (List.range d) ∧
      res.eval S C = some [(S.simd_plan 0 d).sum S fun k =>
        S.mul (ud.getD k S.zero) (vd.getD k S.zero)] ∧
      (exact_add S → res.eval S C = some [sum_range S d fun k =>
        S.mul (ud.getD k S.zero) (vd.getD k S.zero)]) := by
  have e1 : promote_left u.dims = [1, d] := by
    rw [hu]
    rfl
  have e2 : promote_right v.dims = [d, 1] := by
    rw [hv]
    rfl
  obtain ⟨node, l, r, hnew, _, _, hg, hl, hr, hres⟩ := gg.matmul_ok H R u v 1 d 1 e1 e2
  simp only [hu, hv, List.length_singleton, and_self, if_true, List.getD_cons_zero]
    at hl hr hres
  have hcpu : node.on_gpu = false := by
    rw [hg, hl, hr]
    exact hhost
  have hle : l.eval S C = some ud := by rw [hl, reshape_eval]; exact hue
  have hre : r.eval S C = some vd := by rw [hr, reshape_eval]; exact hve
  have hld : l.toTensor.dims = [1, d] := by rw [hl]; rfl
  have hrd : r.toTensor.dims = [d, 1] := by rw [hr]; rfl
  obtain ⟨hlen, heq⟩ := compute_data_matmul_unfold S C H l.toTensor r.toTensor node ud vd
    1 d 1 hnew hcpu hld hrd (by unfold SIZE_T_MOD; norm_num)
  obtain ⟨out, ho, holen, _, hcell⟩ := matmul_cpu_spec S ud vd 1 d 1
    (allocate_data_cpu S node.toTensor) (by omega) (by omega) (by omega) (by omega) hlen
  have hval : (reshape R (Node.binary node l r) []).eval S C =
      some [(S.simd_plan 0 d).sum S fun k => S.mul (ud.getD k S.zero) (vd.getD k S.zero)] := by
    rw [reshape_eval]
    show ((l.eval S C).bind fun a => (r.eval S C).bind fun b => node.compute_data S C a b)
      = some _
    rw [hle, hre, Option.some_bind, Option.some_bind, heq, ho]
    congr 1
    apply list_eq_singleton out _ holen
    rw [hcell 0 (by norm_num)]
    congr 1
    unfold matmul_cell_simd
    apply reduction_tree.sum_congr
    intro k _
    simp
  refine ⟨_, hres, rfl, S.simd_plan_perm 0 d, hval, ?_⟩
  intro hex
  rw [hval, reduction_tree.sum_eq_sum_range S hex _ _ d (S.simd_plan_perm 0 d)]

/-- Witness for C12 (amended): the dot product of [1,2,3] and [4,5,6] on the host, in integer
arithmetic, whose addition is exact, is 32. -/
theorem gg_matmul_dot_witness :
    (∃ res, gg.matmul sum_hash_utils host_reshape_helpers
        (Node.input ⟨[3], 0, false⟩ [1, 2, 3]) (Node.input ⟨[3], 0, false⟩ [4, 5, 6])
          = .ok res ∧
      res.dims = [] ∧
      ((int_ops.simd_plan 0 3).terms).Perm (List.range 3) ∧
      res.eval int_ops int_cuda_helpers = some [(int_ops.simd_plan 0 3).sum int_ops fun k =>
        int_ops.mul (([1, 2, 3] : List Int).getD k int_ops.zero)
          (([4, 5, 6] : List Int).getD k int_ops.zero)] ∧
      (exact_add int_ops → res.eval int_ops int_cuda_helpers =
        some [sum_range int_ops 3 fun k =>
          int_ops.mul (([1, 2, 3] : List Int).getD k int_ops.zero)
            (([4, 5, 6] : List Int).getD k int_ops.zero)])) ∧
      exact_add int_ops ∧
      sum_range int_ops 3 (fun k =>
        int_ops.mul (([1, 2, 3] : List Int).getD k int_ops.zero)
          (([4, 5, 6] : List Int).getD k int_ops.zero)) = 32 :=
  ⟨gg_matmul_dot int_ops int_cuda_helpers sum_hash_utils host_reshape_helpers
      (Node.input ⟨[3], 0, false⟩ [1, 2, 3]) (Node.input ⟨[3], 0, false⟩ [4, 5, 6])
      [1, 2, 3] [4, 5, 6] 3 rfl rfl rfl rfl rfl rfl (by decide) rfl,
    exact_add_int_ops, by decide⟩

/-- C13: `gg::matmul` raises a value error if and only if, after promoting each 1-D operand to
2-D (left (d) to (1, d), right (d) to (d, 1)), it is not the case that both shapes have rank 2
and the left trailing dimension equals the right leading dimension; rank-0 and rank >= 3
operands and mismatched inner dimensions are always rejected; and whenever `gg::matmul`
returns a node, the constructor's own MATMUL verification of the promoted operands succeeds. -/
theorem gg_matmul_raises_iff {α : Type} (H : hash_utils) (R : reshape_helpers)
    (left right : Node α) :
    (is_value_error (gg.matmul H R left right) = true ↔
      ¬ ((promote_left left.dims).length = 2 ∧ (promote_right right.dims).length = 2
        ∧ (promote_left left.dims).getD 1 0 = (promote_right right.dims).getD 0 0)) ∧
    ((left.dims.length = 0 ∨ 3 ≤ left.dims.length ∨ right.dims.length = 0
        ∨ 3 ≤ right.dims.length) → is_value_error (gg.matmul H R left right) = true) ∧
    ((promote_left left.dims).getD 1 0 ≠ (promote_right right.dims).getD 0 0 →
      is_value_error (gg.matmul H R left right) = true) ∧
    (∀ res, gg.matmul H R left right = .ok res →
      ∃ D, verify_and_get_dims
        (if left.dims.length = 1 then reshape R left [1, left.dims.getD 0 0] else left).toTensor
        (if right.dims.length = 1 then reshape R right [right.dims.getD 0 0, 1]
          else right).toTensor .MATMUL = .ok D) := by
  have hiff : is_value_error (gg.matmul H R left right) = true ↔
      ¬ ((promote_left left.dims).length = 2 ∧ (promote_right right.dims).length = 2
        ∧ (promote_left left.dims).getD 1 0 = (promote_right right.dims).getD 0 0) := by
    constructor
    · intro herr hc
      obtain ⟨c1, c2, c3⟩ := hc
      obtain ⟨m, k, e1⟩ := List.length_eq_two.mp c1
      obtain ⟨k2, n, e2⟩ := List.length_eq_two.mp c2
      rw [e1, e2] at c3
      simp only [List.getD_cons_succ, List.getD_cons_zero] at c3
      subst c3
      obtain ⟨_, _, _, _, _, _, _, _, _, hres⟩ := gg.matmul_ok H R left right m k n e1 e2
      rw [hres, is_value_error_ok] at herr
      exact absurd herr (by simp)
    · exact gg.matmul_error H R left right
  refine ⟨hiff, ?_, ?_, ?_⟩
  · intro hrank
    apply hiff.mpr
    rintro ⟨c1, c2, _⟩
    unfold promote_left at c1
    unfold promote_right at c2
    by_cases hl : left.dims.length = 1 <;> by_cases hr : right.dims.length = 1 <;>
      simp only [hl, hr, if_true, if_false] at c1 c2 <;> omega
  · intro hne
    apply hiff.mpr
    rintro ⟨_, _, c3⟩
    exact hne c3
  · intro res hres
    obtain ⟨m, k, n, e1, e2⟩ := gg.matmul_ok_shapes H R left right res hres
    obtain ⟨node, l, r, hnew, _, _, _, hl, hr, _⟩ := gg.matmul_ok H R left right m k n e1 e2
    rw [← hl, ← hr]
    exact ⟨node.dims, (BinaryOp.new_ok H l.toTensor r.toTensor .MATMUL node hnew).1⟩

/-- Witness for C13: a (2, 3) operand times a 1-D operand of length 4 is rejected. -/
theorem gg_matmul_raises_iff_witness :
    is_value_error (gg.matmul sum_hash_utils host_reshape_helpers
      (Node.input ⟨[2, 3], 0, false⟩ [1, 2, 3, 4, 5, 6])
      (Node.input ⟨[4], 0, false⟩ ([1, 1, 1, 1] : List Int))) = true :=
  (gg_matmul_raises_iff sum_hash_utils host_reshape_helpers
      (Node.input ⟨[2, 3], 0, false⟩ [1, 2, 3, 4, 5, 6])
      (Node.input ⟨[4], 0, false⟩ ([1, 1, 1, 1] : List Int))).2.2.1 (by decide)

/-! ## Safety of the host matrix multiplication and frame of the device kernel -/

/-- C17 as stated fails, on two constructed MATMUL nodes. Left shape
(12297829382473034411, 3) has the element count 1, since 3 * 12297829382473034411 = 2^65 + 1,
and with right shape (3, 3) the output has one cell: at i = 0 and j = 1 the left read index
r * width + j is 1, outside the one-element left buffer, and the host evaluation fails. Right
shape (12297829382473034411, 3) has the element count 1 as well, and with left shape
(0, 12297829382473034411) the transposed copy reads the right buffer at i * cols + j = 1 for
i = 0 and j = 1, outside the one-element right buffer, and the host evaluation fails. -/
theorem matmul_cpu_safe_counterexample :
    (BinaryOp.new sum_hash_utils ⟨[12297829382473034411, 3], 0, false⟩ ⟨[3, 3], 0, false⟩
        .MATMUL = .ok ⟨⟨[12297829382473034411, 3], 12297829382473034426, false⟩,
          ⟨[12297829382473034411, 3], 0, false⟩, ⟨[3, 3], 0, false⟩, .MATMUL⟩ ∧
      product [12297829382473034411, 3] = 1 ∧
      ¬ ((0 / 3 * 3) % SIZE_T_MOD + 1 < product [12297829382473034411, 3]) ∧
      BinaryOp.compute_data int_ops int_cuda_helpers
        ⟨⟨[12297829382473034411, 3], 12297829382473034426, false⟩,
          ⟨[12297829382473034411, 3], 0, false⟩, ⟨[3, 3], 0, false⟩, .MATMUL⟩
        [5] [1, 2, 3, 4, 5, 6, 7, 8, 9] = none) ∧
    (BinaryOp.new sum_hash_utils ⟨[0, 12297829382473034411], 0, false⟩
        ⟨[12297829382473034411, 3], 0, false⟩ .MATMUL =
        .ok ⟨⟨[0, 3], 15, false⟩, ⟨[0, 12297829382473034411], 0, false⟩,
          ⟨[12297829382473034411, 3], 0, false⟩, .MATMUL⟩ ∧
      product [0, 12297829382473034411] = 0 ∧
      ¬ ((0 * 3 + 1) % SIZE_T_MOD < product [12297829382473034411, 3]) ∧
      BinaryOp.compute_data int_ops int_cuda_helpers
        ⟨⟨[0, 3], 15, false⟩, ⟨[0, 12297829382473034411], 0, false⟩,
          ⟨[12297829382473034411, 3], 0, false⟩, .MATMUL⟩ [] [7] = none) := by
  refine ⟨⟨rfl, by decide, by decide, by decide⟩, rfl, by decide, by decide, ?_⟩
  have hcopy : matmul_transposed_copy int_ops [12297829382473034411, 3] [7]
      12297829382473034411 3 = none := by
    unfold matmul_transposed_copy
    apply for_loop_none _ _ 0 (by decide)
    intro t
    apply for_loop_none _ _ 1 (by decide)
    intro s
    rfl
  have hc : BinaryOp.compute_data int_ops int_cuda_helpers
      ⟨⟨[0, 3], 15, false⟩, ⟨[0, 12297829382473034411], 0, false⟩,
        ⟨[12297829382473034411, 3], 0, false⟩, .MATMUL⟩ [] [7] =
      matmul_cpu int_ops [12297829382473034411, 3] [] [7] 12297829382473034411 3
        (allocate_data_cpu int_ops ⟨[0, 3], 15, false⟩) := rfl
  rw [hc]
  unfold matmul_cpu
  rw [hcopy]
  rfl

/-- C17 (amended): for every successfully constructed MATMUL node with left shape (m, k) and
right shape (k, n), any of m, k, n possibly 0, whose operand element counts m * k and k * n are
below 2^64: the three assertions of the MATMUL branch hold; in the host branch the division and
modulo by `cols` are executed only with `cols` nonzero; the indices that read the right buffer
(i * cols + j), write and read the transposed copy (j * width + i, c * width + j), read the
left buffer (r * width + j) and write the output (i) are below the element counts of their
buffers; and the host evaluation returns a buffer of the node's element count. -/
theorem matmul_cpu_safe {α : Type} (S : scalar_ops α) (C : cuda_helpers α) (H : hash_utils)
    (arg1 arg2 : Tensor) (self : BinaryOp) (m k n : Nat)
    (hnew : BinaryOp.new H arg1 arg2 .MATMUL = .ok self)
    (h1 : arg1.dims = [m, k]) (h2 : arg2.dims = [k, n])
    (hmk : m * k < SIZE_T_MOD) (hkn : k * n < SIZE_T_MOD) :
    (self.leftChild.dims.length = 2 ∧ self.rightChild.dims.length = 2 ∧
      self.leftChild.dims.getD 1 0 = self.rightChild.dims.getD 0 0) ∧
    (self.rightChild.dims.getD 0 0 = k ∧ self.rightChild.dims.getD 1 0 = n) ∧
    (∀ i, i < product self.dims → n ≠ 0) ∧
    (∀ i, i < k → ∀ j, j < n →
      (i * n + j) % SIZE_T_MOD < product self.rightChild.dims ∧
      (j * k + i) % SIZE_T_MOD < product self.rightChild.dims) ∧
    (∀ i, i < product self.dims → ∀ j, j < k →
      (i / n * k) % SIZE_T_MOD + j < product self.leftChild.dims ∧
      (i % n * k) % SIZE_T_MOD + j < product self.rightChild.dims ∧
      i < product self.dims) ∧
    (self.on_gpu = false → ∀ left right : List α,
      left.length = product arg1.dims → right.length = product arg2.dims →
      ∃ out, self.compute_data S C left right = some out ∧
        out.length = product self.dims) := by
  obtain ⟨hdims, hlc, hrc, hot⟩ := BinaryOp.new_matmul_dims H arg1 arg2 self m k n hnew h1 h2
  have hpl : product self.leftChild.dims = m * k := by
    rw [hlc, h1, product_pair, Nat.mod_eq_of_lt hmk]
  have hpr : product self.rightChild.dims = k * n := by
    rw [hrc, h2, product_pair, Nat.mod_eq_of_lt hkn]
  have hps : product self.dims ≤ m * n := by
    rw [hdims, product_pair]
    exact Nat.mod_le _ _
  have hcols : ∀ i, i < product self.dims → 0 < n := by
    intro i hi
    rcases Nat.eq_zero_or_pos n with h0 | h0
    · rw [h0, Nat.mul_zero] at hps
      omega
    · exact h0
  refine ⟨?_, ?_, ?_, ?_, ?_, ?_⟩
  · rw [hlc, hrc, h1, h2]
    exact ⟨rfl, rfl, rfl⟩
  · rw [hrc, h2]
    exact ⟨rfl, rfl⟩
  · intro i hi
    exact Nat.pos_iff_ne_zero.mp (hcols i hi)
  · intro i hi j hj
    have a1 : i * n + j < k * n := flat_index_lt i k j n hi hj
    have a2 : j * k + i < k * n := by
      have := flat_index_lt j n i k hj hi
      rwa [Nat.mul_comm n k] at this
    rw [hpr, Nat.mod_eq_of_lt (lt_trans a1 hkn), Nat.mod_eq_of_lt (lt_trans a2 hkn)]
    exact ⟨a1, a2⟩
  · intro i hi j hj
    have hn := hcols i hi
    have hr2 : i / n < m := (Nat.div_lt_iff_lt_mul hn).mpr (by omega)
    have hc2 : i % n < n := Nat.mod_lt i hn
    have a1 : i / n * k + j < m * k := flat_index_lt (i / n) m j k hr2 hj
    have a2 : i % n * k + j < k * n := by
      have := flat_index_lt (i % n) n j k hc2 hj
      rwa [Nat.mul_comm n k] at this
    rw [hpl, hpr, Nat.mod_eq_of_lt (by omega : i / n * k < SIZE_T_MOD),
      Nat.mod_eq_of_lt (by omega : i % n * k < SIZE_T_MOD)]
    exact ⟨a1, a2, hi⟩
  · intro hcpu left right hl hr
    rw [← hlc, hpl] at hl
    rw [← hrc, hpr] at hr
    have hlen : (allocate_data_cpu S self.toTensor).length = product self.dims := by
      simp [allocate_data_cpu]
    have heq : self.compute_data S C left right =
        matmul_cpu S [k, n] left right k n (allocate_data_cpu S self.toTensor) := by
      unfold BinaryOp.compute_data
      rw [hot]
      simp only [hlc, hrc, h1, h2, hcpu]
      simp
    obtain ⟨out, ho, holen⟩ := matmul_cpu_total S left right m k n
      (allocate_data_cpu S self.toTensor) hl hr hmk hkn (by rw [hlen]; exact hps)
    exact ⟨out, heq.trans ho, by rw [holen, hlen]⟩

/-- Witness for C17 (amended): a (2, 3) operand times a (3, 2) operand, so that every index of
the host branch is used; the host evaluation returns [[22, 28], [49, 64]]. -/
theorem matmul_cpu_safe_witness :
    ((([2, 3] : List Nat).length = 2 ∧ ([3, 2] : List Nat).length = 2 ∧
        ([2, 3] : List Nat).getD 1 0 = ([3, 2] : List Nat).getD 0 0) ∧
      (([3, 2] : List Nat).getD 0 0 = 3 ∧ ([3, 2] : List Nat).getD 1 0 = 2) ∧
      (∀ i, i < product [2, 2] → 2 ≠ 0) ∧
      (∀ i, i < 3 → ∀ j, j < 2 →
        (i * 2 + j) % SIZE_T_MOD < product [3, 2] ∧
        (j * 3 + i) % SIZE_T_MOD < product [3, 2]) ∧
      (∀ i, i < product [2, 2] → ∀ j, j < 3 →
        (i / 2 * 3) % SIZE_T_MOD + j < product [2, 3] ∧
        (i % 2 * 3) % SIZE_T_MOD + j < product [3, 2] ∧
        i < product [2, 2]) ∧
      (false = false → ∀ left right : List Int,
        left.length = product [2, 3] → right.length = product [3, 2] →
        ∃ out, BinaryOp.compute_data int_ops int_cuda_helpers
            ⟨⟨[2, 2], 16, false⟩, ⟨[2, 3], 0, false⟩, ⟨[3, 2], 0, false⟩, .MATMUL⟩ left right
              = some out ∧
          out.length = product [2, 2])) ∧
    BinaryOp.compute_data int_ops int_cuda_helpers
        ⟨⟨[2, 2], 16, false⟩, ⟨[2, 3], 0, false⟩, ⟨[3, 2], 0, false⟩, .MATMUL⟩
        [1, 2, 3, 4, 5, 6] [1, 2, 3, 4, 5, 6] = some [22, 28, 49, 64] :=
  ⟨matmul_cpu_safe int_ops int_cuda_helpers sum_hash_utils ⟨[2, 3], 0, false⟩
      ⟨[3, 2], 0, false⟩
      ⟨⟨[2, 2], 16, false⟩, ⟨[2, 3], 0, false⟩, ⟨[3, 2], 0, false⟩, .MATMUL⟩ 2 3 2
      rfl rfl rfl (by decide) (by decide),
    by decide⟩

/-- C18: for every si and sj whose product fits `size_t`, a thread (i, j) of
`kernel_matmul_2d` writes the output buffer only if i < si and j < sj; a thread inside the
range that returns has made a single store, of the sum left by its two reduction loops, at the
cell i * sj + j, which is below si * sj; the map from (i, j) to i * sj + j is a bijection from
the cells with i < si and j < sj onto [0, si * sj); with operand buffers of shapes (si, sk) and
(sj, sk), a thread inside the range stores the reduction of its cell, and the run of any list
of threads is the sequence of the stores of its threads inside the range; hence over a list of
threads in which every such (i, j) is the position of exactly one thread, every output cell is
stored to exactly once and holds the reduction of its cell afterwards, the cells beyond
si * sj are unchanged, and the threads outside the range leave the buffer unchanged. -/
theorem kernel_matmul_2d_frame {α : Type} (S : scalar_ops α) (in1 in2 : List α)
    (out : CudaArrayRef α) (si sj sk : Nat) (blockDim : dim3)
    (hb3 : si * sj < SIZE_T_MOD) :
    (∀ blockIdx threadIdx,
      ¬ (thread_index blockIdx.x blockDim.x threadIdx.x < si
        ∧ thread_index blockIdx.y blockDim.y threadIdx.y < sj) →
      kernel_matmul_2d S in1 in2 out si sj sk blockIdx blockDim threadIdx = some out) ∧
    (∀ blockIdx threadIdx out2,
      thread_index blockIdx.x blockDim.x threadIdx.x < si →
      thread_index blockIdx.y blockDim.y threadIdx.y < sj →
      kernel_matmul_2d S in1 in2 out si sj sk blockIdx blockDim threadIdx = some out2 →
      kernel_matmul_2d_cell si sj blockDim (blockIdx, threadIdx) =
        some (thread_index blockIdx.x blockDim.x threadIdx.x * sj
          + thread_index blockIdx.y blockDim.y threadIdx.y) ∧
      thread_index blockIdx.x blockDim.x threadIdx.x * sj
        + thread_index blockIdx.y blockDim.y threadIdx.y < si * sj ∧
      thread_index blockIdx.x blockDim.x threadIdx.x * sj
        + thread_index blockIdx.y blockDim.y threadIdx.y < out.ptr.length ∧
      ∃ s1 s2,
        while_loop (fun s : Nat × α => decide ((s.1 + 3) % SIZE_T_MOD < sk))
          (kernel_matmul_2d_unrolled S in1 in2 (thread_index blockIdx.x blockDim.x threadIdx.x)
            (thread_index blockIdx.y blockDim.y threadIdx.y) sk) (sk + 1) (0, S.zero) = some s1 ∧
        while_loop (fun s : Nat × α => decide (s.1 < sk))
          (kernel_matmul_2d_remainder S in1 in2 (thread_index blockIdx.x blockDim.x threadIdx.x)
            (thread_index blockIdx.y blockDim.y threadIdx.y) sk) (sk + 1) s1 = some s2 ∧
        out2 = ⟨out.ptr.set (thread_index blockIdx.x blockDim.x threadIdx.x * sj
          + thread_index blockIdx.y blockDim.y threadIdx.y) s2.2, out.length⟩) ∧
    ((∀ i j i2 j2, i < si → j < sj → i2 < si → j2 < sj →
        i * sj + j = i2 * sj + j2 → i = i2 ∧ j = j2) ∧
      (∀ i j, i < si → j < sj → i * sj + j < si * sj) ∧
      (∀ c, c < si * sj → ∃ i j, i < si ∧ j < sj ∧ i * sj + j = c)) ∧
    (∀ ths : List (dim3 × dim3),
      (∀ i, i < si → ∀ j, j < sj → ths.countP (fun th =>
        decide (thread_index th.1.x blockDim.x th.2.x = i
          ∧ thread_index th.1.y blockDim.y th.2.y = j)) = 1) →
      ∀ c, c < si * sj →
        (ths.filterMap (kernel_matmul_2d_cell si sj blockDim)).count c = 1) ∧
    (∀ blockIdx threadIdx,
      thread_index blockIdx.x blockDim.x threadIdx.x < si →
      thread_index blockIdx.y blockDim.y threadIdx.y < sj →
      in1.length = si * sk → in2.length = sj * sk →
      si * sk < SIZE_T_MOD → sj * sk < SIZE_T_MOD → out.ptr.length = si * sj →
      kernel_matmul_2d S in1 in2 out si sj sk blockIdx blockDim threadIdx =
        some ⟨out.ptr.set
          (thread_index blockIdx.x blockDim.x threadIdx.x * sj
            + thread_index blockIdx.y blockDim.y threadIdx.y)
          (sum_range S sk fun k =>
            S.mul (in1.getD (thread_index blockIdx.x blockDim.x threadIdx.x * sk + k) S.zero)
              (in2.getD (thread_index blockIdx.y blockDim.y threadIdx.y * sk + k) S.zero)),
          out.length⟩) ∧
    (∀ ths : List (dim3 × dim3),
      in1.length = si * sk → in2.length = sj * sk →
      si * sk < SIZE_T_MOD → sj * sk < SIZE_T_MOD →
      run_threads (fun blockIdx threadIdx o =>
          kernel_matmul_2d S in1 in2 o si sj sk blockIdx blockDim threadIdx) ths out =
        (write_cells (fun c => some (sum_range S sk fun k =>
            S.mul (in1.getD (c / sj * sk + k) S.zero) (in2.getD (c % sj * sk + k) S.zero)))
          (ths.filterMap (kernel_matmul_2d_cell si sj blockDim)) out.ptr).map
          (fun q => ⟨q, out.length⟩) ∧
      ((∀ i, i < si → ∀ j, j < sj → ths.countP (fun th =>
          decide (thread_index th.1.x blockDim.x th.2.x = i
            ∧ thread_index th.1.y blockDim.y th.2.y = j)) = 1) →
        si * sj ≤ out.ptr.length →
        ∃ dev, run_threads (fun blockIdx threadIdx o =>
            kernel_matmul_2d S in1 in2 o si sj sk blockIdx blockDim threadIdx) ths out =
            some ⟨dev, out.length⟩ ∧
          dev.length = out.ptr.length ∧
          (∀ c, c < si * sj →
            (ths.filterMap (kernel_matmul_2d_cell si sj blockDim)).count c = 1 ∧
            dev[c]? = some (sum_range S sk fun k =>
              S.mul (in1.getD (c / sj * sk + k) S.zero)
                (in2.getD (c % sj * sk + k) S.zero))) ∧
          ∀ c, si * sj ≤ c → dev[c]? = out.ptr[c]?)) := by
  refine ⟨?_, ?_, flat_index_bijection si sj, ?_, ?_, ?_⟩
  · intro blockIdx threadIdx hout
    unfold kernel_matmul_2d
    simp only [hout, if_false]
  · intro blockIdx threadIdx out2 hi hj hk
    have hlt := flat_index_lt _ si _ sj hi hj
    have hcell : kernel_matmul_2d_cell si sj blockDim (blockIdx, threadIdx) =
        some (thread_index blockIdx.x blockDim.x threadIdx.x * sj
          + thread_index blockIdx.y blockDim.y threadIdx.y) := by
      unfold kernel_matmul_2d_cell
      simp only [hi, hj, and_self, if_true, Nat.mod_eq_of_lt (lt_trans hlt hb3)]
    have hw := kernel_matmul_2d_writes S in1 in2 out out2 si sj sk blockIdx blockDim
      threadIdx hk
    rw [hcell] at hw
    exact ⟨hcell, hlt, hw.1, hw.2⟩
  · intro ths honce c hc
    exact kernel_matmul_2d_cell_count si sj blockDim ths hb3 honce c hc
  · intro blockIdx threadIdx hi hj h1 h2 hb1 hb2 hout
    rcases out with ⟨p, len⟩
    simp only at hout
    have hlt := flat_index_lt _ si _ sj hi hj
    rw [kernel_matmul_2d_eq S in1 in2 p len si sj sk blockIdx blockDim threadIdx
      h1 h2 hb1 hb2 hb3]
    simp only [hi, hj, and_self, if_true, Option.some_bind, flat_index_div _ _ sj hj,
      flat_index_mod _ _ sj hj]
    rw [buffer_store_some p _ _ (by rw [hout]; exact hlt)]
    rfl
  · intro ths h1 h2 hb1 hb2
    rcases out with ⟨p, len⟩
    refine ⟨kernel_matmul_2d_run S in1 in2 p len si sj sk blockDim ths h1 h2 hb1 hb2 hb3, ?_⟩
    intro honce hout
    simp only at hout
    obtain ⟨dev, hdev, hdlen, hdcell, hframe⟩ := kernel_matmul_2d_grid_cells S in1 in2 p len
      si sj sk blockDim ths h1 h2 hb1 hb2 hb3 hout (cover_of_once si sj blockDim ths honce)
    refine ⟨dev, hdev, hdlen, ?_, hframe⟩
    intro c hc
    exact ⟨kernel_matmul_2d_cell_count si sj blockDim ths hb3 honce c hc, hdcell c hc⟩

/-- Witness for C18: a 2 by 2 output on one block of 3 by 3 threads, for the operands
[[1,2],[3,4]] and the transpose of [[5,6],[7,8]]; thread (2, 0) is outside the range and leaves
the buffer unchanged, thread (1, 0) stores 43 into cell 2, cell 3 is stored to exactly once,
and after the run of the block the buffer holds [19, 22, 43, 50]. -/
theorem kernel_matmul_2d_frame_witness :
    kernel_matmul_2d int_ops [1, 2, 3, 4] [5, 7, 6, 8] ⟨[0, 0, 0, 0], 4⟩ 2 2 2
        ⟨0, 0, 0⟩ ⟨3, 3, 1⟩ ⟨2, 0, 0⟩ = some ⟨[0, 0, 0, 0], 4⟩ ∧
      ((grid_threads ⟨1, 1, 1⟩ ⟨3, 3, 1⟩).filterMap
        (kernel_matmul_2d_cell 2 2 ⟨3, 3, 1⟩)).count 3 = 1 ∧
      kernel_matmul_2d int_ops [1, 2, 3, 4] [5, 7, 6, 8] ⟨[0, 0, 0, 0], 4⟩ 2 2 2
          ⟨0, 0, 0⟩ ⟨3, 3, 1⟩ ⟨1, 0, 0⟩ =
        some ⟨[0, 0, 0, 0].set (thread_index 0 3 1 * 2 + thread_index 0 3 0)
          (sum_range int_ops 2 fun k =>
            int_ops.mul (([1, 2, 3, 4] : List Int).getD (thread_index 0 3 1 * 2 + k) 0)
              (([5, 7, 6, 8] : List Int).getD (thread_index 0 3 0 * 2 + k) 0)), 4⟩ ∧
      (∃ dev, run_threads (fun blockIdx threadIdx o =>
            kernel_matmul_2d int_ops [1, 2, 3, 4] [5, 7, 6, 8] o 2 2 2
              blockIdx ⟨3, 3, 1⟩ threadIdx)
            (grid_threads ⟨1, 1, 1⟩ ⟨3, 3, 1⟩) ⟨[0, 0, 0, 0], 4⟩ = some ⟨dev, 4⟩ ∧
          dev.length = ([0, 0, 0, 0] : List Int).length ∧
          (∀ c, c < 2 * 2 →
            ((grid_threads ⟨1, 1, 1⟩ ⟨3, 3, 1⟩).filterMap
              (kernel_matmul_2d_cell 2 2 ⟨3, 3, 1⟩)).count c = 1 ∧
            dev[c]? = some (sum_range int_ops 2 fun k =>
              int_ops.mul (([1, 2, 3, 4] : List Int).getD (c / 2 * 2 + k) int_ops.zero)
                (([5, 7, 6, 8] : List Int).getD (c % 2 * 2 + k) int_ops.zero))) ∧
          ∀ c, 2 * 2 ≤ c → dev[c]? = ([0, 0, 0, 0] : List Int)[c]?) ∧
      (run_threads (fun blockIdx threadIdx o =>
          kernel_matmul_2d int_ops [1, 2, 3, 4] [5, 7, 6, 8] o 2 2 2
            blockIdx ⟨3, 3, 1⟩ threadIdx)
          (grid_threads ⟨1, 1, 1⟩ ⟨3, 3, 1⟩) ⟨[0, 0, 0, 0], 4⟩).map (fun o => o.ptr) =
        some [19, 22, 43, 50] :=
  ⟨(kernel_matmul_2d_frame int_ops [1, 2, 3, 4] [5, 7, 6, 8] ⟨[0, 0, 0, 0], 4⟩ 2 2 2
      ⟨3, 3, 1⟩ (by decide)).1 ⟨0, 0, 0⟩ ⟨2, 0, 0⟩ (by decide),
    (kernel_matmul_2d_frame int_ops [1, 2, 3, 4] [5, 7, 6, 8] ⟨[0, 0, 0, 0], 4⟩ 2 2 2
      ⟨3, 3, 1⟩ (by decide)).2.2.2.1 (grid_threads ⟨1, 1, 1⟩ ⟨3, 3, 1⟩) (by decide) 3
      (by decide),
    (kernel_matmul_2d_frame int_ops [1, 2, 3, 4] [5, 7, 6, 8] ⟨[0, 0, 0, 0], 4⟩ 2 2 2
      ⟨3, 3, 1⟩ (by decide)).2.2.2.2.1 ⟨0, 0, 0⟩ ⟨1, 0, 0⟩ (by decide) (by decide)
      rfl rfl (by decide) (by decide) rfl,
    ((kernel_matmul_2d_frame int_ops [1, 2, 3, 4] [5, 7, 6, 8] ⟨[0, 0, 0, 0], 4⟩ 2 2 2
      ⟨3, 3, 1⟩ (by decide)).2.2.2.2.2 (grid_threads ⟨1, 1, 1⟩ ⟨3, 3, 1⟩)
      rfl rfl (by decide) (by decide)).2 (by decide) (by decide),
    by decide⟩

end GraphGrad
